import Mathlib

/-!
# Assertion expressions of `libkb` (go/libkb/assertion.go)

A shallow embedding of the assertion expression engine: atoms
(`AssertionURL`), the AND/OR expression tree (`AssertionExpression`),
proof sets, matching, rendering, best-component selection and the
remote/local partition, followed by the properties proved about them.

Conventions of the embedding.

* A Go `string` is a Lean `String` (a sequence of Unicode scalar values,
  i.e. a valid UTF-8 string).  Where the source counts or slices bytes
  (`len`, `v[i:]`) the embedding works on the UTF-8 encoding `bytesOf`.
* A Go slice is a `List`; a `nil` interface value is `none`.
* A run-time panic (slice index out of range) is `none` in an `Option` result.
* A `for ... range` loop is a structurally recursive function over the list.
-/

namespace libkb

/-! ## Go strings -/

/-- The UTF-8 bytes of a Go string. -/
def bytesOf (s : String) : List UInt8 :=
  s.data.flatMap String.utf8EncodeChar

/-- Go builtin `len` on a string: the number of bytes. -/
def len (s : String) : Int :=
  ((bytesOf s).length : Nat)

/-- Go slice expression `s[lo:]` on a string, as bytes; `none` is the
run-time panic for an index outside `0 ≤ lo ≤ len(s)`. -/
def sliceFrom (s : String) (lo : Int) : Option (List UInt8) :=
  if 0 ≤ lo ∧ lo ≤ len s then some ((bytesOf s).drop lo.toNat) else none

/-- The lower-case mappings of the runes above ASCII, which the Go standard
library keeps in the table `unicode.CaseRanges`, in range form: an entry
`(lo, hi, stride, lower)` says that the runes `lo`, `lo + stride`, ... up to
`hi` are upper case, that the lower-case form of `lo` is `lower` and that the
others follow at the same distance.  The entries are the simple lower-case
mapping of the Unicode character database (version 14.0); a rune in no
entry is its own lower-case form. -/
def unicode.lowerRanges : List (Nat × Nat × Nat × Nat) :=
  [(0xC0, 0xD6, 1, 0xE0), (0xD8, 0xDE, 1, 0xF8), (0x100, 0x12E, 2, 0x101),
   (0x130, 0x130, 1, 0x69), (0x132, 0x136, 2, 0x133), (0x139, 0x147, 2, 0x13A),
   (0x14A, 0x176, 2, 0x14B), (0x178, 0x178, 1, 0xFF), (0x179, 0x17D, 2, 0x17A),
   (0x181, 0x181, 1, 0x253), (0x182, 0x184, 2, 0x183), (0x186, 0x186, 1, 0x254),
   (0x187, 0x187, 1, 0x188), (0x189, 0x18A, 1, 0x256), (0x18B, 0x18B, 1, 0x18C),
   (0x18E, 0x18E, 1, 0x1DD), (0x18F, 0x18F, 1, 0x259), (0x190, 0x190, 1, 0x25B),
   (0x191, 0x191, 1, 0x192), (0x193, 0x193, 1, 0x260), (0x194, 0x194, 1, 0x263),
   (0x196, 0x196, 1, 0x269), (0x197, 0x197, 1, 0x268), (0x198, 0x198, 1, 0x199),
   (0x19C, 0x19C, 1, 0x26F), (0x19D, 0x19D, 1, 0x272), (0x19F, 0x19F, 1, 0x275),
   (0x1A0, 0x1A4, 2, 0x1A1), (0x1A6, 0x1A6, 1, 0x280), (0x1A7, 0x1A7, 1, 0x1A8),
   (0x1A9, 0x1A9, 1, 0x283), (0x1AC, 0x1AC, 1, 0x1AD), (0x1AE, 0x1AE, 1, 0x288),
   (0x1AF, 0x1AF, 1, 0x1B0), (0x1B1, 0x1B2, 1, 0x28A), (0x1B3, 0x1B5, 2, 0x1B4),
   (0x1B7, 0x1B7, 1, 0x292), (0x1B8, 0x1B8, 1, 0x1B9), (0x1BC, 0x1BC, 1, 0x1BD),
   (0x1C4, 0x1C4, 1, 0x1C6), (0x1C5, 0x1C5, 1, 0x1C6), (0x1C7, 0x1C7, 1, 0x1C9),
   (0x1C8, 0x1C8, 1, 0x1C9), (0x1CA, 0x1CA, 1, 0x1CC), (0x1CB, 0x1DB, 2, 0x1CC),
   (0x1DE, 0x1EE, 2, 0x1DF), (0x1F1, 0x1F1, 1, 0x1F3), (0x1F2, 0x1F4, 2, 0x1F3),
   (0x1F6, 0x1F6, 1, 0x195), (0x1F7, 0x1F7, 1, 0x1BF), (0x1F8, 0x21E, 2, 0x1F9),
   (0x220, 0x220, 1, 0x19E), (0x222, 0x232, 2, 0x223), (0x23A, 0x23A, 1, 0x2C65),
   (0x23B, 0x23B, 1, 0x23C), (0x23D, 0x23D, 1, 0x19A), (0x23E, 0x23E, 1, 0x2C66),
   (0x241, 0x241, 1, 0x242), (0x243, 0x243, 1, 0x180), (0x244, 0x244, 1, 0x289),
   (0x245, 0x245, 1, 0x28C), (0x246, 0x24E, 2, 0x247), (0x370, 0x372, 2, 0x371),
   (0x376, 0x376, 1, 0x377), (0x37F, 0x37F, 1, 0x3F3), (0x386, 0x386, 1, 0x3AC),
   (0x388, 0x38A, 1, 0x3AD), (0x38C, 0x38C, 1, 0x3CC), (0x38E, 0x38F, 1, 0x3CD),
   (0x391, 0x3A1, 1, 0x3B1), (0x3A3, 0x3AB, 1, 0x3C3), (0x3CF, 0x3CF, 1, 0x3D7),
   (0x3D8, 0x3EE, 2, 0x3D9), (0x3F4, 0x3F4, 1, 0x3B8), (0x3F7, 0x3F7, 1, 0x3F8),
   (0x3F9, 0x3F9, 1, 0x3F2), (0x3FA, 0x3FA, 1, 0x3FB), (0x3FD, 0x3FF, 1, 0x37B),
   (0x400, 0x40F, 1, 0x450), (0x410, 0x42F, 1, 0x430), (0x460, 0x480, 2, 0x461),
   (0x48A, 0x4BE, 2, 0x48B), (0x4C0, 0x4C0, 1, 0x4CF), (0x4C1, 0x4CD, 2, 0x4C2),
   (0x4D0, 0x52E, 2, 0x4D1), (0x531, 0x556, 1, 0x561), (0x10A0, 0x10C5, 1, 0x2D00),
   (0x10C7, 0x10C7, 1, 0x2D27), (0x10CD, 0x10CD, 1, 0x2D2D), (0x13A0, 0x13EF, 1, 0xAB70),
   (0x13F0, 0x13F5, 1, 0x13F8), (0x1C90, 0x1CBA, 1, 0x10D0), (0x1CBD, 0x1CBF, 1, 0x10FD),
   (0x1E00, 0x1E94, 2, 0x1E01), (0x1E9E, 0x1E9E, 1, 0xDF), (0x1EA0, 0x1EFE, 2, 0x1EA1),
   (0x1F08, 0x1F0F, 1, 0x1F00), (0x1F18, 0x1F1D, 1, 0x1F10), (0x1F28, 0x1F2F, 1, 0x1F20),
   (0x1F38, 0x1F3F, 1, 0x1F30), (0x1F48, 0x1F4D, 1, 0x1F40), (0x1F59, 0x1F5F, 2, 0x1F51),
   (0x1F68, 0x1F6F, 1, 0x1F60), (0x1F88, 0x1F8F, 1, 0x1F80), (0x1F98, 0x1F9F, 1, 0x1F90),
   (0x1FA8, 0x1FAF, 1, 0x1FA0), (0x1FB8, 0x1FB9, 1, 0x1FB0), (0x1FBA, 0x1FBB, 1, 0x1F70),
   (0x1FBC, 0x1FBC, 1, 0x1FB3), (0x1FC8, 0x1FCB, 1, 0x1F72), (0x1FCC, 0x1FCC, 1, 0x1FC3),
   (0x1FD8, 0x1FD9, 1, 0x1FD0), (0x1FDA, 0x1FDB, 1, 0x1F76), (0x1FE8, 0x1FE9, 1, 0x1FE0),
   (0x1FEA, 0x1FEB, 1, 0x1F7A), (0x1FEC, 0x1FEC, 1, 0x1FE5), (0x1FF8, 0x1FF9, 1, 0x1F78),
   (0x1FFA, 0x1FFB, 1, 0x1F7C), (0x1FFC, 0x1FFC, 1, 0x1FF3), (0x2126, 0x2126, 1, 0x3C9),
   (0x212A, 0x212A, 1, 0x6B), (0x212B, 0x212B, 1, 0xE5), (0x2132, 0x2132, 1, 0x214E),
   (0x2160, 0x216F, 1, 0x2170), (0x2183, 0x2183, 1, 0x2184), (0x24B6, 0x24CF, 1, 0x24D0),
   (0x2C00, 0x2C2F, 1, 0x2C30), (0x2C60, 0x2C60, 1, 0x2C61), (0x2C62, 0x2C62, 1, 0x26B),
   (0x2C63, 0x2C63, 1, 0x1D7D), (0x2C64, 0x2C64, 1, 0x27D), (0x2C67, 0x2C6B, 2, 0x2C68),
   (0x2C6D, 0x2C6D, 1, 0x251), (0x2C6E, 0x2C6E, 1, 0x271), (0x2C6F, 0x2C6F, 1, 0x250),
   (0x2C70, 0x2C70, 1, 0x252), (0x2C72, 0x2C72, 1, 0x2C73), (0x2C75, 0x2C75, 1, 0x2C76),
   (0x2C7E, 0x2C7F, 1, 0x23F), (0x2C80, 0x2CE2, 2, 0x2C81), (0x2CEB, 0x2CED, 2, 0x2CEC),
   (0x2CF2, 0x2CF2, 1, 0x2CF3), (0xA640, 0xA66C, 2, 0xA641), (0xA680, 0xA69A, 2, 0xA681),
   (0xA722, 0xA72E, 2, 0xA723), (0xA732, 0xA76E, 2, 0xA733), (0xA779, 0xA77B, 2, 0xA77A),
   (0xA77D, 0xA77D, 1, 0x1D79), (0xA77E, 0xA786, 2, 0xA77F), (0xA78B, 0xA78B, 1, 0xA78C),
   (0xA78D, 0xA78D, 1, 0x265), (0xA790, 0xA792, 2, 0xA791), (0xA796, 0xA7A8, 2, 0xA797),
   (0xA7AA, 0xA7AA, 1, 0x266), (0xA7AB, 0xA7AB, 1, 0x25C), (0xA7AC, 0xA7AC, 1, 0x261),
   (0xA7AD, 0xA7AD, 1, 0x26C), (0xA7AE, 0xA7AE, 1, 0x26A), (0xA7B0, 0xA7B0, 1, 0x29E),
   (0xA7B1, 0xA7B1, 1, 0x287), (0xA7B2, 0xA7B2, 1, 0x29D), (0xA7B3, 0xA7B3, 1, 0xAB53),
   (0xA7B4, 0xA7C2, 2, 0xA7B5), (0xA7C4, 0xA7C4, 1, 0xA794), (0xA7C5, 0xA7C5, 1, 0x282),
   (0xA7C6, 0xA7C6, 1, 0x1D8E), (0xA7C7, 0xA7C9, 2, 0xA7C8), (0xA7D0, 0xA7D0, 1, 0xA7D1),
   (0xA7D6, 0xA7D8, 2, 0xA7D7), (0xA7F5, 0xA7F5, 1, 0xA7F6), (0xFF21, 0xFF3A, 1, 0xFF41),
   (0x10400, 0x10427, 1, 0x10428), (0x104B0, 0x104D3, 1, 0x104D8), (0x10570, 0x1057A, 1, 0x10597),
   (0x1057C, 0x1058A, 1, 0x105A3), (0x1058C, 0x10592, 1, 0x105B3), (0x10594, 0x10595, 1, 0x105BB),
   (0x10C80, 0x10CB2, 1, 0x10CC0), (0x118A0, 0x118BF, 1, 0x118C0), (0x16E40, 0x16E5F, 1, 0x16E60),
   (0x1E900, 0x1E921, 1, 0x1E922)]

/-- Lookup of a rune in a table of ranges, the first matching entry
deciding; a rune in no entry is returned unchanged. -/
def unicode.lowerIn : List (Nat × Nat × Nat × Nat) → Nat → Nat
  | [], n => n
  | (lo, hi, stride, lower) :: rs, n =>
    if lo ≤ n ∧ n ≤ hi ∧ (n - lo) % stride = 0 then lower + (n - lo)
    else unicode.lowerIn rs n

/-- Go `unicode.ToLower` on one rune: the ASCII letters `A` to `Z` by
arithmetic, the other ASCII runes unchanged, the runes above ASCII through
the case table. -/
def unicode.ToLower (c : Char) : Char :=
  if c.val ≤ 0x7f then c.toLower
  else Char.ofNat (unicode.lowerIn unicode.lowerRanges c.toNat)

/-- Go `strings.ToLower`: maps every rune of the string to lower case. -/
def strings.ToLower (s : String) : String :=
  ⟨s.data.map unicode.ToLower⟩

/-- Go `strings.Join`: the elements with `sep` between neighbours. -/
def strings.Join (elems : List String) (sep : String) : String :=
  sep.intercalate elems

/-! ## Data model -/

/-- Modelled from the spec: the identifier types of package `keybase1`
(`UID`, `TeamID`, `TeamName`) are declared outside `assertion.go`; they are
opaque decoded identifiers, kept here as their string form, the nil value
being the empty string. -/
abbrev keybase1.UID := String

/-- Modelled from the spec: see `keybase1.UID`. -/
abbrev keybase1.TeamID := String

/-- Modelled from the spec: see `keybase1.UID`. -/
abbrev keybase1.TeamName := String

/-- Source `type AssertionURLBase struct { Key, Value string }`. -/
structure AssertionURLBase where
  Key : String
  Value : String
deriving DecidableEq, Repr

/-- The ten atom types of the source that implement `AssertionURL`; each
embeds `AssertionURLBase`, three of them carry a cached decoded identifier. -/
inductive AssertionURL where
  | Social (b : AssertionURLBase)
  | Web (b : AssertionURLBase)
  | Keybase (b : AssertionURLBase)
  | UID (b : AssertionURLBase) (uid : keybase1.UID)
  | TeamID (b : AssertionURLBase) (tid : keybase1.TeamID)
  | TeamName (b : AssertionURLBase) (name : keybase1.TeamName)
  | HTTP (b : AssertionURLBase)
  | HTTPS (b : AssertionURLBase)
  | DNS (b : AssertionURLBase)
  | Fingerprint (b : AssertionURLBase)
deriving DecidableEq, Repr

/-- The implementations of the interface `AssertionExpression`:
`AssertionOr { symbol, terms }`, `AssertionAnd { factors }` and the atoms. -/
inductive AssertionExpression where
  | Or (symbol : String) (terms : List AssertionExpression)
  | And (factors : List AssertionExpression)
  | URL (u : AssertionURL)

/-- Source `type Proof struct { Key, Value string }`. -/
structure Proof where
  Key : String
  Value : String
deriving DecidableEq, Repr

/-- Source `type ProofSet struct { proofs map[string][]Proof }`; the map is
a lookup function, `none` standing for an absent key. -/
structure ProofSet where
  proofs : String → Option (List Proof)

/-! ## Atoms -/

/-- The embedded `AssertionURLBase` of an atom. -/
def AssertionURL.base : AssertionURL → AssertionURLBase
  | .Social b => b
  | .Web b => b
  | .Keybase b => b
  | .UID b _ => b
  | .TeamID b _ => b
  | .TeamName b _ => b
  | .HTTP b => b
  | .HTTPS b => b
  | .DNS b => b
  | .Fingerprint b => b

/-- Source `AssertionURLBase.ToKeyValuePair`. -/
def AssertionURL.ToKeyValuePair (u : AssertionURL) : String × String :=
  (u.base.Key, u.base.Value)

/-- Source `AssertionURLBase.GetKey`. -/
def AssertionURL.GetKey (u : AssertionURL) : String :=
  u.base.Key

/-- Source `GetValue` (`AssertionURLBase` and `AssertionSocial` agree). -/
def AssertionURL.GetValue (u : AssertionURL) : String :=
  u.base.Value

/-- Source `IsKeybase`: true on `AssertionKeybase` only. -/
def AssertionURL.IsKeybase : AssertionURL → Bool
  | .Keybase _ => true
  | _ => false

/-- Source `IsUID`: true on `AssertionUID` only. -/
def AssertionURL.IsUID : AssertionURL → Bool
  | .UID _ _ => true
  | _ => false

/-- Source `IsTeamID`: true on `AssertionTeamID` only. -/
def AssertionURL.IsTeamID : AssertionURL → Bool
  | .TeamID _ _ => true
  | _ => false

/-- Source `IsTeamName`: true on `AssertionTeamName` only. -/
def AssertionURL.IsTeamName : AssertionURL → Bool
  | .TeamName _ _ => true
  | _ => false

/-- Source `IsSocial`: true on `AssertionSocial` only. -/
def AssertionURL.IsSocial : AssertionURL → Bool
  | .Social _ => true
  | _ => false

/-- Source `IsFingerprint`: true on `AssertionFingerprint` only. -/
def AssertionURL.IsFingerprint : AssertionURL → Bool
  | .Fingerprint _ => true
  | _ => false

/-- Source `IsRemote`: overridden to true on `AssertionSocial`,
`AssertionWeb`, `AssertionHTTP`, `AssertionHTTPS` and `AssertionDNS`. -/
def AssertionURL.IsRemote : AssertionURL → Bool
  | .Social _ => true
  | .Web _ => true
  | .HTTP _ => true
  | .HTTPS _ => true
  | .DNS _ => true
  | _ => false

/-- Source `Keys`: `AssertionWeb` and `AssertionHTTP` override the base. -/
def AssertionURL.Keys : AssertionURL → List String
  | .Web _ => ["dns", "http", "https"]
  | .HTTP _ => ["http", "https"]
  | u => [u.base.Key]

/-- Source `AssertionURLBase.MatchProof`. -/
def AssertionURLBase.MatchProof (b : AssertionURLBase) (proof : Proof) : Bool :=
  strings.ToLower proof.Value == b.Value

/-- Source `AssertionFingerprint.MatchProof`, with the slice bounds check
made explicit: `none` would be the out-of-range panic. -/
def AssertionFingerprint.MatchProof (a : AssertionURLBase) (proof : Proof) : Option Bool :=
  let v1 := strings.ToLower proof.Value
  let v2 := a.Value
  let l1 := len v1
  let l2 := len v2
  if l2 > l1 then some false
  else (sliceFrom v1 (l1 - l2)).map (fun t => t == bytesOf v2)

/-- Method `MatchProof` as dispatched on the atom type; the fingerprint rule
never panics (`AssertionFingerprint.MatchProof_eq`), so its result is
read off the `Option`. -/
def AssertionURL.MatchProof : AssertionURL → Proof → Bool
  | .Fingerprint b, p =>
    match AssertionFingerprint.MatchProof b p with
    | some r => r
    | none => false
  | u, p => u.base.MatchProof p

/-- Source `AssertionURLBase.String` (`fmt.Sprintf("%s@%s", Value, Key)`),
overridden by `AssertionKeybase.String`. -/
def AssertionURL.String : AssertionURL → String
  | .Keybase b => b.Value
  | u => u.base.Value ++ "@" ++ u.base.Key

/-! ## Proof sets -/

/-- Source `ProofSet.Add`. -/
def ProofSet.Add (ps : ProofSet) (p : Proof) : ProofSet :=
  { proofs := fun k =>
      if k = p.Key then some ((ps.proofs p.Key).getD [] ++ [p]) else ps.proofs k }

/-- The loop of `NewProofSet`. -/
def NewProofSet.loop : List Proof → ProofSet → ProofSet
  | [], ret => ret
  | proof :: rest, ret => NewProofSet.loop rest (ret.Add proof)

/-- Source `NewProofSet`. -/
def NewProofSet (proofs : List Proof) : ProofSet :=
  NewProofSet.loop proofs { proofs := fun _ => none }

/-- The loop of `ProofSet.Get`. -/
def ProofSet.Get.loop (ps : ProofSet) : List String → List Proof → List Proof
  | [], ret => ret
  | key :: keys, ret =>
    match ps.proofs key with
    | some v => ProofSet.Get.loop ps keys (ret ++ v)
    | none => ProofSet.Get.loop ps keys ret

/-- Source `ProofSet.Get`. -/
def ProofSet.Get (ps : ProofSet) (keys : List String) : List Proof :=
  ProofSet.Get.loop ps keys []

/-! ## Matching -/

/-- The loop of `AssertionURLBase.matchSet` over the looked-up proofs. -/
def AssertionURLBase.matchSet.loop (v : AssertionURL) : List Proof → Bool
  | [] => false
  | proof :: proofs =>
    if v.MatchProof proof then true else AssertionURLBase.matchSet.loop v proofs

/-- Source `AssertionURLBase.matchSet`. -/
def AssertionURLBase.matchSet (v : AssertionURL) (ps : ProofSet) : Bool :=
  AssertionURLBase.matchSet.loop v (ps.Get v.Keys)

mutual
/-- Method `MatchSet` of the three kinds of node. -/
def AssertionExpression.MatchSet : AssertionExpression → ProofSet → Bool
  | .Or _ terms, ps => AssertionOr.MatchSet.loop terms ps
  | .And factors, ps => AssertionAnd.MatchSet.loop factors ps
  | .URL u, ps => AssertionURLBase.matchSet u ps
/-- The loop of `AssertionOr.MatchSet`. -/
def AssertionOr.MatchSet.loop : List AssertionExpression → ProofSet → Bool
  | [], _ => false
  | t :: ts, ps =>
    if AssertionExpression.MatchSet t ps then true else AssertionOr.MatchSet.loop ts ps
/-- The loop of `AssertionAnd.MatchSet`. -/
def AssertionAnd.MatchSet.loop : List AssertionExpression → ProofSet → Bool
  | [], _ => true
  | f :: fs, ps =>
    if !AssertionExpression.MatchSet f ps then false else AssertionAnd.MatchSet.loop fs ps
end

/-! ## Structure of the tree -/

mutual
/-- Method `HasOr`: true on an Or node, false on an atom. -/
def AssertionExpression.HasOr : AssertionExpression → Bool
  | .Or _ _ => true
  | .And factors => AssertionAnd.HasOr.loop factors
  | .URL _ => false
/-- The loop of `AssertionAnd.HasOr`. -/
def AssertionAnd.HasOr.loop : List AssertionExpression → Bool
  | [] => false
  | f :: fs => if AssertionExpression.HasOr f then true else AssertionAnd.HasOr.loop fs
end

/-- The type assertion `f.(AssertionOr)` of `AssertionAnd.String`. -/
def AssertionExpression.isAssertionOr : AssertionExpression → Bool
  | .Or _ _ => true
  | _ => false

/-- Whether the node is an atom (one of the `AssertionURL` types). -/
def AssertionExpression.isAtom : AssertionExpression → Bool
  | .URL _ => true
  | _ => false

mutual
/-- Method `CollectUrls`: an atom appends itself to the accumulator. -/
def AssertionExpression.CollectUrls : AssertionExpression → List AssertionURL → List AssertionURL
  | .Or _ terms, v => AssertionExpression.CollectUrls.loop terms v
  | .And factors, v => AssertionExpression.CollectUrls.loop factors v
  | .URL u, v => v ++ [u]
/-- The loop shared by `AssertionOr.CollectUrls` and
`AssertionAnd.CollectUrls` (`v = t.CollectUrls(v)` for each child). -/
def AssertionExpression.CollectUrls.loop : List AssertionExpression → List AssertionURL → List AssertionURL
  | [], v => v
  | t :: ts, v => AssertionExpression.CollectUrls.loop ts (AssertionExpression.CollectUrls t v)
end

mutual
/-- Method `String` of the three kinds of node. -/
def AssertionExpression.String : AssertionExpression → String
  | .Or _ terms => strings.Join (AssertionOr.String.loop terms) ","
  | .And factors => strings.Join (AssertionAnd.String.loop factors) "+"
  | .URL u => u.String
/-- The loop of `AssertionOr.String` filling the slice `v`. -/
def AssertionOr.String.loop : List AssertionExpression → List String
  | [] => []
  | t :: ts => AssertionExpression.String t :: AssertionOr.String.loop ts
/-- The loop of `AssertionAnd.String` filling the slice `v`. -/
def AssertionAnd.String.loop : List AssertionExpression → List String
  | [] => []
  | f :: fs =>
    (if f.isAssertionOr then "(" ++ AssertionExpression.String f ++ ")"
     else AssertionExpression.String f) :: AssertionAnd.String.loop fs
end

/-- The rendering of an And node as the specification words it: every
factor whose `HasOr()` is true is parenthesized.  Compared with
`AssertionExpression.String` on And nodes. -/
def AssertionAnd.String.spec (factors : List AssertionExpression) : String :=
  strings.Join
    (factors.map (fun f => if f.HasOr then "(" ++ f.String ++ ")" else f.String)) "+"

/-! ## Expression analysis -/

/-- The local variables `uid, tid, kb, team, soc, fp, rooter` of
`FindBestIdentifyComponentURL`. -/
structure Candidates where
  uid : Option AssertionURL
  tid : Option AssertionURL
  kb : Option AssertionURL
  team : Option AssertionURL
  soc : Option AssertionURL
  fp : Option AssertionURL
  rooter : Option AssertionURL
deriving DecidableEq, Repr

/-- All candidates nil, as after `var uid, tid, kb, team, soc, fp, rooter`. -/
def Candidates.nil : Candidates :=
  { uid := none, tid := none, kb := none, team := none, soc := none, fp := none, rooter := none }

/-- The scanning loop of `FindBestIdentifyComponentURL`; the two `break`s
return the candidates at once. -/
def FindBestIdentifyComponentURL.scan : List AssertionURL → Candidates → Candidates
  | [], c => c
  | u :: urls, c =>
    if u.IsUID then { c with uid := some u }
    else if u.IsTeamID then { c with tid := some u }
    else if u.IsKeybase then
      FindBestIdentifyComponentURL.scan urls { c with kb := some u }
    else if u.IsTeamName then
      FindBestIdentifyComponentURL.scan urls { c with team := some u }
    else if u.IsFingerprint && c.fp.isNone then
      FindBestIdentifyComponentURL.scan urls { c with fp := some u }
    else if u.IsSocial then
      if u.ToKeyValuePair.1 == "rooter" then
        FindBestIdentifyComponentURL.scan urls { c with rooter := some u }
      else if c.soc.isNone then
        FindBestIdentifyComponentURL.scan urls { c with soc := some u }
      else FindBestIdentifyComponentURL.scan urls c
    else FindBestIdentifyComponentURL.scan urls c

/-- The final loop of `FindBestIdentifyComponentURL` over `order`: the
first entry that is not nil. -/
def FindBestIdentifyComponentURL.pick : List (Option AssertionURL) → Option AssertionURL
  | [] => none
  | some p :: _ => some p
  | none :: order => FindBestIdentifyComponentURL.pick order

/-- The body of `FindBestIdentifyComponentURL` after `urls` is collected:
nil on no atoms, else the scan and the choice among `order`, whose last
entry is `urls[0]`. -/
def FindBestIdentifyComponentURL.select : List AssertionURL → Option AssertionURL
  | [] => none
  | u0 :: rest =>
    let c := FindBestIdentifyComponentURL.scan (u0 :: rest) Candidates.nil
    FindBestIdentifyComponentURL.pick
      [c.uid, c.tid, c.kb, c.team, c.fp, c.rooter, c.soc, some u0]

/-- Source `FindBestIdentifyComponentURL`. -/
def FindBestIdentifyComponentURL (e : AssertionExpression) : Option AssertionURL :=
  FindBestIdentifyComponentURL.select (e.CollectUrls [])

/-- Source `FindBestIdentifyComponent`. -/
def FindBestIdentifyComponent (e : AssertionExpression) : String :=
  match FindBestIdentifyComponentURL e with
  | none => ""
  | some u => u.String

/-- The loop of `CollectAssertions` over the collected atoms, on the
factors of `remotes` and `locals`. -/
def CollectAssertions.loop : List AssertionURL →
    List AssertionExpression × List AssertionExpression →
    List AssertionExpression × List AssertionExpression
  | [], acc => acc
  | u :: urls, (remotes, locals) =>
    if u.IsRemote then CollectAssertions.loop urls (remotes ++ [.URL u], locals)
    else CollectAssertions.loop urls (remotes, locals ++ [.URL u])

/-- Source `CollectAssertions`: the pair of And nodes `(remotes, locals)`. -/
def CollectAssertions (e : AssertionExpression) : AssertionExpression × AssertionExpression :=
  let r := CollectAssertions.loop (e.CollectUrls []) ([], [])
  (.And r.1, .And r.2)

/-! ## Sample atoms used in the worked examples -/

/-- Atom `keybase:alice`. -/
def kbAlice : AssertionURL := .Keybase ⟨"keybase", "alice"⟩

/-- Atom `keybase:bob`. -/
def kbBob : AssertionURL := .Keybase ⟨"keybase", "bob"⟩

/-- Atom `twitter:bob`. -/
def twBob : AssertionURL := .Social ⟨"twitter", "bob"⟩

/-- Atom `twitter:carol`. -/
def twCarol : AssertionURL := .Social ⟨"twitter", "carol"⟩

/-- Atom `rooter:bob`. -/
def rooterBob : AssertionURL := .Social ⟨"rooter", "bob"⟩

/-- Atom `uid:0123`. -/
def uid0123 : AssertionURL := .UID ⟨"uid", "0123"⟩ "0123"

/-- Atom `tid:4567`. -/
def tid4567 : AssertionURL := .TeamID ⟨"tid", "4567"⟩ "4567"

/-- Atom `dns:example.com`. -/
def dnsExample : AssertionURL := .DNS ⟨"dns", "example.com"⟩

/-! ## Auxiliary notions used in the statements -/

/-- A byte that is not a UTF-8 continuation byte `10xxxxxx`. -/
def isLeadByte (b : UInt8) : Bool :=
  (b &&& 0xc0) != 0x80

/-- A Social atom whose key is `rooter`. -/
def AssertionURL.isRooter (u : AssertionURL) : Bool :=
  u.IsSocial && u.ToKeyValuePair.1 == "rooter"

/-- A Social atom whose key is not `rooter`. -/
def AssertionURL.isOtherSocial (u : AssertionURL) : Bool :=
  u.IsSocial && !(u.ToKeyValuePair.1 == "rooter")

/-- The first atom of `urls` with property `p`, in collection order. -/
def firstOf (p : AssertionURL → Bool) (urls : List AssertionURL) : Option AssertionURL :=
  (urls.filter p).head?

/-- The last atom of `urls` with property `p`, in collection order. -/
def lastOf (p : AssertionURL → Bool) (urls : List AssertionURL) : Option AssertionURL :=
  (urls.filter p).getLast?

/-- The atom kinds the specification lists as remote: Web, Http, Https, Dns. -/
def AssertionURL.isHostKind : AssertionURL → Bool
  | .Web _ => true
  | .HTTP _ => true
  | .HTTPS _ => true
  | .DNS _ => true
  | _ => false

/-- The partition as the specification words it: the Web, Http, Https and
Dns atoms are the remotes, every other atom is a local.  Compared with
`CollectAssertions`. -/
def CollectAssertions.spec (e : AssertionExpression) : AssertionExpression × AssertionExpression :=
  (.And (((e.CollectUrls []).filter AssertionURL.isHostKind).map .URL),
   .And (((e.CollectUrls []).filter (fun u => !u.isHostKind)).map .URL))

/-! ## Parsing an atom: byte-level string operations, key-value split, fingerprint normalization -/

/-- Errors -/
inductive Error where
  | Errorf (format : String) (args : List String)
  | ImplicitTeamDisplayNameError (format : String) (args : List String)
  | External (msg : String)
  | panic (msg : String)
deriving DecidableEq, Repr

deriving instance DecidableEq for Except

/-- The byte length of a list of characters in UTF-8. -/
def byteLen (l : List Char) : Nat :=
  (l.flatMap String.utf8EncodeChar).length

/-- Drops the characters that make up the first `n` bytes; `none` when
`n` exceeds the encoding or falls inside a character. -/
def dropBytes : List Char → Nat → Option (List Char)
  | l, 0 => some l
  | [], _ + 1 => none
  | c :: cs, n + 1 =>
    if c.utf8Size ≤ n + 1 then dropBytes cs (n + 1 - c.utf8Size) else none

/-- Keeps the characters that make up the first `n` bytes; `none` when
`n` exceeds the encoding or falls inside a character. -/
def takeBytes : List Char → Nat → Option (List Char)
  | _, 0 => some []
  | [], _ + 1 => none
  | c :: cs, n + 1 =>
    if c.utf8Size ≤ n + 1 then (takeBytes cs (n + 1 - c.utf8Size)).map (c :: ·) else none

/-- Go slice expression `s[lo:hi]` on a string whose result is used as a
string. -/
def slice (s : String) (lo hi : Int) : Option String :=
  if 0 ≤ lo ∧ lo ≤ hi ∧ hi ≤ len s then
    match dropBytes s.data lo.toNat with
    | some rest => (takeBytes rest (hi - lo).toNat).map String.mk
    | none => none
  else none

/-- Go slice expression `s[lo:hi]` as bytes -/
def sliceBytes (s : String) (lo hi : Int) : Option (List UInt8) :=
  if 0 ≤ lo ∧ lo ≤ hi ∧ hi ≤ len s then
    some (((bytesOf s).drop lo.toNat).take (hi - lo).toNat)
  else none

/-- Go `strings.IndexByte` -/
def strings.IndexByte (s : String) (c : UInt8) : Int :=
  if c ∈ bytesOf s then ((bytesOf s).indexOf c : Nat) else -1

/-- The character class `[0-9a-zA-Z@:/_-]` of `pairRE`. -/
def pairRE.inClass (c : Char) : Bool :=
  c.isDigit || c.isLower || c.isUpper || c == '@' || c == ':' || c == '/' || c == '_' || c == '-'

/-- The regular expression `pairRE`, one character of the class at the start
of the text, applied with `MatchString`. -/
def pairRE.MatchString (s : String) : Bool :=
  match s.data with
  | [] => false
  | c :: _ => pairRE.inClass c

/-- Source `parseToKVPair`; the result is `(key, value)` or the error. -/
def parseToKVPair (s : String) : Except Error (String × String) :=
  if !pairRE.MatchString s then
    .error (.Errorf "Invalid key-value identity: %s" [s])
  else
    let colon := strings.IndexByte s 0x3a
    let atsign := strings.IndexByte s 0x40
    if colon ≥ 0 then
      match slice s 0 colon, slice s (colon + 1) (len s) with
      | some key, some value =>
        if len value ≥ 2 then
          match sliceBytes value 0 2 with
          | some head =>
            if head == bytesOf "//" then
              match slice value 2 (len value) with
              | some value2 => .ok (strings.ToLower key, value2)
              | none => .error (.panic "slice bounds out of range")
            else .ok (strings.ToLower key, value)
          | none => .error (.panic "slice bounds out of range")
        else .ok (strings.ToLower key, value)
      | _, _ => .error (.panic "slice bounds out of range")
    else if atsign ≥ 0 then
      match slice s 0 atsign, slice s (atsign + 1) (len s) with
      | some value, some key => .ok (strings.ToLower key, value)
      | _, _ => .error (.panic "slice bounds out of range")
    else .ok (strings.ToLower "", s)

/-- The remainder after the colon with one leading `//` removed. -/
def stripSlashes : List Char → List Char
  | a :: b :: rest => if a = '/' ∧ b = '/' then rest else a :: b :: rest
  | l => l

/-- Go pair `(ret AssertionURL, err error)`. -/
structure URLResult where
  ret : Option AssertionURL
  err : Option Error
deriving DecidableEq, Repr

/-- Go `encoding/hex`: the value of a hexadecimal digit byte, `none` for
any other byte. -/
def hex.fromHexChar (b : UInt8) : Option UInt8 :=
  if 0x30 ≤ b ∧ b ≤ 0x39 then some (b - 0x30)
  else if 0x61 ≤ b ∧ b ≤ 0x66 then some (b - 0x61 + 10)
  else if 0x41 ≤ b ∧ b ≤ 0x46 then some (b - 0x41 + 10)
  else none

/-- Go `hex.Decode`: the bytes decoded and the error, which is an invalid
byte or, on an odd number of bytes, the length error. -/
def hex.Decode : List UInt8 → List UInt8 × Option Error
  | [] => ([], none)
  | [p] =>
    match hex.fromHexChar p with
    | none => ([], some (.External "encoding/hex: invalid byte"))
    | some _ => ([], some (.External "encoding/hex: odd length hex string"))
  | p :: q :: rest =>
    match hex.fromHexChar p, hex.fromHexChar q with
    | some a, some b => ((a <<< 4 ||| b) :: (hex.Decode rest).1, (hex.Decode rest).2)
    | _, _ => ([], some (.External "encoding/hex: invalid byte"))

/-- Go `hex.DecodeString`. -/
def hex.DecodeString (s : String) : List UInt8 × Option Error :=
  hex.Decode (bytesOf s)

/-- Source `AssertionFingerprint.CheckAndNormalize`. -/
def AssertionFingerprint.CheckAndNormalize (a : AssertionURLBase) : URLResult :=
  let a : AssertionURLBase := { a with Value := strings.ToLower a.Value }
  if (hex.DecodeString a.Value).2.isSome then
    ⟨none, some (.Errorf "bad hex string: '%s'" [a.Value])⟩
  else ⟨some (.Fingerprint a), none⟩

/-- A hexadecimal digit `0-9`, `a-f`, `A-F`. -/
def isHexDigit (c : Char) : Bool :=
  c.isDigit || ('a' ≤ c && c ≤ 'f') || ('A' ≤ c && c ≤ 'F')

/-! ## Collaborators outside `assertion.go` -/

/-- Modelled from the spec: the interface `AssertionContext`, which exposes
only the hook `NormalizeSocialName(service, username)`; the hook returns the
Go pair of the normalized name and the error. -/
structure AssertionContext where
  NormalizeSocialName : String → String → String × Option Error

/-- Modelled from the spec: the package-level collaborators that
`assertion.go` calls and that are declared elsewhere: the username check
`CheckUsername` (its function `F` and its `Hint`), the hostname validator,
the identifier codecs (each returning the Go pair of value and error), the
constant `PGPAssertionKey` and the canonical string of a social assertion. -/
structure Collaborators where
  CheckUsername_F : String → Bool
  CheckUsername_Hint : String
  IsValidHostname : String → Bool
  UIDFromHex : String → keybase1.UID × Option Error
  TeamIDFromString : String → keybase1.TeamID × Option Error
  TeamNameFromString : String → keybase1.TeamName × Option Error
  PGPAssertionKey : String
  SocialAssertion_String : String → String → String

/-- Modelled from the spec: `keybase1.SocialAssertion`, a `(service, user)`
pair. -/
structure keybase1.SocialAssertion where
  User : String
  Service : String
deriving DecidableEq, Repr

/-- Method `String` of `keybase1.SocialAssertion`, the canonical string,
supplied by the collaborators. -/
def keybase1.SocialAssertion.String (env : Collaborators) (sa : keybase1.SocialAssertion) :
    String :=
  env.SocialAssertion_String sa.User sa.Service

/-- Modelled from the spec: `keybase1.ImplicitTeamUserSet`, the resolved
Keybase usernames and the unresolved `(service, user)` references. -/
structure keybase1.ImplicitTeamUserSet where
  KeybaseUsers : List String
  UnresolvedUsers : List keybase1.SocialAssertion
deriving DecidableEq, Repr

/-- Modelled from the spec: `NumTotalUsers`, the number of users of both
lists. -/
def keybase1.ImplicitTeamUserSet.NumTotalUsers (u : keybase1.ImplicitTeamUserSet) : Int :=
  ((u.KeybaseUsers.length + u.UnresolvedUsers.length : Nat) : Int)

/-- Go `time.Time`, restricted to what arises here: a calendar date at
midnight UTC. -/
structure time.Time where
  year : Nat
  month : Nat
  day : Nat
deriving DecidableEq, Repr

/-- Modelled from the spec: `keybase1.Time`, the stored time of a conflict,
a UTC date. -/
structure keybase1.Time where
  date : time.Time
deriving DecidableEq, Repr

/-- Modelled from the spec: `keybase1.ToTime`, the stored form of a time. -/
def keybase1.ToTime (t : time.Time) : keybase1.Time :=
  ⟨t⟩

set_option linter.dupNamespace false in
/-- Modelled from the spec: method `Time` of `keybase1.Time`, back to a
`time.Time`. -/
def keybase1.Time.Time (t : keybase1.Time) : time.Time :=
  t.date

/-- Modelled from the spec: `keybase1.ImplicitTeamConflictInfo`, with
`ConflictGeneration` an `int`. -/
structure keybase1.ImplicitTeamConflictInfo where
  Generation : Int
  Time : keybase1.Time
deriving DecidableEq, Repr

/-- Modelled from the spec: `keybase1.ImplicitTeamDisplayName`; a nil
`ConflictInfo` is `none`. -/
structure keybase1.ImplicitTeamDisplayName where
  IsPublic : Bool
  ConflictInfo : Option keybase1.ImplicitTeamConflictInfo
  Writers : keybase1.ImplicitTeamUserSet
  Readers : keybase1.ImplicitTeamUserSet
deriving DecidableEq, Repr

/-! ## Go library functions used by the parsers -/

/-- Go `strings.Split` with a separator of one ASCII character. -/
def strings.Split (s : String) (sep : Char) : List String :=
  (s.data.splitOn sep).map String.mk

/-- The loop of `strings.SplitN` on characters, for a count `n > 0`: at most
`n` pieces, the last one being the unsplit remainder. -/
def strings.SplitN.loop (sep : Char) : Nat → List Char → List Char → List (List Char)
  | 0, _, _ => []
  | 1, acc, l => [acc.reverse ++ l]
  | _ + 2, acc, [] => [acc.reverse]
  | n + 2, acc, c :: cs =>
    if c = sep then acc.reverse :: strings.SplitN.loop sep (n + 1) [] cs
    else strings.SplitN.loop sep (n + 2) (c :: acc) cs

/-- Go `strings.SplitN` with a separator of one ASCII character and a
count `n ≥ 0`. -/
def strings.SplitN (s : String) (sep : Char) (n : Nat) : List String :=
  (strings.SplitN.loop sep n [] s.data).map String.mk

/-- Go `strings.Count` with a substring of one ASCII character. -/
def strings.Count (s : String) (sub : Char) : Int :=
  ((s.data.count sub : Nat) : Int)

/-- Go `sort.Strings`: ascending order of the strings, which Go compares
bytewise; on UTF-8 that is the lexicographic order of the characters. -/
def sort.Strings (l : List String) : List String :=
  l.insertionSort (fun a b => a.data ≤ b.data)

/-- Go `sort.Slice` with the comparison `less(i, j)` being
`key(x[i]) < key(x[j])` on strings.  The Go sort is not stable; elements of
equal key are left here in their order of arrival. -/
def sort.Slice {α : Type} (key : α → String) (l : List α) : List α :=
  l.insertionSort (fun a b => (key a).data ≤ (key b).data)

/-- The decimal digits of a natural number, most significant first, with
`fuel` bounding the number of digits. -/
def decimalDigits : Nat → Nat → List Char
  | 0, _ => []
  | fuel + 1, n =>
    if n < 10 then [Char.ofNat (48 + n)]
    else decimalDigits fuel (n / 10) ++ [Char.ofNat (48 + n % 10)]

/-- Verb `%v` of `fmt` on an integer: the decimal rendering. -/
def fmt.int (i : Int) : String :=
  match i with
  | .ofNat n => ⟨decimalDigits (n + 1) n⟩
  | .negSucc n => ⟨'-' :: decimalDigits (n + 2) (n + 1)⟩

/-- The value of a string of decimal digits, `none` when a character is
not a digit. -/
def digitsValue : List Char → Nat → Option Nat
  | [], acc => some acc
  | c :: cs, acc => if c.isDigit then digitsValue cs (acc * 10 + (c.toNat - 48)) else none

/-- Go `strconv.Atoi` for a 64-bit `int`: an optional sign and decimal
digits, `none` standing for the syntax or range error. -/
def strconv.Atoi (s : String) : Option Int :=
  match s.data with
  | [] => none
  | c :: cs =>
    let neg := decide (c = '-')
    let r := if c = '+' ∨ c = '-' then cs else c :: cs
    if r = [] then none
    else
      match digitsValue r 0 with
      | none => none
      | some v =>
        let i : Int := if neg then -(v : Int) else (v : Int)
        if -9223372036854775808 ≤ i ∧ i ≤ 9223372036854775807 then some i else none

/-- Go `daysIn`: the number of days of a month of a year. -/
def time.daysIn (month year : Nat) : Nat :=
  if month = 2 then
    if year % 4 = 0 ∧ (year % 100 ≠ 0 ∨ year % 400 = 0) then 29 else 28
  else if month = 4 ∨ month = 6 ∨ month = 9 ∨ month = 11 then 30
  else 31

/-- The number written by decimal digit characters. -/
def digitsNat (l : List Char) : Nat :=
  l.foldl (fun acc c => acc * 10 + (c.toNat - 48)) 0

/-- Go `time.Parse` with the layout `2006-01-02`: four digits of year, two
of month, two of day, nothing else; the month must be in 1..12 and the day
must exist in that month.  `none` stands for the error. -/
def time.Parse (value : String) : Option time.Time :=
  match value.data with
  | [y1, y2, y3, y4, s1, m1, m2, s2, d1, d2] =>
    if y1.isDigit ∧ y2.isDigit ∧ y3.isDigit ∧ y4.isDigit ∧ s1 = '-' ∧ m1.isDigit ∧ m2.isDigit ∧
        s2 = '-' ∧ d1.isDigit ∧ d2.isDigit then
      let year := digitsNat [y1, y2, y3, y4]
      let month := digitsNat [m1, m2]
      let day := digitsNat [d1, d2]
      if month < 1 ∨ 12 < month then none
      else if day < 1 ∨ time.daysIn month year < day then none
      else some ⟨year, month, day⟩
    else none
  | _ => none

/-- Zero padding of a number to at least `width` decimal digits. -/
def zeroPad (width n : Nat) : List Char :=
  List.replicate (width - (decimalDigits (n + 1) n).length) '0' ++ decimalDigits (n + 1) n

/-- Go `Time.Format` with the layout `2006-01-02` (after `UTC()`, which
leaves a UTC date unchanged). -/
def time.Time.Format (t : time.Time) : String :=
  ⟨zeroPad 4 t.year ++ '-' :: zeroPad 2 t.month ++ '-' :: zeroPad 2 t.day⟩

/-! ## Parsing an atom -/

/-- Source `AssertionURLBase.checkAndNormalizeHost`: the base as the method
leaves it and the error. -/
def AssertionURLBase.checkAndNormalizeHost (env : Collaborators) (b : AssertionURLBase) :
    AssertionURLBase × Option Error :=
  if len b.Value = 0 then
    (b, some (.Errorf "Bad assertion, no value given (key=%s)" [b.Key]))
  else
    let b : AssertionURLBase := { b with Value := strings.ToLower b.Value }
    if !env.IsValidHostname b.Value then (b, some (.Errorf "Invalid hostname: %s" [b.Value]))
    else (b, none)

/-- Method `CheckAndNormalize` of the ten atom types. -/
def AssertionURL.CheckAndNormalize (env : Collaborators) (ctx : AssertionContext) :
    AssertionURL → URLResult
  | .HTTP a =>
    match AssertionURLBase.checkAndNormalizeHost env a with
    | (_, some err) => ⟨none, some err⟩
    | (a, none) => ⟨some (.HTTP a), none⟩
  | .HTTPS a =>
    match AssertionURLBase.checkAndNormalizeHost env a with
    | (_, some err) => ⟨none, some err⟩
    | (a, none) => ⟨some (.HTTPS a), none⟩
  | .DNS a =>
    match AssertionURLBase.checkAndNormalizeHost env a with
    | (_, some err) => ⟨none, some err⟩
    | (a, none) => ⟨some (.DNS a), none⟩
  | .Web a =>
    match AssertionURLBase.checkAndNormalizeHost env a with
    | (_, some err) => ⟨none, some err⟩
    | (a, none) => ⟨some (.Web a), none⟩
  | .Keybase a =>
    let a : AssertionURLBase := { a with Value := strings.ToLower a.Value }
    if !env.CheckUsername_F a.Value then
      ⟨none, some (.Errorf "bad keybase username '%s': %s" [a.Value, env.CheckUsername_Hint])⟩
    else ⟨some (.Keybase a), none⟩
  | .Fingerprint a => AssertionFingerprint.CheckAndNormalize a
  | .UID a _ =>
    let r := env.UIDFromHex a.Value
    ⟨some (.UID { a with Value := strings.ToLower a.Value } r.1), r.2⟩
  | .TeamID a _ =>
    let r := env.TeamIDFromString a.Value
    ⟨some (.TeamID { a with Value := strings.ToLower a.Value } r.1), r.2⟩
  | .TeamName a _ =>
    let r := env.TeamNameFromString a.Value
    ⟨some (.TeamName { a with Value := r.1 } r.1), r.2⟩
  | .Social a =>
    let r := ctx.NormalizeSocialName a.Key a.Value
    ⟨some (.Social { a with Value := r.1 }), r.2⟩

/-- Source `ParseAssertionURLKeyValue`. -/
def ParseAssertionURLKeyValue (env : Collaborators) (ctx : AssertionContext)
    (key val : String) (strict : Bool) : URLResult :=
  if len key = 0 ∧ strict = true then
    ⟨none, some (.Errorf "Bad assertion, no 'type' given: %s" [val])⟩
  else
    let key := if len key = 0 then "keybase" else key
    let base : AssertionURLBase := ⟨key, val⟩
    let ret : AssertionURL :=
      if key = "keybase" then .Keybase base
      else if key = "uid" then .UID base ""
      else if key = "tid" then .TeamID base ""
      else if key = "team" then .TeamName base ""
      else if key = "web" then .Web base
      else if key = "http" then .HTTP base
      else if key = "https" then .HTTPS base
      else if key = "dns" then .DNS base
      else if key = env.PGPAssertionKey then .Fingerprint base
      else .Social base
    ret.CheckAndNormalize env ctx

/-- Source `ParseAssertionURL`. -/
def ParseAssertionURL (env : Collaborators) (ctx : AssertionContext) (s : String)
    (strict : Bool) : URLResult :=
  match parseToKVPair s with
  | .error err => ⟨none, some err⟩
  | .ok (key, val) => ParseAssertionURLKeyValue env ctx key val strict

/-! ## Implicit team names -/

/-- Source `parseImplicitTeamPart`: `(typ, name)` or the error. -/
def parseImplicitTeamPart (env : Collaborators) (ctx : AssertionContext) (s : String) :
    Except Error (String × String) :=
  let nColons := strings.Count s ':'
  let nAts := strings.Count s '@'
  let nDelimiters := nColons + nAts
  if nDelimiters > 1 then
    .error (.Errorf "Invalid implicit team part, can have at most one ':' xor '@': %v" [s])
  else if nDelimiters = 0 then
    if env.CheckUsername_F s then .ok ("keybase", strings.ToLower s)
    else .error (.Errorf "Parsed part as keybase username, but invalid username (%q)" [s])
  else
    let r := ParseAssertionURL env ctx s true
    match r.err, r.ret with
    | some _, _ => .error (.Errorf "Could not parse part as SBS assertion" [])
    | none, some assertion => .ok (assertion.GetKey, assertion.GetValue)
    | none, none => .error (.panic "nil pointer dereference")

/-- The map `seen` of the user-set parser: the set of canonical strings met
so far. -/
abbrev Seen := String → Bool

/-- The loop of `parseImplicitTeamUserSet` over the parts: the user set or
the error, and the map `seen` as the loop leaves it. -/
def parseImplicitTeamUserSet.loop (env : Collaborators) (ctx : AssertionContext) :
    List String → keybase1.ImplicitTeamUserSet → Seen →
    Except Error keybase1.ImplicitTeamUserSet × Seen
  | [], ret, seen => (.ok ret, seen)
  | part :: parts, ret, seen =>
    match parseImplicitTeamPart env ctx part with
    | .error err => (.error err, seen)
    | .ok (typ, name) =>
      let sa : keybase1.SocialAssertion := { User := name, Service := typ }
      let idx := sa.String env
      if seen idx then parseImplicitTeamUserSet.loop env ctx parts ret seen
      else
        let seen : Seen := fun k => if k = idx then true else seen k
        if typ = "keybase" then
          parseImplicitTeamUserSet.loop env ctx parts
            { ret with KeybaseUsers := ret.KeybaseUsers ++ [name] } seen
        else
          parseImplicitTeamUserSet.loop env ctx parts
            { ret with UnresolvedUsers := ret.UnresolvedUsers ++ [sa] } seen

/-- Source `parseImplicitTeamUserSet`, with the map `seen` returned as the
call leaves it. -/
def parseImplicitTeamUserSet (env : Collaborators) (ctx : AssertionContext) (s : String)
    (seen : Seen) : Except Error keybase1.ImplicitTeamUserSet × Seen :=
  match parseImplicitTeamUserSet.loop env ctx (strings.Split s ',') ⟨[], []⟩ seen with
  | (.error err, seen) => (.error err, seen)
  | (.ok ret, seen) =>
    (.ok { KeybaseUsers := sort.Strings ret.KeybaseUsers,
           UnresolvedUsers := sort.Slice (fun sa => sa.String env) ret.UnresolvedUsers }, seen)

/-- Source `FormatImplicitTeamDisplayNameSuffix`. -/
def FormatImplicitTeamDisplayNameSuffix (conflict : keybase1.ImplicitTeamConflictInfo) : String :=
  "(conflicted " ++ conflict.Time.Time.Format ++ " #" ++ fmt.int conflict.Generation ++ ")"

/-- The regular expression `implicitTeamDisplayNameConflictRxx`,
`^\(conflicted (\d{4}-\d{2}-\d{2})( #(\d+))?\)$`, applied with
`FindStringSubmatch`: no match is the empty list; a match is the whole text
and the three groups, an absent group being empty. -/
def implicitTeamDisplayNameConflictRxx.FindStringSubmatch (s : String) : List String :=
  if s.data.take 12 = "(conflicted ".data then
    match s.data.drop 12 with
    | y1 :: y2 :: y3 :: y4 :: s1 :: m1 :: m2 :: s2 :: d1 :: d2 :: rest =>
      if y1.isDigit ∧ y2.isDigit ∧ y3.isDigit ∧ y4.isDigit ∧ s1 = '-' ∧ m1.isDigit ∧
          m2.isDigit ∧ s2 = '-' ∧ d1.isDigit ∧ d2.isDigit then
        let date : String := ⟨[y1, y2, y3, y4, s1, m1, m2, s2, d1, d2]⟩
        if rest = [')'] then [s, date, "", ""]
        else
          match rest with
          | a :: b :: r =>
            if a = ' ' ∧ b = '#' ∧ r.takeWhile Char.isDigit ≠ [] ∧
                r.dropWhile Char.isDigit = [')'] then
              [s, date, ⟨a :: b :: r.takeWhile Char.isDigit⟩, ⟨r.takeWhile Char.isDigit⟩]
            else []
          | _ => []
      else []
    | _ => []
  else []

/-- Source `ParseImplicitTeamDisplayNameSuffix`. -/
def ParseImplicitTeamDisplayNameSuffix (suffix : String) :
    Except Error keybase1.ImplicitTeamConflictInfo :=
  if len suffix = 0 then
    .error (.ImplicitTeamDisplayNameError "cannot parse empty suffix" [])
  else
    match implicitTeamDisplayNameConflictRxx.FindStringSubmatch suffix with
    | [] => .error (.ImplicitTeamDisplayNameError "malformed suffix: '%s'" [suffix])
    | [_, m1, _, m3] =>
      match time.Parse m1 with
      | none =>
        .error (.ImplicitTeamDisplayNameError "malformed suffix time: %v"
          ["0001-01-01 00:00:00 +0000 UTC"])
      | some conflictTime =>
        if len m3 = 0 then
          .ok { Generation := 1, Time := keybase1.ToTime conflictTime }
        else
          match strconv.Atoi m3 with
          | none => .error (.ImplicitTeamDisplayNameError "malformed suffix generation: %v" [m3])
          | some generation =>
            if generation ≤ 0 then
              .error (.ImplicitTeamDisplayNameError "malformed suffix generation: %v" [m3])
            else .ok { Generation := generation, Time := keybase1.ToTime conflictTime }
    | ms =>
      .error (.ImplicitTeamDisplayNameError "malformed suffix; bad number of matches: %d"
        [fmt.int ms.length])

/-- Source `ParseImplicitTeamDisplayName`. -/
def ParseImplicitTeamDisplayName (env : Collaborators) (ctx : AssertionContext) (s : String)
    (isPublic : Bool) : Except Error keybase1.ImplicitTeamDisplayName :=
  let s := strings.ToLower s
  let split1 := strings.SplitN s ' ' 2
  match split1 with
  | [] => .error (.panic "index out of range")
  | assertions :: conflict =>
    let split2 := strings.Split assertions '#'
    if split2.length > 2 then
      .error (.ImplicitTeamDisplayNameError "can have at most one '#' separator" [])
    else
      match split2 with
      | [] => .error (.panic "index out of range")
      | writersPart :: readersParts =>
        match parseImplicitTeamUserSet env ctx writersPart (fun _ => false) with
        | (.error err, _) => .error err
        | (.ok writers, seen) =>
          if writers.NumTotalUsers = 0 then
            .error (.ImplicitTeamDisplayNameError "need at least one writer" [])
          else
            let readersResult : Except Error keybase1.ImplicitTeamUserSet :=
              match readersParts with
              | [readersPart] => (parseImplicitTeamUserSet env ctx readersPart seen).1
              | _ => .ok ⟨[], []⟩
            match readersResult with
            | .error err => .error err
            | .ok readers =>
              let conflictResult : Except Error (Option keybase1.ImplicitTeamConflictInfo) :=
                match conflict with
                | [] => .ok none
                | suffix :: _ =>
                  if len suffix = 0 then
                    .error (.ImplicitTeamDisplayNameError "empty suffix" [])
                  else
                    match ParseImplicitTeamDisplayNameSuffix suffix with
                    | .error err => .error err
                    | .ok info => .ok (some info)
              match conflictResult with
              | .error err => .error err
              | .ok conflictInfo =>
                .ok { IsPublic := isPublic, ConflictInfo := conflictInfo,
                      Writers := writers, Readers := readers }

/-- Source `ParseImplicitTeamTLFName`. -/
def ParseImplicitTeamTLFName (env : Collaborators) (ctx : AssertionContext) (s : String) :
    Except Error keybase1.ImplicitTeamDisplayName :=
  let s := strings.ToLower s
  let parts := strings.Split s '/'
  match parts with
  | [p0, p1, p2, p3] =>
    if p0 ≠ "" ∨ p1 ≠ "keybase" ∨ (p2 ≠ "private" ∧ p2 ≠ "public") then
      .error (.Errorf "Invalid team TLF name" [])
    else
      let isPublic := decide (p2 = "public")
      ParseImplicitTeamDisplayName env ctx p3 isPublic
  | _ => .error (.Errorf "Invalid team TLF name, must have four parts" [])

/-! ## A sample environment for the worked examples -/

/-- A sample username check: two to sixteen ASCII letters, digits or
underscores. -/
def sampleCheckUsername (s : String) : Bool :=
  decide (2 ≤ s.length) && decide (s.length ≤ 16) &&
    s.data.all (fun c => c.isAlphanum || c == '_')

/-- Modelled from the spec: a sample instance of the collaborators, with the
canonical string of a social assertion written `service:user`; the codecs
accept every string and the hostname check every non-empty one. -/
def sampleEnv : Collaborators where
  CheckUsername_F := sampleCheckUsername
  CheckUsername_Hint := "2 to 16 letters, digits or underscores"
  IsValidHostname := fun s => !s.isEmpty
  UIDFromHex := fun s => (s, none)
  TeamIDFromString := fun s => (s, none)
  TeamNameFromString := fun s => (s, none)
  PGPAssertionKey := "pgp"
  SocialAssertion_String := fun user service => service ++ ":" ++ user

/-- A sample context whose hook lowercases the name and accepts it. -/
def sampleCtx : AssertionContext where
  NormalizeSocialName := fun _ name => (strings.ToLower name, none)

/-- A service name without the delimiters `:` and `@`. -/
def delimiterFree (s : String) : Prop :=
  ':' ∉ s.data ∧ '@' ∉ s.data

/-- The canonical strings of the users of a user set. -/
def canonicalStrings (env : Collaborators) (u : keybase1.ImplicitTeamUserSet) : List String :=
  u.KeybaseUsers.map (fun n => env.SocialAssertion_String n "keybase") ++
    u.UnresolvedUsers.map (fun sa => sa.String env)

/-- Every user of the set is marked in `seen`, and no two users of the set
share a canonical string. -/
def Marked (env : Collaborators) (seen : Seen) (u : keybase1.ImplicitTeamUserSet) : Prop :=
  (∀ k ∈ canonicalStrings env u, seen k = true) ∧
  u.KeybaseUsers.Nodup ∧ (u.UnresolvedUsers.map (fun sa => sa.String env)).Nodup

/-- The canonical string tells apart any two `(service, user)` pairs whose
services hold no delimiter; both `user@service` and `service:user` do. -/
def CanonicalStringInjective (env : Collaborators) : Prop :=
  ∀ u s u2 s2, delimiterFree s → delimiterFree s2 →
    env.SocialAssertion_String u s = env.SocialAssertion_String u2 s2 → u = u2 ∧ s = s2

/-! ## Conflict suffixes: the texts the pattern describes -/

/-- The date that the ten characters `YYYY-MM-DD` write. -/
def dateOf (date : List Char) : time.Time :=
  ⟨digitsNat (date.take 4), digitsNat ((date.drop 5).take 2), digitsNat ((date.drop 8).take 2)⟩

/-- A real calendar date: a month from 1 to 12 and a day of that month. -/
def realDate (t : time.Time) : Prop :=
  1 ≤ t.month ∧ t.month ≤ 12 ∧ 1 ≤ t.day ∧ t.day ≤ time.daysIn t.month t.year

/-- The text `(conflicted DATE)` or `(conflicted DATE #N)`. -/
def conflictSuffixText (date : List Char) (generation : Option (List Char)) : String :=
  match generation with
  | none => ⟨"(conflicted ".data ++ date ++ [')']⟩
  | some n => ⟨"(conflicted ".data ++ date ++ ' ' :: '#' :: n ++ [')']⟩

/-- Ten characters `YYYY-MM-DD`, all `Y`, `M`, `D` being digits. -/
def isDateText (date : List Char) : Prop :=
  ∃ y1 y2 y3 y4 m1 m2 d1 d2 : Char,
    date = [y1, y2, y3, y4, '-', m1, m2, '-', d1, d2] ∧
    y1.isDigit = true ∧ y2.isDigit = true ∧ y3.isDigit = true ∧ y4.isDigit = true ∧
    m1.isDigit = true ∧ m2.isDigit = true ∧ d1.isDigit = true ∧ d2.isDigit = true

/-- Whether a date is a real calendar date can be computed. -/
instance realDate.decidable (t : time.Time) : Decidable (realDate t) :=
  inferInstanceAs (Decidable
    (1 ≤ t.month ∧ t.month ≤ 12 ∧ 1 ≤ t.day ∧ t.day ≤ time.daysIn t.month t.year))

/-! ## Cached identifiers -/

/-- Modelled from the spec: method `IsNil` of `keybase1.UID`; the nil value
is the empty string form. -/
def keybase1.UID.IsNil (id : keybase1.UID) : Bool :=
  decide (id = "")

/-- Modelled from the spec: method `IsNil` of `keybase1.TeamID`. -/
def keybase1.TeamID.IsNil (id : keybase1.TeamID) : Bool :=
  decide (id = "")

/-- Modelled from the spec: method `IsNil` of `keybase1.TeamName`. -/
def keybase1.TeamName.IsNil (id : keybase1.TeamName) : Bool :=
  decide (id = "")

/-- Source `func (a AssertionUID) ToUID()`: the receiver is the embedded
base and the field `uid`; the result is the field after the conditional
assignment. -/
def AssertionUID.ToUID (env : Collaborators) (a : AssertionURLBase) (uid : keybase1.UID) :
    keybase1.UID :=
  if keybase1.UID.IsNil uid then
    match env.UIDFromHex a.Value with
    | (tmp, none) => tmp
    | (_, some _) => uid
  else uid

/-- Source `func (a AssertionTeamID) ToTeamID()`. -/
def AssertionTeamID.ToTeamID (env : Collaborators) (a : AssertionURLBase)
    (tid : keybase1.TeamID) : keybase1.TeamID :=
  if keybase1.TeamID.IsNil tid then
    match env.TeamIDFromString a.Value with
    | (tmp, none) => tmp
    | (_, some _) => tid
  else tid

/-- Source `func (a AssertionTeamName) ToTeamName()`: the assignment is
under `err != nil`. -/
def AssertionTeamName.ToTeamName (env : Collaborators) (a : AssertionURLBase)
    (name : keybase1.TeamName) : keybase1.TeamName :=
  if keybase1.TeamName.IsNil name then
    match env.TeamNameFromString a.Value with
    | (tmp, some _) => tmp
    | (_, none) => name
  else name

/-- Method `ToUID` of the interface: `AssertionUID` overrides the method of
the base, which returns the nil value. -/
def AssertionURL.ToUID (env : Collaborators) : AssertionURL → keybase1.UID
  | .UID b uid => AssertionUID.ToUID env b uid
  | _ => ""

/-- Method `ToTeamID` of the interface. -/
def AssertionURL.ToTeamID (env : Collaborators) : AssertionURL → keybase1.TeamID
  | .TeamID b tid => AssertionTeamID.ToTeamID env b tid
  | _ => ""

/-- Method `ToTeamName` of the interface. -/
def AssertionURL.ToTeamName (env : Collaborators) : AssertionURL → keybase1.TeamName
  | .TeamName b name => AssertionTeamName.ToTeamName env b name
  | _ => ""

/-! ## Matching: the loops as list quantifiers -/

theorem matchSet_loop_eq_any (v : AssertionURL) (proofs : List Proof) :
    AssertionURLBase.matchSet.loop v proofs = proofs.any v.MatchProof := by
  induction proofs with
  | nil => rfl
  | cons p ps ih =>
    simp only [AssertionURLBase.matchSet.loop, List.any_cons, ih]
    cases v.MatchProof p <;> simp

theorem Or_MatchSet_loop_eq_any (terms : List AssertionExpression) (ps : ProofSet) :
    AssertionOr.MatchSet.loop terms ps = terms.any (fun t => t.MatchSet ps) := by
  induction terms with
  | nil => simp [AssertionOr.MatchSet.loop]
  | cons t ts ih =>
    simp only [AssertionOr.MatchSet.loop, List.any_cons, ih]
    cases t.MatchSet ps <;> simp

theorem And_MatchSet_loop_eq_all (factors : List AssertionExpression) (ps : ProofSet) :
    AssertionAnd.MatchSet.loop factors ps = factors.all (fun f => f.MatchSet ps) := by
  induction factors with
  | nil => simp [AssertionAnd.MatchSet.loop]
  | cons f fs ih =>
    simp only [AssertionAnd.MatchSet.loop, List.all_cons, ih]
    cases f.MatchSet ps <;> simp

/-- C1: an Or node matches a proof set iff at least one of its terms does,
an And node iff every one of its factors does, and an atom iff some proof
among `ps.Get(atom.Keys())` satisfies the atom's `MatchProof`. -/
theorem C1_MatchSet_semantics :
    (∀ (symbol : String) (terms : List AssertionExpression) (ps : ProofSet),
      (AssertionExpression.Or symbol terms).MatchSet ps = true ↔
        ∃ t ∈ terms, t.MatchSet ps = true) ∧
    (∀ (factors : List AssertionExpression) (ps : ProofSet),
      (AssertionExpression.And factors).MatchSet ps = true ↔
        ∀ f ∈ factors, f.MatchSet ps = true) ∧
    (∀ (u : AssertionURL) (ps : ProofSet),
      (AssertionExpression.URL u).MatchSet ps = true ↔
        ∃ p ∈ ps.Get u.Keys, u.MatchProof p = true) := by
  refine ⟨?_, ?_, ?_⟩
  · intro symbol terms ps
    rw [AssertionExpression.MatchSet, Or_MatchSet_loop_eq_any, List.any_eq_true]
  · intro factors ps
    rw [AssertionExpression.MatchSet, And_MatchSet_loop_eq_all, List.all_eq_true]
  · intro u ps
    rw [AssertionExpression.MatchSet, AssertionURLBase.matchSet,
      matchSet_loop_eq_any, List.any_eq_true]

/-! ## Matching a single proof -/

theorem AssertionURL.MatchProof_of_not_fingerprint (u : AssertionURL) (p : Proof)
    (h : u.IsFingerprint = false) : u.MatchProof p = u.base.MatchProof p := by
  cases u <;> first | rfl | simp [AssertionURL.IsFingerprint] at h

/-- C2, as the code has it: for an atom of a kind other than Fingerprint,
`MatchProof(p)` is true iff the lowercased `p.Value` is exactly the atom's
`Value`; hence, when the atom's `Value` is itself lowercase, iff the two
values are equal ignoring letter case. -/
theorem C2_MatchProof_lowercased_proof_value (u : AssertionURL) (p : Proof)
    (h : u.IsFingerprint = false) :
    (u.MatchProof p = true ↔ strings.ToLower p.Value = u.base.Value) ∧
    (strings.ToLower u.base.Value = u.base.Value →
      (u.MatchProof p = true ↔ strings.ToLower p.Value = strings.ToLower u.base.Value)) := by
  have key : u.MatchProof p = true ↔ strings.ToLower p.Value = u.base.Value := by
    rw [AssertionURL.MatchProof_of_not_fingerprint u p h]
    simp [AssertionURLBase.MatchProof]
  exact ⟨key, fun hl => by rw [hl]; exact key⟩

/-- C2 applied to the atom `keybase:alice` and a proof with value `ALICE`;
lowercasing is that of every cased letter, so the atom with the value
`\u00e9ric` matches the proof with the value `\u00c9ric`. -/
theorem C2_MatchProof_lowercased_proof_value_witness :
    kbAlice.IsFingerprint = false ∧
    (kbAlice.MatchProof ⟨"keybase", "ALICE"⟩ = true ↔
      strings.ToLower "ALICE" = kbAlice.base.Value) ∧
    strings.ToLower "\u00c9ric" = "\u00e9ric" ∧
    (AssertionURL.Keybase ⟨"keybase", "\u00e9ric"⟩).MatchProof ⟨"keybase", "\u00c9ric"⟩ = true :=
  ⟨by decide, (C2_MatchProof_lowercased_proof_value kbAlice ⟨"keybase", "ALICE"⟩ (by decide)).1,
   by decide,
   ((C2_MatchProof_lowercased_proof_value (.Keybase ⟨"keybase", "\u00e9ric"⟩)
      ⟨"keybase", "\u00c9ric"⟩ (by decide)).1).2 (by decide)⟩

/-- C2 fails as stated: the Keybase atom with value `Alice` and the proof
with value `alice` have values equal ignoring letter case, yet `MatchProof`
is false, because only the proof's value is lowercased. -/
theorem C2_counterexample :
    (AssertionURL.Keybase ⟨"keybase", "Alice"⟩).IsFingerprint = false ∧
    strings.ToLower "alice" = strings.ToLower "Alice" ∧
    (AssertionURL.Keybase ⟨"keybase", "Alice"⟩).MatchProof ⟨"keybase", "alice"⟩ = false := by
  decide

theorem len_nonneg (s : String) : 0 ≤ len s := by
  unfold len; exact Int.ofNat_nonneg _

theorem AssertionFingerprint.MatchProof_eq (a : AssertionURLBase) (p : Proof) :
    AssertionFingerprint.MatchProof a p =
      some (decide (bytesOf a.Value <:+ bytesOf (strings.ToLower p.Value))) := by
  unfold AssertionFingerprint.MatchProof
  simp only []
  by_cases hlt : len a.Value > len (strings.ToLower p.Value)
  · rw [if_pos hlt]
    have hn : ¬ (bytesOf a.Value <:+ bytesOf (strings.ToLower p.Value)) := by
      intro hs
      have := hs.length_le
      unfold len at hlt
      omega
    simp [hn]
  · rw [if_neg hlt]
    unfold sliceFrom
    have h0 := len_nonneg a.Value
    have hb : 0 ≤ len (strings.ToLower p.Value) - len a.Value ∧
        len (strings.ToLower p.Value) - len a.Value ≤ len (strings.ToLower p.Value) := by
      constructor <;> omega
    rw [if_pos hb]
    simp only [Option.map_some', Option.some.injEq]
    have hd : (len (strings.ToLower p.Value) - len a.Value).toNat =
        (bytesOf (strings.ToLower p.Value)).length - (bytesOf a.Value).length := by
      unfold len; omega
    rw [hd]
    by_cases he : List.drop ((bytesOf (strings.ToLower p.Value)).length - (bytesOf a.Value).length)
        (bytesOf (strings.ToLower p.Value)) = bytesOf a.Value
    · have hs : bytesOf a.Value <:+ bytesOf (strings.ToLower p.Value) :=
        List.suffix_iff_eq_drop.mpr he.symm
      simp [he, hs]
    · have hs : ¬ bytesOf a.Value <:+ bytesOf (strings.ToLower p.Value) :=
        fun h => he (List.suffix_iff_eq_drop.mp h).symm
      simp [he, hs]

/-! ### UTF-8: every character contributes exactly one non-continuation byte -/

theorem isLeadByte_continuation (x : UInt8) : isLeadByte (x &&& 0x3f ||| 0x80) = false := by
  obtain ⟨f⟩ := x
  revert f
  decide

theorem isLeadByte_ascii (v : UInt32) (h : v ≤ 0x7f) : isLeadByte v.toUInt8 = true := by
  have h' : v.toNat ≤ 127 := h
  have key : ∀ n : Fin 128, isLeadByte (UInt8.ofNat n.val) = true := by decide
  have := key ⟨v.toNat, by omega⟩
  simpa using this

theorem isLeadByte_two (x : UInt8) : isLeadByte (x &&& 0x1f ||| 0xc0) = true := by
  obtain ⟨f⟩ := x
  revert f
  decide

theorem isLeadByte_three (x : UInt8) : isLeadByte (x &&& 0x0f ||| 0xe0) = true := by
  obtain ⟨f⟩ := x
  revert f
  decide

theorem isLeadByte_four (x : UInt8) : isLeadByte (x &&& 0x07 ||| 0xf0) = true := by
  obtain ⟨f⟩ := x
  revert f
  decide

theorem countP_isLeadByte_utf8EncodeChar (c : Char) :
    (String.utf8EncodeChar c).countP isLeadByte = 1 := by
  unfold String.utf8EncodeChar
  simp only []
  split
  · rename_i h
    simp [List.countP_cons, isLeadByte_ascii _ h]
  · split
    · simp [List.countP_cons, isLeadByte_two, isLeadByte_continuation]
    · split
      · simp [List.countP_cons, isLeadByte_three, isLeadByte_continuation]
      · simp [List.countP_cons, isLeadByte_four, isLeadByte_continuation]

theorem countP_isLeadByte_flatMap (l : List Char) :
    (l.flatMap String.utf8EncodeChar).countP isLeadByte = l.length := by
  induction l with
  | nil => rfl
  | cons c cs ih =>
    rw [List.flatMap_cons, List.countP_append, ih, countP_isLeadByte_utf8EncodeChar,
      List.length_cons]
    omega

theorem countP_isLeadByte_bytesOf (s : String) :
    (bytesOf s).countP isLeadByte = s.length :=
  countP_isLeadByte_flatMap s.data

theorem length_le_of_bytesOf_suffix (a v : String) (h : bytesOf a <:+ bytesOf v) :
    a.length ≤ v.length := by
  rw [← countP_isLeadByte_bytesOf a, ← countP_isLeadByte_bytesOf v]
  exact h.sublist.countP_le _

theorem strings.ToLower_length (s : String) : (strings.ToLower s).length = s.length := by
  show (s.data.map unicode.ToLower).length = s.data.length
  exact List.length_map _ _

theorem AssertionURL.MatchProof_fingerprint_iff (a : AssertionURLBase) (p : Proof) :
    (AssertionURL.Fingerprint a).MatchProof p = true ↔
      bytesOf a.Value <:+ bytesOf (strings.ToLower p.Value) := by
  simp [AssertionURL.MatchProof, AssertionFingerprint.MatchProof_eq]

theorem length_le_bytesOf_length (s : String) : s.length ≤ (bytesOf s).length := by
  rw [← countP_isLeadByte_bytesOf s]
  exact List.countP_le_length _

theorem bytesOf_length_of_ascii (l : List Char) (h : ∀ c ∈ l, c.val ≤ 0x7f) :
    (l.flatMap String.utf8EncodeChar).length = l.length := by
  induction l with
  | nil => rfl
  | cons c cs ih =>
    have hc : String.utf8EncodeChar c = [c.val.toUInt8] := by
      unfold String.utf8EncodeChar
      simp only []
      rw [if_pos (h c (List.mem_cons_self _ _))]
    rw [List.flatMap_cons, hc, List.length_append, ih (fun d hd => h d (List.mem_cons_of_mem _ hd))]
    simp only [List.length_cons, List.length_nil]
    omega

/-- C3, as the code has it: the fingerprint rule never leaves the bounds of
the slice `v1[l1-l2:]` (its result is never the panic value); it is true iff
the bytes of the lowercased `p.Value` end with the bytes of `a.Value` (for
every atom value, so in particular a lowercase one).  The lengths it
compares are those of `a.Value` and of the lowercased `p.Value`, and
lowercasing can change the length in bytes: the rule is false whenever
`a.Value` is longer in bytes than the lowercased `p.Value`, whenever it has
more characters than `p.Value`, and, for an `a.Value` of ASCII characters
(as every normalized fingerprint is), whenever it is longer in bytes than
`p.Value`.  The atom `ab12` matches the proofs `ffab12` and `ab12` but not
`cd34`. -/
theorem C3_fingerprint_MatchProof_suffix :
    (∀ (a : AssertionURLBase) (p : Proof), ∃ r, AssertionFingerprint.MatchProof a p = some r) ∧
    (∀ (a : AssertionURLBase) (p : Proof),
      (AssertionURL.Fingerprint a).MatchProof p = true ↔
        bytesOf a.Value <:+ bytesOf (strings.ToLower p.Value)) ∧
    (∀ (a : AssertionURLBase) (p : Proof),
      len a.Value > len (strings.ToLower p.Value) →
        (AssertionURL.Fingerprint a).MatchProof p = false) ∧
    (∀ (a : AssertionURLBase) (p : Proof),
      a.Value.length > p.Value.length →
        (AssertionURL.Fingerprint a).MatchProof p = false) ∧
    (∀ (a : AssertionURLBase) (p : Proof),
      (∀ c ∈ a.Value.data, c.val ≤ 0x7f) → len a.Value > len p.Value →
        (AssertionURL.Fingerprint a).MatchProof p = false) ∧
    (AssertionURL.Fingerprint ⟨"fingerprint", "ab12"⟩).MatchProof ⟨"fingerprint", "ffab12"⟩ = true ∧
    (AssertionURL.Fingerprint ⟨"fingerprint", "ab12"⟩).MatchProof ⟨"fingerprint", "ab12"⟩ = true ∧
    (AssertionURL.Fingerprint ⟨"fingerprint", "ab12"⟩).MatchProof ⟨"fingerprint", "cd34"⟩ = false := by
  refine ⟨fun a p => ⟨_, AssertionFingerprint.MatchProof_eq a p⟩,
    AssertionURL.MatchProof_fingerprint_iff, ?_, ?_, ?_, by decide, by decide, by decide⟩
  · intro a p hlt
    rw [Bool.eq_false_iff, Ne, AssertionURL.MatchProof_fingerprint_iff]
    intro hs
    have := hs.length_le
    unfold len at hlt
    omega
  · intro a p hlt
    rw [Bool.eq_false_iff, Ne, AssertionURL.MatchProof_fingerprint_iff]
    intro hs
    have := length_le_of_bytesOf_suffix _ _ hs
    rw [strings.ToLower_length] at this
    omega
  · intro a p hascii hlt
    rw [Bool.eq_false_iff, Ne, AssertionURL.MatchProof_fingerprint_iff]
    intro hs
    have h1 := length_le_of_bytesOf_suffix _ _ hs
    rw [strings.ToLower_length] at h1
    have h2 := length_le_bytesOf_length p.Value
    have h3 : (bytesOf a.Value).length = a.Value.length :=
      bytesOf_length_of_ascii a.Value.data hascii
    unfold len at hlt
    omega

/-- C3 applied to the atom value `abcd12` and the shorter proof value
`CD12`; the atom `k` matches the proof `ab` followed by the Kelvin sign,
whose lower-case form is `k`. -/
theorem C3_fingerprint_MatchProof_suffix_witness :
    ("abcd12".length > "CD12".length) ∧
    (AssertionURL.Fingerprint ⟨"fingerprint", "abcd12"⟩).MatchProof ⟨"fingerprint", "CD12"⟩ =
      false ∧
    (AssertionURL.Fingerprint ⟨"fingerprint", "k"⟩).MatchProof ⟨"fingerprint", "ab\u212a"⟩ =
      true :=
  ⟨by decide, C3_fingerprint_MatchProof_suffix.2.2.2.1 ⟨"fingerprint", "abcd12"⟩
    ⟨"fingerprint", "CD12"⟩ (by decide), by decide⟩

/-- C3 fails as stated: the atom value U+2C65 is lowercase and is longer
(three bytes) than the proof value U+023A (two bytes), yet the rule is true,
because the proof value is lowercased, to U+2C65, before the lengths are
compared. -/
theorem C3_counterexample :
    strings.ToLower "\u2c65" = "\u2c65" ∧
    strings.ToLower "\u023a" = "\u2c65" ∧
    len "\u2c65" > len "\u023a" ∧
    (AssertionURL.Fingerprint ⟨"fingerprint", "\u2c65"⟩).MatchProof ⟨"fingerprint", "\u023a"⟩ =
      true := by
  decide

/-! ## Rendering -/

theorem Or_String_loop_eq_map (terms : List AssertionExpression) :
    AssertionOr.String.loop terms = terms.map AssertionExpression.String := by
  induction terms with
  | nil => simp [AssertionOr.String.loop]
  | cons t ts ih => simp [AssertionOr.String.loop, ih]

theorem And_String_loop_eq_map (factors : List AssertionExpression) :
    AssertionAnd.String.loop factors =
      factors.map (fun f => if f.isAssertionOr then "(" ++ f.String ++ ")" else f.String) := by
  induction factors with
  | nil => simp [AssertionAnd.String.loop]
  | cons f fs ih => simp [AssertionAnd.String.loop, ih]

theorem AssertionExpression.HasOr_of_isAssertionOr (f : AssertionExpression)
    (h : f.isAssertionOr = true) : f.HasOr = true := by
  cases f <;> simp_all [AssertionExpression.isAssertionOr, AssertionExpression.HasOr]

/-- C4, as the code has it: the string of an And node is its factors'
strings joined with `+`, a factor being wrapped in parentheses exactly when
it is itself an Or node; every wrapped factor has `HasOr()` true, and a
factor that is an atom or an Or node is wrapped iff its `HasOr()` is true. -/
theorem C4_And_String_parenthesizes_Or_nodes :
    (∀ factors : List AssertionExpression,
      (AssertionExpression.And factors).String =
        strings.Join
          (factors.map (fun f => if f.isAssertionOr then "(" ++ f.String ++ ")" else f.String))
          "+") ∧
    (∀ f : AssertionExpression, f.isAssertionOr = true → f.HasOr = true) ∧
    (∀ f : AssertionExpression, f.isAtom = true ∨ f.isAssertionOr = true →
      f.isAssertionOr = f.HasOr) := by
  refine ⟨?_, AssertionExpression.HasOr_of_isAssertionOr, ?_⟩
  · intro factors
    rw [AssertionExpression.String, And_String_loop_eq_map]
  · intro f hf
    cases f <;> simp_all [AssertionExpression.isAssertionOr, AssertionExpression.HasOr,
      AssertionExpression.isAtom]

/-- C4 applied to the Or node `alice,bob`: it is wrapped and has `HasOr()`. -/
theorem C4_And_String_parenthesizes_Or_nodes_witness :
    (AssertionExpression.Or "," [.URL kbAlice, .URL kbBob]).isAssertionOr = true ∧
    (AssertionExpression.Or "," [.URL kbAlice, .URL kbBob]).HasOr = true :=
  ⟨by decide, C4_And_String_parenthesizes_Or_nodes.2.1 _ (by decide)⟩

/-- C4 fails as stated: in `And{And{Or{alice,bob}}, carol@twitter}` the
first factor is an And node whose `HasOr()` is true, yet the code does not
wrap it, so the string differs from the rendering the claim describes. -/
theorem C4_counterexample :
    (AssertionExpression.And [.Or "," [.URL kbAlice, .URL kbBob]]).HasOr = true ∧
    (AssertionExpression.And
      [.And [.Or "," [.URL kbAlice, .URL kbBob]], .URL twCarol]).String
        = "(alice,bob)+carol@twitter" ∧
    AssertionAnd.String.spec [.And [.Or "," [.URL kbAlice, .URL kbBob]], .URL twCarol]
        = "((alice,bob))+carol@twitter" := by
  decide

/-- C5: `Or{A,B}` renders as `a,b` and `And{Or{A,B},C}` as `(a,b)+c`; an Or
node renders as its terms' strings joined with `,` (whatever its `symbol`);
an And node whose factors are atoms or Or nodes renders as the `+`-join in
which exactly the Or factors are parenthesized; an atom renders as
`value@key`, except a Keybase atom, which renders as its bare value. -/
theorem C5_String_rendering :
    (∀ (symbol : String) (A B : AssertionURL),
      (AssertionExpression.Or symbol [.URL A, .URL B]).String = A.String ++ "," ++ B.String) ∧
    (∀ (symbol : String) (A B C : AssertionURL),
      (AssertionExpression.And [.Or symbol [.URL A, .URL B], .URL C]).String =
        "(" ++ (A.String ++ "," ++ B.String) ++ ")" ++ "+" ++ C.String) ∧
    (∀ (symbol : String) (terms : List AssertionExpression),
      (AssertionExpression.Or symbol terms).String =
        strings.Join (terms.map AssertionExpression.String) ",") ∧
    (∀ factors : List AssertionExpression,
      (∀ f ∈ factors, f.isAtom = true ∨ f.isAssertionOr = true) →
      (AssertionExpression.And factors).String =
        strings.Join
          (factors.map (fun f => if f.isAssertionOr then "(" ++ f.String ++ ")" else f.String))
          "+") ∧
    (∀ u : AssertionURL,
      (AssertionExpression.URL u).String =
        if u.IsKeybase then u.base.Value else u.base.Value ++ "@" ++ u.base.Key) := by
  refine ⟨?_, ?_, ?_, ?_, ?_⟩
  · intro symbol A B
    simp [AssertionExpression.String, AssertionOr.String.loop, strings.Join,
      String.intercalate, String.intercalate.go]
  · intro symbol A B C
    simp [AssertionExpression.String, AssertionOr.String.loop, AssertionAnd.String.loop,
      AssertionExpression.isAssertionOr, strings.Join, String.intercalate, String.intercalate.go]
  · intro symbol terms
    rw [AssertionExpression.String, Or_String_loop_eq_map]
  · intro factors _
    rw [AssertionExpression.String, And_String_loop_eq_map]
  · intro u
    cases u <;> simp [AssertionExpression.String, AssertionURL.String, AssertionURL.IsKeybase,
      AssertionURL.base]

/-- C5 applied to `And{Or{alice,bob}, carol@twitter}`. -/
theorem C5_String_rendering_witness :
    (AssertionExpression.And [.Or "," [.URL kbAlice, .URL kbBob], .URL twCarol]).String =
      "(alice,bob)+carol@twitter" :=
  (C5_String_rendering.2.2.2.1 [.Or "," [.URL kbAlice, .URL kbBob], .URL twCarol]
    (by decide)).trans (by decide)

/-! ## Best component for identification -/

theorem firstOf_cons (p : AssertionURL → Bool) (u : AssertionURL) (urls : List AssertionURL) :
    firstOf p (u :: urls) = if p u then some u else firstOf p urls := by
  unfold firstOf
  by_cases h : p u = true <;> simp [List.filter_cons, h]

theorem lastOf_cons (p : AssertionURL → Bool) (u : AssertionURL) (urls : List AssertionURL) :
    lastOf p (u :: urls) = (lastOf p urls).or (if p u then some u else none) := by
  unfold lastOf
  by_cases h : p u = true
  · rw [List.filter_cons_of_pos h, ← List.singleton_append, List.getLast?_append]
    simp [h]
  · rw [List.filter_cons_of_neg h]
    simp [h, Option.or_none]

/-- The candidates after scanning atoms none of which is a UID or TeamID
atom: the scan runs to the end of the list. -/
theorem scan_eq_of_no_ids (urls : List AssertionURL) :
    ∀ c : Candidates, (∀ u ∈ urls, u.IsUID = false ∧ u.IsTeamID = false) →
    FindBestIdentifyComponentURL.scan urls c =
      { uid := c.uid, tid := c.tid,
        kb := (lastOf AssertionURL.IsKeybase urls).or c.kb,
        team := (lastOf AssertionURL.IsTeamName urls).or c.team,
        soc := c.soc.or (firstOf AssertionURL.isOtherSocial urls),
        fp := c.fp.or (firstOf AssertionURL.IsFingerprint urls),
        rooter := (lastOf AssertionURL.isRooter urls).or c.rooter } := by
  induction urls with
  | nil =>
    intro c _
    simp [FindBestIdentifyComponentURL.scan, lastOf, firstOf, Option.or_none]
  | cons u us ih =>
    intro c h
    have hu := h u (List.mem_cons_self _ _)
    have hus : ∀ x ∈ us, x.IsUID = false ∧ x.IsTeamID = false :=
      fun x hx => h x (List.mem_cons_of_mem _ hx)
    rw [FindBestIdentifyComponentURL.scan]
    simp only [hu.1, hu.2, Bool.false_eq_true, if_false, lastOf_cons, firstOf_cons]
    cases u with
    | UID b i => simp [AssertionURL.IsUID] at hu
    | TeamID b i => simp [AssertionURL.IsTeamID] at hu
    | Social b =>
      by_cases hk : b.Key = "rooter"
      · simp [AssertionURL.IsKeybase, AssertionURL.IsTeamName, AssertionURL.IsFingerprint,
          AssertionURL.IsSocial, AssertionURL.isRooter, AssertionURL.isOtherSocial,
          AssertionURL.ToKeyValuePair, AssertionURL.base, hk, ih _ hus, Option.or_none,
          Option.or_assoc]
      · cases hs : c.soc <;>
        simp [AssertionURL.IsKeybase, AssertionURL.IsTeamName, AssertionURL.IsFingerprint,
          AssertionURL.IsSocial, AssertionURL.isRooter, AssertionURL.isOtherSocial,
          AssertionURL.ToKeyValuePair, AssertionURL.base, hk, hs, ih _ hus, Option.or_none,
          Option.or_assoc]
    | Fingerprint b =>
      cases hs : c.fp <;>
      simp [AssertionURL.IsKeybase, AssertionURL.IsTeamName, AssertionURL.IsFingerprint,
          AssertionURL.IsSocial, AssertionURL.isRooter, AssertionURL.isOtherSocial,
          hs, ih _ hus, Option.or_none, Option.or_assoc]
    | _ =>
      simp [AssertionURL.IsKeybase, AssertionURL.IsTeamName, AssertionURL.IsFingerprint,
          AssertionURL.IsSocial, AssertionURL.isRooter, AssertionURL.isOtherSocial,
          ih _ hus, Option.or_none, Option.or_assoc]

theorem lastOf_eq_none_iff (p : AssertionURL → Bool) (urls : List AssertionURL) :
    lastOf p urls = none ↔ ∀ u ∈ urls, p u = false := by
  unfold lastOf
  rw [List.getLast?_eq_none_iff, List.filter_eq_nil_iff]
  simp

theorem firstOf_eq_none_iff (p : AssertionURL → Bool) (urls : List AssertionURL) :
    firstOf p urls = none ↔ ∀ u ∈ urls, p u = false := by
  unfold firstOf
  rw [List.head?_eq_none_iff, List.filter_eq_nil_iff]
  simp

theorem lastOf_eq_some (p : AssertionURL → Bool) (urls : List AssertionURL) (r : AssertionURL)
    (h : lastOf p urls = some r) : r ∈ urls ∧ p r = true := by
  unfold lastOf at h
  have hm := List.mem_of_getLast?_eq_some h
  exact List.mem_filter.mp hm

theorem firstOf_eq_some (p : AssertionURL → Bool) (urls : List AssertionURL) (r : AssertionURL)
    (h : firstOf p urls = some r) : r ∈ urls ∧ p r = true := by
  unfold firstOf at h
  have hm := List.mem_of_mem_head? h
  exact List.mem_filter.mp hm

/-- The scan stops at the first atom that is a UID or TeamID atom. -/
theorem scan_stops_at_first_id (pre : List AssertionURL) (u : AssertionURL)
    (post : List AssertionURL) :
    ∀ c : Candidates, (∀ x ∈ pre, x.IsUID = false ∧ x.IsTeamID = false) →
    (u.IsUID = true ∨ u.IsTeamID = true) →
    (FindBestIdentifyComponentURL.scan (pre ++ u :: post) c).uid =
        (if u.IsUID then some u else c.uid) ∧
    (FindBestIdentifyComponentURL.scan (pre ++ u :: post) c).tid =
        (if u.IsUID then c.tid else some u) := by
  induction pre with
  | nil =>
    intro c _ hu
    rw [List.nil_append, FindBestIdentifyComponentURL.scan]
    by_cases h1 : u.IsUID = true
    · simp [h1]
    · have h2 : u.IsTeamID = true := hu.resolve_left h1
      simp [h1, h2]
  | cons x xs ih =>
    intro c h hu
    have hx := h x (List.mem_cons_self _ _)
    have hxs : ∀ y ∈ xs, y.IsUID = false ∧ y.IsTeamID = false :=
      fun y hy => h y (List.mem_cons_of_mem _ hy)
    rw [List.cons_append, FindBestIdentifyComponentURL.scan]
    simp only [hx.1, hx.2, Bool.false_eq_true, if_false]
    split_ifs <;> simpa [*] using ih _ hxs hu

theorem select_of_first_id (pre : List AssertionURL) (u : AssertionURL)
    (post : List AssertionURL) (hpre : ∀ x ∈ pre, x.IsUID = false ∧ x.IsTeamID = false)
    (hu : u.IsUID = true ∨ u.IsTeamID = true) :
    FindBestIdentifyComponentURL.select (pre ++ u :: post) = some u := by
  obtain ⟨h1, h2⟩ := scan_stops_at_first_id pre u post Candidates.nil hpre hu
  cases hl : pre ++ u :: post with
  | nil => simp at hl
  | cons u0 rest =>
    rw [hl] at h1 h2
    simp only [FindBestIdentifyComponentURL.select, h1, h2]
    by_cases hi : u.IsUID = true
    · simp [hi, FindBestIdentifyComponentURL.pick]
    · simp [hi, Candidates.nil, FindBestIdentifyComponentURL.pick]

/-- C6, as the code has it: the first collected atom that is a UID or a
TeamID atom is returned.  So the first UID atom is returned when no TeamID
atom precedes it, and a TeamID atom standing before every UID atom is
returned instead. -/
theorem C6_first_UID_or_TeamID_atom_is_returned (e : AssertionExpression)
    (pre post : List AssertionURL) (u : AssertionURL)
    (hc : e.CollectUrls [] = pre ++ u :: post)
    (hpre : ∀ x ∈ pre, x.IsUID = false ∧ x.IsTeamID = false)
    (hu : u.IsUID = true ∨ u.IsTeamID = true) :
    FindBestIdentifyComponentURL e = some u := by
  rw [FindBestIdentifyComponentURL, hc]
  exact select_of_first_id pre u post hpre hu

/-- C6 applied to the atoms `[twitter:bob, uid:0123, keybase:alice]`. -/
theorem C6_first_UID_or_TeamID_atom_is_returned_witness :
    FindBestIdentifyComponentURL (.And [.URL twBob, .URL uid0123, .URL kbAlice]) = some uid0123 :=
  C6_first_UID_or_TeamID_atom_is_returned (.And [.URL twBob, .URL uid0123, .URL kbAlice])
    [twBob] [kbAlice] uid0123 (by decide) (by decide) (by decide)

/-- C6 fails as stated: the collected atoms of `tid:4567+uid:0123` include
the UID atom `uid:0123` (the first and only one), but the scan stops at the
TeamID atom before it, which is returned. -/
theorem C6_counterexample :
    (AssertionExpression.And [.URL tid4567, .URL uid0123]).CollectUrls [] = [tid4567, uid0123] ∧
    firstOf AssertionURL.IsUID [tid4567, uid0123] = some uid0123 ∧
    FindBestIdentifyComponentURL (.And [.URL tid4567, .URL uid0123]) = some tid4567 ∧
    tid4567 ≠ uid0123 := by
  decide

theorem any_eq_isSome_lastOf (p : AssertionURL → Bool) (urls : List AssertionURL) :
    urls.any p = (lastOf p urls).isSome := by
  cases h : lastOf p urls with
  | none =>
    rw [lastOf_eq_none_iff] at h
    simpa [List.any_eq_false] using h
  | some r =>
    obtain ⟨hm, hp⟩ := lastOf_eq_some p urls r h
    simpa [List.any_eq_true] using ⟨r, hm, hp⟩

theorem any_eq_isSome_firstOf (p : AssertionURL → Bool) (urls : List AssertionURL) :
    urls.any p = (firstOf p urls).isSome := by
  cases h : firstOf p urls with
  | none =>
    rw [firstOf_eq_none_iff] at h
    simpa [List.any_eq_false] using h
  | some r =>
    obtain ⟨hm, hp⟩ := firstOf_eq_some p urls r h
    simpa [List.any_eq_true] using ⟨r, hm, hp⟩

/-- The choice made on a non-empty list of atoms without UID and TeamID
atoms. -/
theorem select_of_no_ids (u0 : AssertionURL) (rest : List AssertionURL)
    (h : ∀ u ∈ u0 :: rest, u.IsUID = false ∧ u.IsTeamID = false) :
    FindBestIdentifyComponentURL.select (u0 :: rest) =
      (lastOf AssertionURL.IsKeybase (u0 :: rest)).or
        ((lastOf AssertionURL.IsTeamName (u0 :: rest)).or
          ((firstOf AssertionURL.IsFingerprint (u0 :: rest)).or
            ((lastOf AssertionURL.isRooter (u0 :: rest)).or
              ((firstOf AssertionURL.isOtherSocial (u0 :: rest)).or (some u0))))) := by
  rw [FindBestIdentifyComponentURL.select]
  rw [scan_eq_of_no_ids (u0 :: rest) Candidates.nil h]
  simp only [Candidates.nil, Option.or_none, Option.none_or]
  cases lastOf AssertionURL.IsKeybase (u0 :: rest) <;>
  cases lastOf AssertionURL.IsTeamName (u0 :: rest) <;>
  cases firstOf AssertionURL.IsFingerprint (u0 :: rest) <;>
  cases lastOf AssertionURL.isRooter (u0 :: rest) <;>
  cases firstOf AssertionURL.isOtherSocial (u0 :: rest) <;>
  simp [FindBestIdentifyComponentURL.pick]

/-- C7, as the code has it: with no UID, TeamID, Keybase, TeamName or
Fingerprint atom and with both a rooter and a non-rooter Social atom
collected, the result is a rooter Social atom (the last one collected):
rooter wins over the other Social atoms. -/
theorem C7_rooter_social_wins (e : AssertionExpression)
    (h : ∀ u ∈ e.CollectUrls [], u.IsUID = false ∧ u.IsTeamID = false ∧ u.IsKeybase = false ∧
      u.IsTeamName = false ∧ u.IsFingerprint = false)
    (hr : ∃ r ∈ e.CollectUrls [], r.IsSocial = true ∧ r.ToKeyValuePair.1 = "rooter")
    (_hs : ∃ s ∈ e.CollectUrls [], s.IsSocial = true ∧ s.ToKeyValuePair.1 ≠ "rooter") :
    ∃ r, FindBestIdentifyComponentURL e = some r ∧ r ∈ e.CollectUrls [] ∧
      r.IsSocial = true ∧ r.ToKeyValuePair.1 = "rooter" ∧
      lastOf AssertionURL.isRooter (e.CollectUrls []) = some r := by
  rw [FindBestIdentifyComponentURL]
  cases hl : e.CollectUrls [] with
  | nil =>
    obtain ⟨r, hm, _⟩ := hr
    rw [hl] at hm
    simp at hm
  | cons u0 rest =>
    rw [hl] at h hr
    have hids : ∀ u ∈ u0 :: rest, u.IsUID = false ∧ u.IsTeamID = false :=
      fun u hu => ⟨(h u hu).1, (h u hu).2.1⟩
    have hkb : lastOf AssertionURL.IsKeybase (u0 :: rest) = none :=
      (lastOf_eq_none_iff _ _).mpr (fun u hu => (h u hu).2.2.1)
    have hteam : lastOf AssertionURL.IsTeamName (u0 :: rest) = none :=
      (lastOf_eq_none_iff _ _).mpr (fun u hu => (h u hu).2.2.2.1)
    have hfp : firstOf AssertionURL.IsFingerprint (u0 :: rest) = none :=
      (firstOf_eq_none_iff _ _).mpr (fun u hu => (h u hu).2.2.2.2)
    rw [select_of_no_ids u0 rest hids, hkb, hteam, hfp]
    cases hro : lastOf AssertionURL.isRooter (u0 :: rest) with
    | none =>
      obtain ⟨r, hm, h1, h2⟩ := hr
      have := (lastOf_eq_none_iff _ _).mp hro r hm
      simp [AssertionURL.isRooter, h1, h2] at this
    | some r =>
      obtain ⟨hm, hp⟩ := lastOf_eq_some _ _ r hro
      simp only [AssertionURL.isRooter, Bool.and_eq_true, beq_iff_eq] at hp
      exact ⟨r, by simp, hm, hp.1, hp.2, rfl⟩

/-- C7 applied to the atoms `[rooter:bob, twitter:carol]`: the result is
`rooter:bob`. -/
theorem C7_rooter_social_wins_witness :
    ∃ r, FindBestIdentifyComponentURL (.Or "," [.URL rooterBob, .URL twCarol]) = some r ∧
      r ∈ (AssertionExpression.Or "," [.URL rooterBob, .URL twCarol]).CollectUrls [] ∧
      r.IsSocial = true ∧ r.ToKeyValuePair.1 = "rooter" ∧
      lastOf AssertionURL.isRooter
        ((AssertionExpression.Or "," [.URL rooterBob, .URL twCarol]).CollectUrls []) = some r :=
  C7_rooter_social_wins (.Or "," [.URL rooterBob, .URL twCarol]) (by decide)
    ⟨rooterBob, by decide, by decide, by decide⟩ ⟨twCarol, by decide, by decide, by decide⟩

/-- C7 fails as stated: the collected atoms `[rooter:bob, twitter:carol]`
hold no UID, TeamID, Keybase, TeamName or Fingerprint atom, a rooter Social
atom and a non-rooter Social atom, and the result is `rooter:bob`, not
`twitter:carol`. -/
theorem C7_counterexample :
    (AssertionExpression.Or "," [.URL rooterBob, .URL twCarol]).CollectUrls [] =
      [rooterBob, twCarol] ∧
    (∀ u ∈ [rooterBob, twCarol], u.IsUID = false ∧ u.IsTeamID = false ∧ u.IsKeybase = false ∧
      u.IsTeamName = false ∧ u.IsFingerprint = false) ∧
    (rooterBob.IsSocial = true ∧ rooterBob.ToKeyValuePair.1 = "rooter") ∧
    (twCarol.IsSocial = true ∧ twCarol.ToKeyValuePair.1 ≠ "rooter") ∧
    FindBestIdentifyComponentURL (.Or "," [.URL rooterBob, .URL twCarol]) = some rooterBob ∧
    rooterBob ≠ twCarol := by
  decide

/-- C8, as the code has it: with no UID or TeamID atom collected, the
candidate kept for Fingerprint and for non-rooter Social is the first atom
of that category in collection order, and the candidate kept for Keybase,
TeamName and rooter Social is the last atom of that category (each later
one overwrites it); so when Keybase atoms are present the result is the
last Keybase atom collected. -/
theorem C8_candidates_kept_by_the_scan (e : AssertionExpression)
    (h : ∀ u ∈ e.CollectUrls [], u.IsUID = false ∧ u.IsTeamID = false) :
    FindBestIdentifyComponentURL.scan (e.CollectUrls []) Candidates.nil =
      { uid := none, tid := none,
        kb := lastOf AssertionURL.IsKeybase (e.CollectUrls []),
        team := lastOf AssertionURL.IsTeamName (e.CollectUrls []),
        soc := firstOf AssertionURL.isOtherSocial (e.CollectUrls []),
        fp := firstOf AssertionURL.IsFingerprint (e.CollectUrls []),
        rooter := lastOf AssertionURL.isRooter (e.CollectUrls []) } ∧
    (∀ k, lastOf AssertionURL.IsKeybase (e.CollectUrls []) = some k →
      FindBestIdentifyComponentURL e = some k) := by
  constructor
  · rw [scan_eq_of_no_ids _ _ h]
    simp [Candidates.nil, Option.or_none]
  · intro k hk
    rw [FindBestIdentifyComponentURL]
    cases hl : e.CollectUrls [] with
    | nil => rw [hl] at hk; simp [lastOf] at hk
    | cons u0 rest =>
      rw [hl] at h hk
      rw [select_of_no_ids u0 rest h, hk, Option.or_some]

/-- C8 applied to the atoms `[keybase:alice, keybase:bob]`: the result is
`keybase:bob`. -/
theorem C8_candidates_kept_by_the_scan_witness :
    FindBestIdentifyComponentURL (.Or "," [.URL kbAlice, .URL kbBob]) = some kbBob :=
  (C8_candidates_kept_by_the_scan (.Or "," [.URL kbAlice, .URL kbBob]) (by decide)).2 kbBob
    (by decide)

/-- C8 fails as stated: of the collected Keybase atoms
`[keybase:alice, keybase:bob]` the first is `keybase:alice`, but the
candidate kept, and the result, is `keybase:bob`. -/
theorem C8_counterexample :
    (AssertionExpression.Or "," [.URL kbAlice, .URL kbBob]).CollectUrls [] = [kbAlice, kbBob] ∧
    firstOf AssertionURL.IsKeybase [kbAlice, kbBob] = some kbAlice ∧
    (FindBestIdentifyComponentURL.scan [kbAlice, kbBob] Candidates.nil).kb = some kbBob ∧
    FindBestIdentifyComponentURL (.Or "," [.URL kbAlice, .URL kbBob]) = some kbBob ∧
    kbBob ≠ kbAlice := by
  decide

/-- C9: with no UID or TeamID atom collected, the result is nil exactly
when no atom is collected (and then `FindBestIdentifyComponent` is the empty
string); otherwise it is one of the collected atoms, of the first category
present in the order Keybase, TeamName, Fingerprint, rooter Social, other
Social, and the first collected atom when none of these is present;
`keybase:alice` wins over `twitter:bob` in either order. -/
theorem C9_highest_priority_category_wins (e : AssertionExpression)
    (h : ∀ u ∈ e.CollectUrls [], u.IsUID = false ∧ u.IsTeamID = false) :
    (FindBestIdentifyComponentURL e = none ↔ e.CollectUrls [] = []) ∧
    (e.CollectUrls [] = [] → FindBestIdentifyComponent e = "") ∧
    (∀ r, FindBestIdentifyComponentURL e = some r →
      r ∈ e.CollectUrls [] ∧ FindBestIdentifyComponent e = r.String ∧
      (if (e.CollectUrls []).any AssertionURL.IsKeybase then r.IsKeybase = true
       else if (e.CollectUrls []).any AssertionURL.IsTeamName then r.IsTeamName = true
       else if (e.CollectUrls []).any AssertionURL.IsFingerprint then r.IsFingerprint = true
       else if (e.CollectUrls []).any AssertionURL.isRooter then r.isRooter = true
       else if (e.CollectUrls []).any AssertionURL.isOtherSocial then r.isOtherSocial = true
       else (e.CollectUrls []).head? = some r)) ∧
    FindBestIdentifyComponentURL (.And [.URL kbAlice, .URL twBob]) = some kbAlice ∧
    FindBestIdentifyComponentURL (.And [.URL twBob, .URL kbAlice]) = some kbAlice := by
  refine ⟨?_, ?_, ?_, by decide, by decide⟩
  · rw [FindBestIdentifyComponentURL]
    cases hl : e.CollectUrls [] with
    | nil => simp [FindBestIdentifyComponentURL.select]
    | cons u0 rest =>
      rw [hl] at h
      rw [select_of_no_ids u0 rest h]
      simp [Option.or_eq_none]
  · intro hl
    simp [FindBestIdentifyComponent, FindBestIdentifyComponentURL, hl,
      FindBestIdentifyComponentURL.select]
  · intro r hr
    refine ⟨?_, by simp [FindBestIdentifyComponent, hr], ?_⟩ <;>
    · rw [FindBestIdentifyComponentURL] at hr
      try simp only [any_eq_isSome_lastOf AssertionURL.IsKeybase,
        any_eq_isSome_lastOf AssertionURL.IsTeamName,
        any_eq_isSome_firstOf AssertionURL.IsFingerprint,
        any_eq_isSome_lastOf AssertionURL.isRooter,
        any_eq_isSome_firstOf AssertionURL.isOtherSocial]
      cases hl : e.CollectUrls [] with
      | nil => simp [hl, FindBestIdentifyComponentURL.select] at hr
      | cons u0 rest =>
        rw [hl] at h hr
        rw [select_of_no_ids u0 rest h] at hr
        cases h1 : lastOf AssertionURL.IsKeybase (u0 :: rest) with
        | some k =>
          have := lastOf_eq_some _ _ k h1
          simp_all
        | none =>
          cases h2 : lastOf AssertionURL.IsTeamName (u0 :: rest) with
          | some k =>
            have := lastOf_eq_some _ _ k h2
            simp_all
          | none =>
            cases h3 : firstOf AssertionURL.IsFingerprint (u0 :: rest) with
            | some k =>
              have := firstOf_eq_some _ _ k h3
              simp_all
            | none =>
              cases h4 : lastOf AssertionURL.isRooter (u0 :: rest) with
              | some k =>
                have := lastOf_eq_some _ _ k h4
                simp_all
              | none =>
                cases h5 : firstOf AssertionURL.isOtherSocial (u0 :: rest) with
                | some k =>
                  have := firstOf_eq_some _ _ k h5
                  simp_all
                | none => simp_all

/-- C9 applied to `keybase:alice+twitter:bob`. -/
theorem C9_highest_priority_category_wins_witness :
    (∀ u ∈ (AssertionExpression.And [.URL kbAlice, .URL twBob]).CollectUrls [],
      u.IsUID = false ∧ u.IsTeamID = false) ∧
    kbAlice ∈ (AssertionExpression.And [.URL kbAlice, .URL twBob]).CollectUrls [] ∧
    FindBestIdentifyComponent (.And [.URL kbAlice, .URL twBob]) = kbAlice.String :=
  ⟨by decide,
   ((C9_highest_priority_category_wins (.And [.URL kbAlice, .URL twBob])
      (by decide)).2.2.1 kbAlice (by decide)).1,
   ((C9_highest_priority_category_wins (.And [.URL kbAlice, .URL twBob])
      (by decide)).2.2.1 kbAlice (by decide)).2.1⟩

/-! ## Collecting and partitioning the atoms -/

mutual
theorem CollectUrls_acc : ∀ (e : AssertionExpression) (v : List AssertionURL),
    e.CollectUrls v = v ++ e.CollectUrls []
  | .Or _ terms, v => by
    rw [AssertionExpression.CollectUrls, AssertionExpression.CollectUrls]
    exact CollectUrls_loop_acc terms v
  | .And factors, v => by
    rw [AssertionExpression.CollectUrls, AssertionExpression.CollectUrls]
    exact CollectUrls_loop_acc factors v
  | .URL u, v => by simp [AssertionExpression.CollectUrls]
theorem CollectUrls_loop_acc : ∀ (ts : List AssertionExpression) (v : List AssertionURL),
    AssertionExpression.CollectUrls.loop ts v = v ++ AssertionExpression.CollectUrls.loop ts []
  | [], v => by simp [AssertionExpression.CollectUrls.loop]
  | t :: ts, v => by
    rw [AssertionExpression.CollectUrls.loop, AssertionExpression.CollectUrls.loop,
      CollectUrls_loop_acc ts (AssertionExpression.CollectUrls t v),
      CollectUrls_loop_acc ts (AssertionExpression.CollectUrls t []),
      CollectUrls_acc t v, List.append_assoc]
end

theorem CollectUrls_loop_eq_flatMap (ts : List AssertionExpression) :
    AssertionExpression.CollectUrls.loop ts [] = ts.flatMap (fun t => t.CollectUrls []) := by
  induction ts with
  | nil => simp [AssertionExpression.CollectUrls.loop]
  | cons t ts ih =>
    rw [AssertionExpression.CollectUrls.loop, CollectUrls_loop_acc, ih, List.flatMap_cons]

theorem CollectAssertions_loop_eq (urls : List AssertionURL) :
    ∀ remotes locals : List AssertionExpression,
    CollectAssertions.loop urls (remotes, locals) =
      (remotes ++ (urls.filter AssertionURL.IsRemote).map .URL,
       locals ++ (urls.filter (fun u => !u.IsRemote)).map .URL) := by
  induction urls with
  | nil => intro remotes locals; simp [CollectAssertions.loop]
  | cons u us ih =>
    intro remotes locals
    rw [CollectAssertions.loop]
    by_cases h : u.IsRemote = true
    · simp [h, ih]
    · simp [h, ih]

/-- C10, as the code has it: `remotes` is the subsequence of the collected
atoms whose `IsRemote()` is true and `locals` the subsequence of the others,
each in collection order, the collected atoms being the leaves in pre-order
from left to right; `IsRemote()` is true on the Web, Http, Https, Dns
and Social atoms, so the locals are the Keybase, Uid, TeamId, TeamName and
Fingerprint atoms; `dns:example.com+keybase:alice` gives remotes
`[dns:example.com]` and locals `[keybase:alice]`. -/
theorem C10_CollectAssertions_partitions_by_IsRemote :
    (∀ u : AssertionURL, (AssertionExpression.URL u).CollectUrls [] = [u]) ∧
    (∀ (symbol : String) (terms : List AssertionExpression),
      (AssertionExpression.Or symbol terms).CollectUrls [] =
        terms.flatMap (fun t => t.CollectUrls [])) ∧
    (∀ factors : List AssertionExpression,
      (AssertionExpression.And factors).CollectUrls [] =
        factors.flatMap (fun f => f.CollectUrls [])) ∧
    (∀ e : AssertionExpression,
      CollectAssertions e =
        (.And (((e.CollectUrls []).filter AssertionURL.IsRemote).map .URL),
         .And (((e.CollectUrls []).filter (fun u => !u.IsRemote)).map .URL))) ∧
    (∀ u : AssertionURL, u.IsRemote = true ↔ (u.isHostKind = true ∨ u.IsSocial = true)) ∧
    (∀ u : AssertionURL, u.IsRemote = false ↔
      (u.IsKeybase = true ∨ u.IsUID = true ∨ u.IsTeamID = true ∨ u.IsTeamName = true ∨
        u.IsFingerprint = true)) ∧
    CollectAssertions (.And [.URL dnsExample, .URL kbAlice]) =
      (.And [.URL dnsExample], .And [.URL kbAlice]) := by
  refine ⟨fun u => rfl, ?_, ?_, ?_, ?_, ?_, rfl⟩
  · intro symbol terms
    rw [AssertionExpression.CollectUrls, CollectUrls_loop_eq_flatMap]
  · intro factors
    rw [AssertionExpression.CollectUrls, CollectUrls_loop_eq_flatMap]
  · intro e
    simp [CollectAssertions, CollectAssertions_loop_eq]
  · intro u
    cases u <;> simp [AssertionURL.IsRemote, AssertionURL.isHostKind, AssertionURL.IsSocial]
  · intro u
    cases u <;> simp [AssertionURL.IsRemote, AssertionURL.IsKeybase, AssertionURL.IsUID,
      AssertionURL.IsTeamID, AssertionURL.IsTeamName, AssertionURL.IsFingerprint]

/-- C10 fails as stated: the Social atom `twitter:bob` is put among the
remotes, while the claim puts every Social atom among the locals. -/
theorem C10_counterexample :
    twBob.IsSocial = true ∧ twBob.isHostKind = false ∧
    CollectAssertions (.URL twBob) = (.And [.URL twBob], .And []) ∧
    CollectAssertions.spec (.URL twBob) = (.And [], .And [.URL twBob]) ∧
    CollectAssertions (.URL twBob) ≠ CollectAssertions.spec (.URL twBob) := by
  refine ⟨rfl, rfl, rfl, rfl, ?_⟩
  intro h
  have h2 : (AssertionExpression.And [.URL twBob], AssertionExpression.And []) =
      (AssertionExpression.And [], AssertionExpression.And [.URL twBob]) := h
  simp at h2

/-! ## Parsing an atom into key and value -/

/-! ### ASCII characters in UTF-8 -/

theorem utf8EncodeChar_ascii (c : Char) (h : c.val ≤ 0x7f) :
    String.utf8EncodeChar c = [c.val.toUInt8] := by
  unfold String.utf8EncodeChar
  simp only []
  rw [if_pos h]

theorem high_two (x : UInt8) : (0x80 : UInt8) ≤ (x &&& 0x1f ||| 0xc0) := by
  obtain ⟨f⟩ := x
  revert f
  decide

theorem high_three (x : UInt8) : (0x80 : UInt8) ≤ (x &&& 0x0f ||| 0xe0) := by
  obtain ⟨f⟩ := x
  revert f
  decide

theorem high_four (x : UInt8) : (0x80 : UInt8) ≤ (x &&& 0x07 ||| 0xf0) := by
  obtain ⟨f⟩ := x
  revert f
  decide

theorem high_continuation (x : UInt8) : (0x80 : UInt8) ≤ (x &&& 0x3f ||| 0x80) := by
  obtain ⟨f⟩ := x
  revert f
  decide

theorem utf8EncodeChar_high (c : Char) (h : ¬ c.val ≤ 0x7f) :
    ∀ x ∈ String.utf8EncodeChar c, (0x80 : UInt8) ≤ x := by
  unfold String.utf8EncodeChar
  simp only []
  rw [if_neg h]
  split
  · simp [high_two, high_continuation]
  · split
    · simp [high_three, high_continuation]
    · simp [high_four, high_continuation]

theorem toUInt8_toNat_of_ascii (v : UInt32) (h : v ≤ 0x7f) : v.toUInt8.toNat = v.toNat := by
  have h' : v.toNat ≤ 127 := h
  show (UInt8.ofNat v.toNat).toNat = v.toNat
  simp [UInt8.ofNat, UInt8.toNat, Fin.ofNat]
  omega

theorem toUInt8_lt_of_ascii (v : UInt32) (h : v ≤ 0x7f) : v.toUInt8 < 0x80 := by
  have h' : v.toNat ≤ 127 := h
  have := toUInt8_toNat_of_ascii v h
  show v.toUInt8.toNat < 128
  omega

theorem char_eq_of_toUInt8_eq (c d : Char) (hc : c.val ≤ 0x7f) (hd : d.val ≤ 0x7f)
    (h : c.val.toUInt8 = d.val.toUInt8) : c = d := by
  have h1 := toUInt8_toNat_of_ascii c.val hc
  have h2 := toUInt8_toNat_of_ascii d.val hd
  rw [h] at h1
  have h3 : c.val.toNat = d.val.toNat := by omega
  apply Char.ext
  exact UInt32.ext h3

/-- The byte of an ASCII character occurs in the encoding of a character
only when that character is the ASCII character itself. -/
theorem ascii_byte_mem_utf8EncodeChar (c : Char) (hc : c.val ≤ 0x7f) (d : Char) :
    c.val.toUInt8 ∈ String.utf8EncodeChar d ↔ d = c := by
  by_cases hd : d.val ≤ 0x7f
  · rw [utf8EncodeChar_ascii d hd, List.mem_singleton]
    exact ⟨fun h => (char_eq_of_toUInt8_eq c d hc hd h).symm, fun h => by rw [h]⟩
  · constructor
    · intro hm
      have h1 : 128 ≤ c.val.toUInt8.toNat := utf8EncodeChar_high d hd _ hm
      have h2 : c.val.toUInt8.toNat < 128 := toUInt8_lt_of_ascii c.val hc
      omega
    · intro h
      rw [h] at hd
      exact absurd hc hd

theorem ascii_byte_mem_flatMap (c : Char) (hc : c.val ≤ 0x7f) (l : List Char) :
    c.val.toUInt8 ∈ l.flatMap String.utf8EncodeChar ↔ c ∈ l := by
  rw [List.mem_flatMap]
  constructor
  · rintro ⟨d, hd, hm⟩
    rw [ascii_byte_mem_utf8EncodeChar c hc d] at hm
    rw [← hm]; exact hd
  · intro h
    exact ⟨c, h, (ascii_byte_mem_utf8EncodeChar c hc c).mpr rfl⟩

theorem byteLen_cons (c : Char) (l : List Char) : byteLen (c :: l) = c.utf8Size + byteLen l := by
  simp [byteLen]

theorem byteLen_append (a b : List Char) : byteLen (a ++ b) = byteLen a + byteLen b := by
  simp [byteLen]

theorem len_eq_byteLen (s : String) : len s = (byteLen s.data : Nat) := rfl

theorem dropBytes_zero (l : List Char) : dropBytes l 0 = some l := by
  cases l <;> rfl

theorem takeBytes_zero (l : List Char) : takeBytes l 0 = some [] := by
  cases l <;> rfl

theorem dropBytes_cons_add (c : Char) (l : List Char) (n : Nat) :
    dropBytes (c :: l) (c.utf8Size + n) = dropBytes l n := by
  have hp := Char.utf8Size_pos c
  obtain ⟨k, hk⟩ : ∃ k, c.utf8Size + n = k + 1 := ⟨c.utf8Size + n - 1, by omega⟩
  rw [hk, dropBytes, if_pos (by omega)]
  congr 1
  omega

theorem takeBytes_cons_add (c : Char) (l : List Char) (n : Nat) :
    takeBytes (c :: l) (c.utf8Size + n) = (takeBytes l n).map (c :: ·) := by
  have hp := Char.utf8Size_pos c
  obtain ⟨k, hk⟩ : ∃ k, c.utf8Size + n = k + 1 := ⟨c.utf8Size + n - 1, by omega⟩
  rw [hk, takeBytes, if_pos (by omega)]
  congr 2
  omega

theorem dropBytes_append (pre rest : List Char) :
    dropBytes (pre ++ rest) (byteLen pre) = some rest := by
  induction pre with
  | nil => exact dropBytes_zero rest
  | cons c cs ih => rw [List.cons_append, byteLen_cons, dropBytes_cons_add, ih]

theorem takeBytes_append (pre rest : List Char) :
    takeBytes (pre ++ rest) (byteLen pre) = some pre := by
  induction pre with
  | nil => exact takeBytes_zero rest
  | cons c cs ih => rw [List.cons_append, byteLen_cons, takeBytes_cons_add, ih]; rfl

theorem slice_prefix (s : String) (pre rest : List Char) (h : s.data = pre ++ rest) :
    slice s 0 (byteLen pre : Nat) = some ⟨pre⟩ := by
  unfold slice
  have hl : len s = ((byteLen pre + byteLen rest : Nat) : Int) := by
    rw [len_eq_byteLen, h, byteLen_append]
  rw [if_pos (by rw [hl]; omega)]
  simp only [Int.toNat_zero, dropBytes_zero, Int.sub_zero, Int.toNat_ofNat]
  rw [h, takeBytes_append]
  rfl

theorem slice_suffix (s : String) (pre rest : List Char) (h : s.data = pre ++ rest) :
    slice s (byteLen pre : Nat) (len s) = some ⟨rest⟩ := by
  unfold slice
  have hl : len s = ((byteLen pre + byteLen rest : Nat) : Int) := by
    rw [len_eq_byteLen, h, byteLen_append]
  rw [if_pos (by rw [hl]; omega)]
  simp only [Int.toNat_ofNat]
  rw [h, dropBytes_append]
  have : (len s - (byteLen pre : Nat)).toNat = byteLen rest := by rw [hl]; omega
  simp only [this]
  have := takeBytes_append rest []
  rw [List.append_nil] at this
  rw [this]
  rfl

theorem IndexByte_of_not_mem (s : String) (c : Char) (hc : c.val ≤ 0x7f) (h : c ∉ s.data) :
    strings.IndexByte s c.val.toUInt8 = -1 := by
  unfold strings.IndexByte
  rw [if_neg]
  unfold bytesOf
  rw [ascii_byte_mem_flatMap c hc]
  exact h

theorem IndexByte_of_split (s : String) (c : Char) (hc : c.val ≤ 0x7f) (pre post : List Char)
    (h : s.data = pre ++ c :: post) (hpre : c ∉ pre) :
    strings.IndexByte s c.val.toUInt8 = (byteLen pre : Nat) := by
  unfold strings.IndexByte
  have hm : c.val.toUInt8 ∈ bytesOf s := by
    unfold bytesOf
    rw [ascii_byte_mem_flatMap c hc, h]
    simp
  rw [if_pos hm]
  congr 1
  unfold bytesOf byteLen
  rw [h, List.flatMap_append, List.indexOf_append_of_not_mem, List.flatMap_cons,
    utf8EncodeChar_ascii c hc]
  · simp
  · rw [ascii_byte_mem_flatMap c hc]
    exact hpre

theorem bytesOf_slashes : bytesOf "//" = [0x2f, 0x2f] := by decide

theorem head_byte_ascii (c : Char) (hc : c.val ≤ 0x7f) (d : Char) (tl : List UInt8)
    (h : String.utf8EncodeChar d = c.val.toUInt8 :: tl) : d = c :=
  (ascii_byte_mem_utf8EncodeChar c hc d).mp (by rw [h]; exact List.mem_cons_self _ _)

theorem take_two_bytes_eq_slashes (l : List Char) :
    (l.flatMap String.utf8EncodeChar).take 2 = [0x2f, 0x2f] ↔
      ∃ rest, l = '/' :: '/' :: rest := by
  have hs : ('/' : Char).val ≤ 0x7f := by decide
  have he : String.utf8EncodeChar '/' = [0x2f] := by decide
  constructor
  · intro h
    match l, h with
    | [], h => simp at h
    | c :: cs, h =>
      rw [List.flatMap_cons] at h
      have hne : String.utf8EncodeChar c ≠ [] := by
        intro h0
        have := String.length_utf8EncodeChar c
        rw [h0] at this
        have := Char.utf8Size_pos c
        simp_all
      obtain ⟨b, tl, hb⟩ := List.exists_cons_of_ne_nil hne
      rw [hb] at h
      have hb0 : b = 0x2f := by
        simp only [List.cons_append, List.take_succ_cons] at h
        exact (List.cons.inj h).1
      have hc : c = '/' := head_byte_ascii '/' hs c tl (by rw [hb, hb0]; rfl)
      subst hc
      rw [he] at hb
      obtain ⟨-, rfl⟩ := List.cons.inj hb
      match cs, h with
      | [], h => simp at h
      | d :: ds, h =>
        rw [List.flatMap_cons] at h
        have hne2 : String.utf8EncodeChar d ≠ [] := by
          intro h0
          have := String.length_utf8EncodeChar d
          rw [h0] at this
          have := Char.utf8Size_pos d
          simp_all
        obtain ⟨b2, tl2, hb2⟩ := List.exists_cons_of_ne_nil hne2
        rw [hb2] at h
        have hb20 : b2 = 0x2f := by
          simp only [List.cons_append, List.nil_append, List.take_succ_cons] at h
          exact (List.cons.inj (List.cons.inj h).2).1
        have hd : d = '/' := head_byte_ascii '/' hs d tl2 (by rw [hb2, hb20]; rfl)
        exact ⟨ds, by rw [hd]⟩
  · rintro ⟨rest, rfl⟩
    simp [List.flatMap_cons, he]

/-- The part of `parseToKVPair` that removes a leading `//` from the value. -/
theorem strip_value (key : String) (post : List Char) :
    (if len ⟨post⟩ ≥ 2 then
      match sliceBytes ⟨post⟩ 0 2 with
      | some head =>
        if head == bytesOf "//" then
          match slice ⟨post⟩ 2 (len ⟨post⟩) with
          | some value2 => Except.ok (strings.ToLower key, value2)
          | none => Except.error (Error.panic "slice bounds out of range")
        else Except.ok (strings.ToLower key, ⟨post⟩)
      | none => Except.error (Error.panic "slice bounds out of range")
    else Except.ok (strings.ToLower key, (⟨post⟩ : String))) =
    Except.ok (strings.ToLower key, ⟨stripSlashes post⟩) := by
  by_cases hs : ∃ rest, post = '/' :: '/' :: rest
  · obtain ⟨rest, rfl⟩ := hs
    have hb : byteLen ['/', '/'] = 2 := by decide
    have hl : len ⟨'/' :: '/' :: rest⟩ = ((2 + byteLen rest : Nat) : Int) := by
      rw [len_eq_byteLen]
      show ((byteLen (['/', '/'] ++ rest) : Nat) : Int) = _
      rw [byteLen_append, hb]
    have h2 : slice ⟨'/' :: '/' :: rest⟩ 2 (len ⟨'/' :: '/' :: rest⟩) = some ⟨rest⟩ := by
      have := slice_suffix ⟨'/' :: '/' :: rest⟩ ['/', '/'] rest rfl
      rw [hb] at this
      exact this
    have h3 : sliceBytes ⟨'/' :: '/' :: rest⟩ 0 2 = some (bytesOf "//") := by
      unfold sliceBytes
      rw [if_pos (by rw [hl]; omega)]
      simp only [Int.toNat_zero, List.drop_zero, Int.sub_zero]
      rw [bytesOf_slashes]
      exact congrArg some ((take_two_bytes_eq_slashes _).mpr ⟨rest, rfl⟩)
    rw [if_pos (by rw [hl]; omega), h3]
    simp only [beq_self_eq_true, if_true, h2]
    simp [stripSlashes]
  · have hst : stripSlashes post = post := by
      unfold stripSlashes
      split
      · rename_i a b rest
        rw [if_neg]
        rintro ⟨rfl, rfl⟩
        exact hs ⟨rest, rfl⟩
      · rfl
    rw [hst]
    split_ifs with hlen
    · have h3 : sliceBytes ⟨post⟩ 0 2 = some ((bytesOf ⟨post⟩).take 2) := by
        unfold sliceBytes
        rw [if_pos (by omega)]
        simp
      rw [h3]
      have hne : ¬ ((bytesOf ⟨post⟩).take 2 = bytesOf "//") := by
        rw [bytesOf_slashes]
        intro h
        exact hs ((take_two_bytes_eq_slashes post).mp h)
      simp [hne]
    · rfl

theorem parseToKVPair_colon (s : String) (pre post : List Char)
    (hm : pairRE.MatchString s = true) (h : s.data = pre ++ ':' :: post) (hpre : ':' ∉ pre) :
    parseToKVPair s = .ok (strings.ToLower ⟨pre⟩, ⟨stripSlashes post⟩) := by
  have hc : (':' : Char).val ≤ 0x7f := by decide
  have hi : strings.IndexByte s 0x3a = (byteLen pre : Nat) :=
    IndexByte_of_split s ':' hc pre post h hpre
  have h1 : slice s 0 (byteLen pre : Nat) = some ⟨pre⟩ := slice_prefix s pre _ h
  have h2 : slice s ((byteLen pre : Nat) + 1) (len s) = some ⟨post⟩ := by
    have hd : s.data = (pre ++ [':']) ++ post := by rw [h]; simp
    have := slice_suffix s (pre ++ [':']) post hd
    rw [byteLen_append] at this
    have hb : byteLen [':'] = 1 := by decide
    rw [hb] at this
    exact_mod_cast this
  unfold parseToKVPair
  rw [hm]
  simp only [Bool.not_true, Bool.false_eq_true, if_false, hi]
  rw [if_pos (by omega), h1, h2]
  exact strip_value ⟨pre⟩ post

theorem parseToKVPair_atsign (s : String) (pre post : List Char)
    (hm : pairRE.MatchString s = true) (hcolon : ':' ∉ s.data)
    (h : s.data = pre ++ '@' :: post) (hpre : '@' ∉ pre) :
    parseToKVPair s = .ok (strings.ToLower ⟨post⟩, ⟨pre⟩) := by
  have hc : (':' : Char).val ≤ 0x7f := by decide
  have ha : ('@' : Char).val ≤ 0x7f := by decide
  have hi0 : strings.IndexByte s 0x3a = -1 := IndexByte_of_not_mem s ':' hc hcolon
  have hi : strings.IndexByte s 0x40 = (byteLen pre : Nat) :=
    IndexByte_of_split s '@' ha pre post h hpre
  have h1 : slice s 0 (byteLen pre : Nat) = some ⟨pre⟩ := slice_prefix s pre _ h
  have h2 : slice s ((byteLen pre : Nat) + 1) (len s) = some ⟨post⟩ := by
    have hd : s.data = (pre ++ ['@']) ++ post := by rw [h]; simp
    have := slice_suffix s (pre ++ ['@']) post hd
    rw [byteLen_append] at this
    have hb : byteLen ['@'] = 1 := by decide
    rw [hb] at this
    exact_mod_cast this
  unfold parseToKVPair
  rw [hm]
  simp only [Bool.not_true, Bool.false_eq_true, if_false, hi0, hi]
  rw [if_neg (by omega), if_pos (by omega), h1, h2]

theorem parseToKVPair_plain (s : String) (hm : pairRE.MatchString s = true)
    (hcolon : ':' ∉ s.data) (hat : '@' ∉ s.data) :
    parseToKVPair s = .ok ("", s) := by
  have hc : (':' : Char).val ≤ 0x7f := by decide
  have ha : ('@' : Char).val ≤ 0x7f := by decide
  have hi0 : strings.IndexByte s 0x3a = -1 := IndexByte_of_not_mem s ':' hc hcolon
  have hi1 : strings.IndexByte s 0x40 = -1 := IndexByte_of_not_mem s '@' ha hat
  unfold parseToKVPair
  rw [hm]
  simp only [Bool.not_true, Bool.false_eq_true, if_false, hi0, hi1]
  rw [if_neg (by omega), if_neg (by omega)]
  rfl

/-- Every list of characters either lacks `c` or splits at its first `c`. -/
theorem split_at_first (c : Char) (l : List Char) :
    c ∉ l ∨ ∃ pre post, l = pre ++ c :: post ∧ c ∉ pre := by
  induction l with
  | nil => left; simp
  | cons x xs ih =>
    by_cases hx : x = c
    · right; exact ⟨[], xs, by rw [hx]; rfl, by simp⟩
    · rcases ih with h | ⟨pre, post, h1, h2⟩
      · left
        simp only [List.mem_cons, not_or]
        exact ⟨fun h0 => hx h0.symm, h⟩
      · right
        refine ⟨x :: pre, post, by rw [h1]; rfl, ?_⟩
        simp only [List.mem_cons, not_or]
        exact ⟨fun h0 => hx h0.symm, h2⟩

theorem parseToKVPair_ok_of_match (s : String) (hm : pairRE.MatchString s = true) :
    ∃ kv, parseToKVPair s = .ok kv := by
  rcases split_at_first ':' s.data with h | ⟨pre, post, h1, h2⟩
  · rcases split_at_first '@' s.data with h' | ⟨pre, post, h1, h2⟩
    · exact ⟨_, parseToKVPair_plain s hm h h'⟩
    · exact ⟨_, parseToKVPair_atsign s pre post hm h h1 h2⟩
  · exact ⟨_, parseToKVPair_colon s pre post hm h1 h2⟩

/-- C11: `parseToKVPair` fails iff the string is empty or its first character
is outside `[0-9a-zA-Z@:/_-]`; otherwise, with a `:` present, the key is the
lowercased text before the first `:` and the value the text after it less one
leading `//`; else, with an `@` present, the value is the text before the
first `@` and the key the lowercased text after it; else the key is empty and
the value is the whole string.  The value is a literal piece of the input. -/
theorem C11_parseToKVPair_split :
    (∀ c : Char, pairRE.inClass c = true ↔
      (c.isDigit = true ∨ c.isLower = true ∨ c.isUpper = true ∨
        c = '@' ∨ c = ':' ∨ c = '/' ∨ c = '_' ∨ c = '-')) ∧
    (∀ s : String, (∃ e, parseToKVPair s = .error e) ↔
      (s.data = [] ∨ ∃ c rest, s.data = c :: rest ∧ pairRE.inClass c = false)) ∧
    (∀ (s : String) (c : Char) (rest pre post : List Char),
      s.data = c :: rest → pairRE.inClass c = true →
      s.data = pre ++ ':' :: post → ':' ∉ pre →
      parseToKVPair s = .ok (strings.ToLower ⟨pre⟩, ⟨stripSlashes post⟩)) ∧
    (∀ (s : String) (c : Char) (rest pre post : List Char),
      s.data = c :: rest → pairRE.inClass c = true → ':' ∉ s.data →
      s.data = pre ++ '@' :: post → '@' ∉ pre →
      parseToKVPair s = .ok (strings.ToLower ⟨post⟩, ⟨pre⟩)) ∧
    (∀ (s : String) (c : Char) (rest : List Char),
      s.data = c :: rest → pairRE.inClass c = true → ':' ∉ s.data → '@' ∉ s.data →
      parseToKVPair s = .ok ("", s)) := by
  have hmatch : ∀ (s : String) (c : Char) (rest : List Char), s.data = c :: rest →
      pairRE.inClass c = true → pairRE.MatchString s = true := by
    intro s c rest h hc
    unfold pairRE.MatchString
    rw [h]
    exact hc
  refine ⟨?_, ?_, ?_, ?_, ?_⟩
  · intro c
    simp [pairRE.inClass, or_assoc]
  · intro s
    constructor
    · rintro ⟨e, he⟩
      cases hd : s.data with
      | nil => left; rfl
      | cons c rest =>
        right
        refine ⟨c, rest, rfl, ?_⟩
        by_contra hc
        rw [Bool.not_eq_false] at hc
        obtain ⟨kv, hkv⟩ := parseToKVPair_ok_of_match s (hmatch s c rest hd hc)
        rw [hkv] at he
        cases he
    · intro h
      have hm : pairRE.MatchString s = false := by
        unfold pairRE.MatchString
        rcases h with h | ⟨c, rest, h, hc⟩
        · rw [h]
        · rw [h]; exact hc
      exact ⟨_, by unfold parseToKVPair; rw [hm]; rfl⟩
  · intro s c rest pre post h hc hs hpre
    exact parseToKVPair_colon s pre post (hmatch s c rest h hc) hs hpre
  · intro s c rest pre post h hc hcolon hs hpre
    exact parseToKVPair_atsign s pre post (hmatch s c rest h hc) hcolon hs hpre
  · intro s c rest h hc hcolon hat
    exact parseToKVPair_plain s (hmatch s c rest h hc) hcolon hat

/-- C11 applied to `DNS://Example.com`: key `dns`, value `Example.com`, the
letter case of the value kept; and to `Alice@\u00c9COLE`: the key is
`\u00e9cole`, every cased letter lowercased. -/
theorem C11_parseToKVPair_split_witness :
    parseToKVPair "DNS://Example.com" = .ok ("dns", "Example.com") ∧
    parseToKVPair "Alice@\u00c9COLE" = .ok ("\u00e9cole", "Alice") :=
  ⟨C11_parseToKVPair_split.2.2.1 "DNS://Example.com" 'D' "NS://Example.com".data
    "DNS".data "//Example.com".data rfl (by decide) rfl (by decide),
   C11_parseToKVPair_split.2.2.2.1 "Alice@\u00c9COLE" 'A' "lice@\u00c9COLE".data
    "Alice".data "\u00c9COLE".data rfl (by decide) (by decide) rfl (by decide)⟩

theorem char_eq_ofNat_of_ascii (c : Char) (h : c.val ≤ 0x7f) :
    ∃ n : Fin 128, c = Char.ofNat n.val := by
  have h' : c.val.toNat ≤ 127 := h
  exact ⟨⟨c.toNat, by show c.val.toNat < 128; omega⟩, (Char.ofNat_toNat c).symm⟩

theorem fromHexChar_ascii (c : Char) (h : c.val ≤ 0x7f) :
    (hex.fromHexChar c.val.toUInt8).isSome = isHexDigit c := by
  obtain ⟨n, rfl⟩ := char_eq_ofNat_of_ascii c h
  revert n
  decide

theorem isHexDigit_ascii (c : Char) (h : isHexDigit c = true) : c.val ≤ 0x7f := by
  simp only [isHexDigit, Char.isDigit, Bool.or_eq_true, Bool.and_eq_true, decide_eq_true_eq] at h
  have h1 : ∀ d : Char, d ≤ c → d.val.toNat ≤ c.val.toNat := fun d hd => hd
  have h2 : ∀ d : Char, c ≤ d → c.val.toNat ≤ d.val.toNat := fun d hd => hd
  show c.val.toNat ≤ 127
  rcases h with (h | h) | h
  · have : c.val.toNat ≤ 57 := h.2
    omega
  · have := h2 _ h.2
    have e : ('f' : Char).val.toNat = 102 := rfl
    omega
  · have := h2 _ h.2
    have e : ('F' : Char).val.toNat = 70 := rfl
    omega

theorem fromHexChar_high (b : UInt8) (h : (0x80 : UInt8) ≤ b) : hex.fromHexChar b = none := by
  obtain ⟨f⟩ := b
  revert f
  decide

/-- A hexadecimal digit is encoded as one byte, which is a hex digit byte. -/
theorem encode_hexDigit (c : Char) (h : isHexDigit c = true) :
    String.utf8EncodeChar c = [c.val.toUInt8] ∧ (hex.fromHexChar c.val.toUInt8).isSome = true := by
  have ha := isHexDigit_ascii c h
  exact ⟨utf8EncodeChar_ascii c ha, by rw [fromHexChar_ascii c ha, h]⟩

/-- The encoding of any other character starts with a byte that is no hex
digit. -/
theorem encode_not_hexDigit (c : Char) (h : isHexDigit c = false) :
    ∃ b tl, String.utf8EncodeChar c = b :: tl ∧ hex.fromHexChar b = none := by
  by_cases ha : c.val ≤ 0x7f
  · refine ⟨c.val.toUInt8, [], utf8EncodeChar_ascii c ha, ?_⟩
    have := fromHexChar_ascii c ha
    rw [h] at this
    simpa using this
  · have hne : String.utf8EncodeChar c ≠ [] := by
      intro h0
      have := String.length_utf8EncodeChar c
      rw [h0] at this
      have := Char.utf8Size_pos c
      simp_all
    obtain ⟨b, tl, hb⟩ := List.exists_cons_of_ne_nil hne
    refine ⟨b, tl, hb, fromHexChar_high b ?_⟩
    exact utf8EncodeChar_high c ha b (by rw [hb]; exact List.mem_cons_self _ _)

theorem Decode_invalid_head (b : UInt8) (tl : List UInt8) (h : hex.fromHexChar b = none) :
    (hex.Decode (b :: tl)).2.isSome = true := by
  cases tl with
  | nil => simp [hex.Decode, h]
  | cons q rest => simp [hex.Decode, h]

theorem Decode_invalid_second (p b : UInt8) (tl : List UInt8) (h : hex.fromHexChar b = none) :
    (hex.Decode (p :: b :: tl)).2.isSome = true := by
  cases hp : hex.fromHexChar p <;> simp [hex.Decode, h, hp]

theorem Decode_flatMap (l : List Char) :
    ∀ n, l.length ≤ n →
    ((hex.Decode (l.flatMap String.utf8EncodeChar)).2 = none ↔
      (∀ c ∈ l, isHexDigit c = true) ∧ l.length % 2 = 0) := by
  intro n
  induction n generalizing l with
  | zero =>
    intro h
    have : l = [] := List.length_eq_zero.mp (by omega)
    subst this
    simp [hex.Decode]
  | succ n ih =>
    intro hlen
    match l, hlen with
    | [], _ => simp [hex.Decode]
    | [c], _ =>
      cases hc : isHexDigit c
      · obtain ⟨b, tl, hb, hf⟩ := encode_not_hexDigit c hc
        have := Decode_invalid_head b tl hf
        simp [hb, hc]
        intro h0
        rw [h0] at this
        simp at this
      · obtain ⟨he, hf⟩ := encode_hexDigit c hc
        obtain ⟨v, hv⟩ := Option.isSome_iff_exists.mp hf
        simp [he, hex.Decode, hv]
    | c :: d :: rest, hlen =>
      cases hc : isHexDigit c
      · obtain ⟨b, tl, hb, hf⟩ := encode_not_hexDigit c hc
        have := Decode_invalid_head b (tl ++ (d :: rest).flatMap String.utf8EncodeChar) hf
        rw [List.flatMap_cons, hb, List.cons_append]
        constructor
        · intro h0
          rw [h0] at this
          simp at this
        · intro h0
          have := h0.1 c (List.mem_cons_self _ _)
          rw [hc] at this
          simp at this
      · obtain ⟨he, hf⟩ := encode_hexDigit c hc
        obtain ⟨v, hv⟩ := Option.isSome_iff_exists.mp hf
        cases hd : isHexDigit d
        · obtain ⟨b, tl, hb, hf2⟩ := encode_not_hexDigit d hd
          have := Decode_invalid_second c.val.toUInt8 b
            (tl ++ rest.flatMap String.utf8EncodeChar) hf2
          rw [List.flatMap_cons, List.flatMap_cons, he, hb]
          simp only [List.cons_append, List.nil_append]
          constructor
          · intro h0
            rw [h0] at this
            simp at this
          · intro h0
            have := h0.1 d (by simp)
            rw [hd] at this
            simp at this
        · obtain ⟨he2, hf2⟩ := encode_hexDigit d hd
          obtain ⟨w, hw⟩ := Option.isSome_iff_exists.mp hf2
          rw [List.flatMap_cons, List.flatMap_cons, he, he2]
          simp only [List.cons_append, List.nil_append, hex.Decode, hv, hw]
          show (hex.Decode (rest.flatMap String.utf8EncodeChar)).2 = none ↔ _
          rw [ih rest (by simp at hlen; omega)]
          simp only [List.mem_cons, forall_eq_or_imp, hc, hd, true_and, List.length_cons]
          constructor
          · rintro ⟨h1, h2⟩; exact ⟨h1, by omega⟩
          · rintro ⟨h1, h2⟩; exact ⟨h1, by omega⟩

/-! ### The case table: no rune above ASCII has a delimiter or a hex digit as lower-case form -/

set_option maxRecDepth 100000 in
/-- Every lower-case form in the table is `g` (0x67) or above: the two ASCII
ones are `i` and `k`. -/
theorem lowerRanges_lower_ge : ∀ r ∈ unicode.lowerRanges, 0x67 ≤ r.2.2.2 := by
  decide

theorem lowerIn_ge (t : List (Nat × Nat × Nat × Nat)) (n : Nat)
    (ht : ∀ r ∈ t, 0x67 ≤ r.2.2.2) (hn : 0x67 ≤ n) : 0x67 ≤ unicode.lowerIn t n := by
  induction t with
  | nil => exact hn
  | cons r rs ih =>
    obtain ⟨lo, hi, stride, lower⟩ := r
    rw [unicode.lowerIn]
    split_ifs
    · have := ht _ (List.mem_cons_self _ _)
      simp only at this
      omega
    · exact ih (fun r hr => ht r (List.mem_cons_of_mem _ hr))

theorem toNat_ofNat_or (n : Nat) : (Char.ofNat n).toNat = n ∨ (Char.ofNat n).toNat = 0 := by
  unfold Char.ofNat
  split
  · left; rfl
  · right; rfl

/-- The lower-case form of a rune above ASCII is `g` or above, the value 0
standing for a number that is no rune. -/
theorem ToLower_high (c : Char) (h : ¬ c.val ≤ 0x7f) :
    0x67 ≤ (unicode.ToLower c).toNat ∨ (unicode.ToLower c).toNat = 0 := by
  have h' : ¬ c.val.toNat ≤ 127 := h
  have hc : c.toNat = c.val.toNat := rfl
  unfold unicode.ToLower
  rw [if_neg h]
  have hge := lowerIn_ge unicode.lowerRanges c.toNat lowerRanges_lower_ge (by omega)
  rcases toNat_ofNat_or (unicode.lowerIn unicode.lowerRanges c.toNat) with h1 | h1
  · left; rw [h1]; exact hge
  · right; exact h1

theorem isHexDigit_ToLower (c : Char) : isHexDigit (unicode.ToLower c) = isHexDigit c := by
  by_cases ha : c.val ≤ 0x7f
  · obtain ⟨n, rfl⟩ := char_eq_ofNat_of_ascii c ha
    revert n
    decide
  · have h1 : isHexDigit c = false := by
      rw [Bool.eq_false_iff]
      exact fun h => ha (isHexDigit_ascii c h)
    have h2 : isHexDigit (unicode.ToLower c) = false := by
      rw [Bool.eq_false_iff]
      intro h
      obtain ⟨n, hn⟩ := char_eq_ofNat_of_ascii _ (isHexDigit_ascii _ h)
      have hh := ToLower_high c ha
      rw [hn] at h hh
      have key : ∀ n : Fin 128, isHexDigit (Char.ofNat n.val) = true →
          ¬ (0x67 ≤ (Char.ofNat n.val).toNat ∨ (Char.ofNat n.val).toNat = 0) := by
        decide
      exact key n h hh
    rw [h1, h2]

theorem DecodeString_ToLower (v : String) :
    (hex.DecodeString (strings.ToLower v)).2 = none ↔
      (∀ c ∈ v.data, isHexDigit c = true) ∧ v.length % 2 = 0 := by
  unfold hex.DecodeString bytesOf
  rw [Decode_flatMap _ _ (le_refl _)]
  show (∀ c ∈ v.data.map unicode.ToLower, isHexDigit c = true) ∧
    (v.data.map unicode.ToLower).length % 2 = 0 ↔ _
  simp only [List.mem_map, forall_exists_index, and_imp, forall_apply_eq_imp_iff₂,
    isHexDigit_ToLower, List.length_map]
  rfl

/-- C12, as the code has it: `CheckAndNormalize` on a Fingerprint atom
succeeds, yielding the atom with the lowercased value, exactly when the
value is made of hex digits and has an even number of them (the code
hex-decodes it into bytes); with a non-hex character or an odd length it
fails with the bad-hex error.  No other length is enforced. -/
theorem C12_fingerprint_CheckAndNormalize (a : AssertionURLBase) :
    ((∀ c ∈ a.Value.data, isHexDigit c = true) ∧ a.Value.length % 2 = 0 →
      AssertionFingerprint.CheckAndNormalize a =
        ⟨some (.Fingerprint ⟨a.Key, strings.ToLower a.Value⟩), none⟩) ∧
    (¬ ((∀ c ∈ a.Value.data, isHexDigit c = true) ∧ a.Value.length % 2 = 0) →
      AssertionFingerprint.CheckAndNormalize a =
        ⟨none, some (.Errorf "bad hex string: '%s'" [strings.ToLower a.Value])⟩) := by
  constructor
  · intro h
    have := (DecodeString_ToLower a.Value).mpr h
    simp [AssertionFingerprint.CheckAndNormalize, this]
  · intro h
    have h2 : (hex.DecodeString (strings.ToLower a.Value)).2 ≠ none :=
      fun h0 => h ((DecodeString_ToLower a.Value).mp h0)
    have h3 : (hex.DecodeString (strings.ToLower a.Value)).2.isSome = true := by
      cases hx : (hex.DecodeString (strings.ToLower a.Value)).2 with
      | none => exact absurd hx h2
      | some _ => rfl
    simp [AssertionFingerprint.CheckAndNormalize, h3]

/-- C12 applied to the value `ABcd12`. -/
theorem C12_fingerprint_CheckAndNormalize_witness :
    AssertionFingerprint.CheckAndNormalize ⟨"pgp", "ABcd12"⟩ =
      ⟨some (.Fingerprint ⟨"pgp", "abcd12"⟩), none⟩ :=
  (C12_fingerprint_CheckAndNormalize ⟨"pgp", "ABcd12"⟩).1 (by decide)

/-- C12 fails as stated: `abc` is made only of hex digits, yet
`CheckAndNormalize` fails on it, its length being odd. -/
theorem C12_counterexample :
    (∀ c ∈ "abc".data, isHexDigit c = true) ∧
    AssertionFingerprint.CheckAndNormalize ⟨"pgp", "abc"⟩ =
      ⟨none, some (.Errorf "bad hex string: '%s'" ["abc"])⟩ := by
  decide

/-! ## Proof sets: lookup after construction -/

/-- The proofs stored under a key, none when the key is absent. -/
theorem NewProofSet_loop_getD (proofs : List Proof) :
    ∀ (ret : ProofSet) (k : String),
    ((NewProofSet.loop proofs ret).proofs k).getD [] =
      (ret.proofs k).getD [] ++ proofs.filter (fun p => p.Key = k) := by
  induction proofs with
  | nil => intro ret k; simp [NewProofSet.loop]
  | cons p ps ih =>
    intro ret k
    rw [NewProofSet.loop, ih]
    by_cases h : k = p.Key
    · subst h
      simp [ProofSet.Add]
    · have h2 : ¬ p.Key = k := fun h0 => h h0.symm
      simp [ProofSet.Add, h, h2]

theorem Get_loop_eq (ps : ProofSet) (keys : List String) :
    ∀ ret : List Proof,
    ProofSet.Get.loop ps keys ret = ret ++ keys.flatMap (fun k => (ps.proofs k).getD []) := by
  induction keys with
  | nil => intro ret; simp [ProofSet.Get.loop]
  | cons k ks ih =>
    intro ret
    rw [ProofSet.Get.loop]
    cases h : ps.proofs k with
    | none => simp [ih, h]
    | some v => simp [ih, h]

/-- C13: looking keys up in the proof set built from `ps` gives, key by key
in the order of the keys (a repeated key contributing again), the proofs of
`ps` with that key in arrival order; a key without proofs contributes
nothing. -/
theorem C13_NewProofSet_Get :
    (∀ (ps : List Proof) (ks : List String),
      (NewProofSet ps).Get ks = ks.flatMap (fun k => ps.filter (fun p => p.Key = k))) ∧
    (∀ (ps : List Proof) (k : String), (∀ p ∈ ps, p.Key ≠ k) → (NewProofSet ps).Get [k] = []) := by
  have main : ∀ (ps : List Proof) (ks : List String),
      (NewProofSet ps).Get ks = ks.flatMap (fun k => ps.filter (fun p => p.Key = k)) := by
    intro ps ks
    rw [ProofSet.Get, Get_loop_eq, List.nil_append]
    congr 1
    funext k
    rw [NewProofSet, NewProofSet_loop_getD]
    simp
  refine ⟨main, ?_⟩
  intro ps k h
  rw [main]
  simp only [List.flatMap_cons, List.flatMap_nil, List.append_nil, List.filter_eq_nil_iff,
    decide_eq_true_eq]
  exact h

/-- C13 applied to two proofs and a key under which none was added. -/
theorem C13_NewProofSet_Get_witness :
    (NewProofSet [⟨"twitter", "bob"⟩, ⟨"dns", "example.com"⟩]).Get ["github"] = [] :=
  C13_NewProofSet_Get.2 [⟨"twitter", "bob"⟩, ⟨"dns", "example.com"⟩] "github" (by decide)

/-! ## Implicit team names: the parts and their types -/

theorem ToLower_eq_delimiter (c d : Char) (hd : d = ':' ∨ d = '@' ∨ d = '/')
    (h : unicode.ToLower c = d) : c = d := by
  by_cases ha : c.val ≤ 0x7f
  · obtain ⟨n, rfl⟩ := char_eq_ofNat_of_ascii c ha
    rcases hd with rfl | rfl | rfl <;> (revert n; decide)
  · have hh := ToLower_high c ha
    rw [h] at hh
    rcases hd with rfl | rfl | rfl <;> exact absurd hh (by decide)

theorem ToLower_delimiterFree (l : List Char) (h : ':' ∉ l ∧ '@' ∉ l) :
    delimiterFree (strings.ToLower ⟨l⟩) := by
  unfold delimiterFree strings.ToLower
  simp only [List.mem_map, not_exists, not_and]
  constructor
  · intro c hc h0
    exact h.1 (ToLower_eq_delimiter c ':' (Or.inl rfl) h0 ▸ hc)
  · intro c hc h0
    exact h.2 (ToLower_eq_delimiter c '@' (Or.inr (Or.inl rfl)) h0 ▸ hc)

theorem checkAndNormalizeHost_Key (env : Collaborators) (b : AssertionURLBase) :
    (AssertionURLBase.checkAndNormalizeHost env b).1.Key = b.Key := by
  unfold AssertionURLBase.checkAndNormalizeHost
  simp only []
  split_ifs <;> rfl

/-- `CheckAndNormalize` never changes the key of the atom. -/
theorem CheckAndNormalize_Key (env : Collaborators) (ctx : AssertionContext) (u a : AssertionURL)
    (h : (u.CheckAndNormalize env ctx).ret = some a) : a.base.Key = u.base.Key := by
  cases u with
  | HTTP b =>
    have hk := checkAndNormalizeHost_Key env b
    simp only [AssertionURL.CheckAndNormalize] at h
    split at h
    · cases h
    · rename_i b2 heq
      simp only [Option.some.injEq] at h
      subst h
      rw [heq] at hk
      exact hk
  | HTTPS b =>
    have hk := checkAndNormalizeHost_Key env b
    simp only [AssertionURL.CheckAndNormalize] at h
    split at h
    · cases h
    · rename_i b2 heq
      simp only [Option.some.injEq] at h
      subst h
      rw [heq] at hk
      exact hk
  | DNS b =>
    have hk := checkAndNormalizeHost_Key env b
    simp only [AssertionURL.CheckAndNormalize] at h
    split at h
    · cases h
    · rename_i b2 heq
      simp only [Option.some.injEq] at h
      subst h
      rw [heq] at hk
      exact hk
  | Web b =>
    have hk := checkAndNormalizeHost_Key env b
    simp only [AssertionURL.CheckAndNormalize] at h
    split at h
    · cases h
    · rename_i b2 heq
      simp only [Option.some.injEq] at h
      subst h
      rw [heq] at hk
      exact hk
  | Keybase b =>
    simp only [AssertionURL.CheckAndNormalize] at h
    split_ifs at h
    simp only [Option.some.injEq] at h
    subst h
    rfl
  | Fingerprint b =>
    simp only [AssertionURL.CheckAndNormalize, AssertionFingerprint.CheckAndNormalize] at h
    split_ifs at h
    simp only [Option.some.injEq] at h
    subst h
    rfl
  | UID b i =>
    simp only [AssertionURL.CheckAndNormalize, Option.some.injEq] at h
    subst h
    rfl
  | TeamID b i =>
    simp only [AssertionURL.CheckAndNormalize, Option.some.injEq] at h
    subst h
    rfl
  | TeamName b i =>
    simp only [AssertionURL.CheckAndNormalize, Option.some.injEq] at h
    subst h
    rfl
  | Social b =>
    simp only [AssertionURL.CheckAndNormalize, Option.some.injEq] at h
    subst h
    rfl

/-- In strict mode the atom parser returns an atom whose key is the
non-empty key of the key-value split. -/
theorem ParseAssertionURL_strict_Key (env : Collaborators) (ctx : AssertionContext) (s : String)
    (a : AssertionURL) (h : (ParseAssertionURL env ctx s true).ret = some a) :
    ∃ val, parseToKVPair s = .ok (a.base.Key, val) ∧ len a.base.Key ≠ 0 := by
  unfold ParseAssertionURL at h
  split at h
  · cases h
  · rename_i key val hkv
    unfold ParseAssertionURLKeyValue at h
    by_cases h1 : len key = 0 ∧ true = true
    · rw [if_pos h1] at h
      cases h
    · rw [if_neg h1] at h
      have hk : len key ≠ 0 := fun h0 => h1 ⟨h0, rfl⟩
      simp only [if_neg hk] at h
      have := CheckAndNormalize_Key env ctx _ a h
      have hkey : a.base.Key = key := by
        rw [this]
        split_ifs <;> rfl
      rw [hkey]
      exact ⟨val, hkv, hk⟩

theorem MatchString_of_ok (s : String) (kv : String × String) (h : parseToKVPair s = .ok kv) :
    pairRE.MatchString s = true := by
  by_contra hm
  rw [Bool.not_eq_true] at hm
  unfold parseToKVPair at h
  rw [hm] at h
  simp at h

/-- The key that `parseToKVPair` returns for a part with at most one
delimiter holds no delimiter. -/
theorem parseToKVPair_key_delimiterFree (s key val : String)
    (h : parseToKVPair s = .ok (key, val))
    (hn : s.data.count ':' + s.data.count '@' ≤ 1) : delimiterFree key := by
  have hm := MatchString_of_ok s _ h
  rcases split_at_first ':' s.data with hc | ⟨pre, post, h1, h2⟩
  · rcases split_at_first '@' s.data with ha | ⟨pre, post, h1, h2⟩
    · rw [parseToKVPair_plain s hm hc ha] at h
      simp only [Except.ok.injEq, Prod.mk.injEq] at h
      rw [← h.1]
      exact ⟨by decide, by decide⟩
    · rw [parseToKVPair_atsign s pre post hm hc h1 h2] at h
      simp only [Except.ok.injEq, Prod.mk.injEq] at h
      rw [← h.1]
      apply ToLower_delimiterFree
      constructor
      · intro h0
        exact hc (by rw [h1]; simp [h0])
      · rw [h1] at hn
        simp only [List.count_append, List.count_cons_self] at hn
        have : post.count '@' = 0 := by omega
        exact List.count_eq_zero.mp this
  · rw [parseToKVPair_colon s pre post hm h1 h2] at h
    simp only [Except.ok.injEq, Prod.mk.injEq] at h
    rw [← h.1]
    apply ToLower_delimiterFree
    refine ⟨h2, ?_⟩
    have hcnt : 1 ≤ s.data.count ':' := by
      rw [h1]
      simp only [List.count_append, List.count_cons_self]
      omega
    have : s.data.count '@' = 0 := by omega
    have hnot := List.count_eq_zero.mp this
    intro h0
    exact hnot (by rw [h1]; simp [h0])

/-- The type that `parseImplicitTeamPart` returns holds no delimiter. -/
theorem parseImplicitTeamPart_typ_delimiterFree (env : Collaborators) (ctx : AssertionContext)
    (p typ name : String) (h : parseImplicitTeamPart env ctx p = .ok (typ, name)) :
    delimiterFree typ := by
  unfold parseImplicitTeamPart at h
  simp only [strings.Count] at h
  split_ifs at h with h1 h2 h3
  · simp only [Except.ok.injEq, Prod.mk.injEq] at h
    rw [← h.1]
    exact ⟨by decide, by decide⟩
  · split at h
    · cases h
    · rename_i a herr hret
      simp only [Except.ok.injEq, Prod.mk.injEq] at h
      obtain ⟨val, hkv, _⟩ := ParseAssertionURL_strict_Key env ctx p a hret
      rw [← h.1]
      refine parseToKVPair_key_delimiterFree p _ val hkv ?_
      push_cast at h1
      omega
    · cases h

/-! ## Implicit team names: user sets -/

theorem mem_canonicalStrings (env : Collaborators) (u : keybase1.ImplicitTeamUserSet)
    (k : String) :
    k ∈ canonicalStrings env u ↔
      (∃ n ∈ u.KeybaseUsers, env.SocialAssertion_String n "keybase" = k) ∨
      (∃ sa ∈ u.UnresolvedUsers, sa.String env = k) := by
  simp [canonicalStrings]

/-- The loop of the user-set parser keeps the marking, only adds to `seen`,
and adds only users whose canonical string was not yet in `seen`. -/
theorem userSet_loop_inv (env : Collaborators) (ctx : AssertionContext) (parts : List String) :
    ∀ (ret : keybase1.ImplicitTeamUserSet) (seen : Seen) (r : keybase1.ImplicitTeamUserSet)
      (seen2 : Seen),
    parseImplicitTeamUserSet.loop env ctx parts ret seen = (.ok r, seen2) →
    Marked env seen ret →
    Marked env seen2 r ∧ (∀ k, seen k = true → seen2 k = true) ∧
    (∀ n ∈ r.KeybaseUsers, n ∈ ret.KeybaseUsers ∨
      seen (env.SocialAssertion_String n "keybase") = false) ∧
    (∀ sa ∈ r.UnresolvedUsers, sa ∈ ret.UnresolvedUsers ∨ seen (sa.String env) = false) := by
  induction parts with
  | nil =>
    intro ret seen r seen2 h hm
    simp only [parseImplicitTeamUserSet.loop, Prod.mk.injEq, Except.ok.injEq] at h
    obtain ⟨rfl, rfl⟩ := h
    exact ⟨hm, fun _ hk => hk, fun n hn => Or.inl hn, fun sa hs => Or.inl hs⟩
  | cons p ps ih =>
    intro ret seen r seen2 h hm
    rw [parseImplicitTeamUserSet.loop] at h
    cases hp : parseImplicitTeamPart env ctx p with
    | error e => simp [hp] at h
    | ok tn =>
      obtain ⟨typ, name⟩ := tn
      simp only [hp] at h
      by_cases hseen : seen (keybase1.SocialAssertion.String env ⟨name, typ⟩) = true
      · rw [if_pos hseen] at h
        exact ih ret seen r seen2 h hm
      · rw [if_neg hseen] at h
        have hseen' : seen (env.SocialAssertion_String name typ) = false := by
          simpa [keybase1.SocialAssertion.String] using hseen
        obtain ⟨hm1, hm2, hm3⟩ := hm
        have hmono : ∀ k, seen k = true →
            (if k = keybase1.SocialAssertion.String env ⟨name, typ⟩ then true
              else seen k) = true := by
          intro k hk
          split_ifs <;> simp [hk]
        by_cases htyp : typ = "keybase"
        · rw [if_pos htyp] at h
          subst htyp
          have hnew : name ∉ ret.KeybaseUsers := by
            intro hn
            have := hm1 _ ((mem_canonicalStrings env ret _).mpr (Or.inl ⟨name, hn, rfl⟩))
            rw [hseen'] at this
            cases this
          have hm' : Marked env (fun k => if k = keybase1.SocialAssertion.String env
              ⟨name, "keybase"⟩ then true else seen k)
              { ret with KeybaseUsers := ret.KeybaseUsers ++ [name] } := by
            refine ⟨?_, ?_, hm3⟩
            · intro k hk
              rw [mem_canonicalStrings] at hk
              simp only [List.mem_append, List.mem_singleton] at hk
              rcases hk with ⟨n, hn | hn, rfl⟩ | ⟨sa, hs, rfl⟩
              · exact hmono _ (hm1 _ ((mem_canonicalStrings env ret _).mpr (Or.inl ⟨n, hn, rfl⟩)))
              · subst hn
                simp [keybase1.SocialAssertion.String]
              · exact hmono _ (hm1 _ ((mem_canonicalStrings env ret _).mpr (Or.inr ⟨sa, hs, rfl⟩)))
            · exact List.Nodup.append hm2 (List.nodup_singleton _)
                (by simpa using hnew)
          obtain ⟨i1, i2, i3, i4⟩ := ih _ _ r seen2 h hm'
          refine ⟨i1, fun k hk => i2 k (hmono k hk), ?_, ?_⟩
          · intro n hn
            rcases i3 n hn with h1 | h1
            · simp only [List.mem_append, List.mem_singleton] at h1
              rcases h1 with h1 | h1
              · exact Or.inl h1
              · subst h1
                exact Or.inr hseen'
            · right
              by_contra hc
              rw [Bool.not_eq_false] at hc
              have := hmono _ hc
              rw [h1] at this
              cases this
          · intro sa hs
            rcases i4 sa hs with h1 | h1
            · exact Or.inl h1
            · right
              by_contra hc
              rw [Bool.not_eq_false] at hc
              have := hmono _ hc
              rw [h1] at this
              cases this
        · rw [if_neg htyp] at h
          have hnew : env.SocialAssertion_String name typ ∉
              ret.UnresolvedUsers.map (fun sa => sa.String env) := by
            intro hn
            rw [List.mem_map] at hn
            obtain ⟨sa, hs, he⟩ := hn
            have := hm1 _ ((mem_canonicalStrings env ret _).mpr (Or.inr ⟨sa, hs, he⟩))
            rw [hseen'] at this
            cases this
          have hm' : Marked env (fun k => if k = keybase1.SocialAssertion.String env
              ⟨name, typ⟩ then true else seen k)
              { ret with UnresolvedUsers := ret.UnresolvedUsers ++ [⟨name, typ⟩] } := by
            refine ⟨?_, hm2, ?_⟩
            · intro k hk
              rw [mem_canonicalStrings] at hk
              simp only [List.mem_append, List.mem_singleton] at hk
              rcases hk with ⟨n, hn, rfl⟩ | ⟨sa, hs | hs, rfl⟩
              · exact hmono _ (hm1 _ ((mem_canonicalStrings env ret _).mpr (Or.inl ⟨n, hn, rfl⟩)))
              · exact hmono _ (hm1 _ ((mem_canonicalStrings env ret _).mpr (Or.inr ⟨sa, hs, rfl⟩)))
              · subst hs
                simp
            · rw [List.map_append]
              exact List.Nodup.append hm3 (List.nodup_singleton _)
                (by simpa [keybase1.SocialAssertion.String] using hnew)
          obtain ⟨i1, i2, i3, i4⟩ := ih _ _ r seen2 h hm'
          refine ⟨i1, fun k hk => i2 k (hmono k hk), ?_, ?_⟩
          · intro n hn
            rcases i3 n hn with h1 | h1
            · exact Or.inl h1
            · right
              by_contra hc
              rw [Bool.not_eq_false] at hc
              have := hmono _ hc
              rw [h1] at this
              cases this
          · intro sa hs
            rcases i4 sa hs with h1 | h1
            · simp only [List.mem_append, List.mem_singleton] at h1
              rcases h1 with h1 | h1
              · exact Or.inl h1
              · subst h1
                exact Or.inr hseen'
            · right
              by_contra hc
              rw [Bool.not_eq_false] at hc
              have := hmono _ hc
              rw [h1] at this
              cases this

theorem string_lt_iff_data (a b : String) : a < b ↔ a.data < b.data :=
  String.lt_iff_toList_lt

theorem sort_Slice_perm {α : Type} (key : α → String) (l : List α) :
    (sort.Slice key l).Perm l :=
  List.perm_insertionSort _ l

theorem sort_Slice_sorted {α : Type} (key : α → String) (l : List α) :
    List.Sorted (fun a b => (key a).data ≤ (key b).data) (sort.Slice key l) := by
  have i1 : IsTotal α (fun a b => (key a).data ≤ (key b).data) :=
    ⟨fun a b => le_total (key a).data (key b).data⟩
  have i2 : IsTrans α (fun a b => (key a).data ≤ (key b).data) :=
    ⟨fun a b c h1 h2 => le_trans h1 h2⟩
  exact List.sorted_insertionSort _ l

/-- Sorting a list whose keys are pairwise distinct gives a strictly
ascending list. -/
theorem sort_Slice_strict {α : Type} (key : α → String) (l : List α)
    (hn : (l.map key).Nodup) :
    List.Sorted (fun a b => key a < key b) (sort.Slice key l) := by
  have hs := sort_Slice_sorted key l
  have hp := sort_Slice_perm key l
  have hn2 : ((sort.Slice key l).map key).Nodup := (hp.map key).nodup_iff.mpr hn
  unfold List.Nodup at hn2
  rw [List.pairwise_map] at hn2
  unfold List.Sorted at hs ⊢
  refine (hs.and hn2).imp ?_
  rintro a b ⟨h1, h2⟩
  rw [string_lt_iff_data]
  refine lt_of_le_of_ne h1 (fun h => h2 ?_)
  exact String.ext h

theorem sort_Strings_eq (l : List String) : sort.Strings l = sort.Slice id l := rfl

theorem canonicalStrings_perm (env : Collaborators) (u v : keybase1.ImplicitTeamUserSet)
    (hk : u.KeybaseUsers.Perm v.KeybaseUsers) (hu : u.UnresolvedUsers.Perm v.UnresolvedUsers)
    (k : String) : k ∈ canonicalStrings env u ↔ k ∈ canonicalStrings env v := by
  simp only [mem_canonicalStrings, hk.mem_iff, hu.mem_iff]

/-- What a successful call of the user-set parser returns: the sorted form
of the lists its loop built. -/
theorem userSet_ok (env : Collaborators) (ctx : AssertionContext)
    (s : String) (seen : Seen) (ret : keybase1.ImplicitTeamUserSet) (seen2 : Seen)
    (h : parseImplicitTeamUserSet env ctx s seen = (.ok ret, seen2)) :
    ∃ r, parseImplicitTeamUserSet.loop env ctx (strings.Split s ',') ⟨[], []⟩ seen =
        (.ok r, seen2) ∧
      ret = { KeybaseUsers := sort.Strings r.KeybaseUsers,
              UnresolvedUsers := sort.Slice (fun sa => sa.String env) r.UnresolvedUsers } := by
  unfold parseImplicitTeamUserSet at h
  cases hl : parseImplicitTeamUserSet.loop env ctx (strings.Split s ',') ⟨[], []⟩ seen with
  | mk res seen3 =>
    rw [hl] at h
    cases res with
    | error e => simp at h
    | ok r =>
      simp only [Prod.mk.injEq, Except.ok.injEq] at h
      obtain ⟨rfl, rfl⟩ := h
      exact ⟨r, rfl, rfl⟩

theorem Marked_empty (env : Collaborators) (seen : Seen) : Marked env seen ⟨[], []⟩ := by
  refine ⟨?_, List.nodup_nil, by simp⟩
  intro k hk
  simp [canonicalStrings] at hk

/-- A successful call of the user-set parser returns strictly ascending
lists of users that were not in `seen` before and are in `seen` after. -/
theorem userSet_sorted_fresh (env : Collaborators) (ctx : AssertionContext)
    (s : String) (seen : Seen) (ret : keybase1.ImplicitTeamUserSet) (seen2 : Seen)
    (h : parseImplicitTeamUserSet env ctx s seen = (.ok ret, seen2)) :
    List.Sorted (fun a b => a < b) ret.KeybaseUsers ∧
    List.Sorted (fun a b => keybase1.SocialAssertion.String env a <
      keybase1.SocialAssertion.String env b) ret.UnresolvedUsers ∧
    (∀ k ∈ canonicalStrings env ret, seen k = false ∧ seen2 k = true) := by
  obtain ⟨r, hl, rfl⟩ := userSet_ok env ctx s seen ret seen2 h
  obtain ⟨⟨hmk, hk, hu⟩, _, h3, h4⟩ :=
    userSet_loop_inv env ctx _ _ _ _ _ hl (Marked_empty env seen)
  refine ⟨?_, ?_, ?_⟩
  · rw [sort_Strings_eq]
    exact sort_Slice_strict id r.KeybaseUsers (by simpa using hk)
  · exact sort_Slice_strict _ r.UnresolvedUsers hu
  · intro k hk
    have hk' : k ∈ canonicalStrings env r :=
      (canonicalStrings_perm env _ r (sort_Slice_perm id _) (sort_Slice_perm _ _) k).mp hk
    refine ⟨?_, hmk k hk'⟩
    rw [mem_canonicalStrings] at hk'
    rcases hk' with ⟨n, hn, rfl⟩ | ⟨sa, hs, rfl⟩
    · rcases h3 n hn with h0 | h0
      · simp at h0
      · exact h0
    · rcases h4 sa hs with h0 | h0
      · simp at h0
      · exact h0

/-- C14: when `parseImplicitTeamUserSet` succeeds, the Keybase users are in
strictly ascending order, the unresolved users are in strictly ascending
order of their canonical string, and no returned user has a canonical string
that was in the map `seen` passed in. -/
theorem C14_user_sets_sorted_and_fresh (env : Collaborators) (ctx : AssertionContext)
    (s : String) (seen : Seen) (ret : keybase1.ImplicitTeamUserSet) (seen2 : Seen)
    (h : parseImplicitTeamUserSet env ctx s seen = (.ok ret, seen2)) :
    List.Sorted (fun a b => a < b) ret.KeybaseUsers ∧
    List.Sorted (fun a b => keybase1.SocialAssertion.String env a <
      keybase1.SocialAssertion.String env b) ret.UnresolvedUsers ∧
    (∀ k ∈ canonicalStrings env ret, seen k = false) := by
  obtain ⟨h1, h2, h3⟩ := userSet_sorted_fresh env ctx s seen ret seen2 h
  exact ⟨h1, h2, fun k hk => (h3 k hk).1⟩

/-- C14 applied to the writers `bob,alice`, and the display name
`alice,bob#carol (conflicted 2017-03-04 #2)` with writers `[alice, bob]`
and readers `[carol]`. -/
theorem C14_user_sets_sorted_and_fresh_witness :
    (parseImplicitTeamUserSet sampleEnv sampleCtx "bob,alice" (fun _ => false)).1 =
      .ok ⟨["alice", "bob"], []⟩ ∧
    List.Sorted (fun a b : String => a < b) ["alice", "bob"] ∧
    (ParseImplicitTeamDisplayName sampleEnv sampleCtx
      "alice,bob#carol (conflicted 2017-03-04 #2)" false).toOption.map
        (fun d => (d.Writers, d.Readers)) = some (⟨["alice", "bob"], []⟩, ⟨["carol"], []⟩) :=
  ⟨by decide,
   (C14_user_sets_sorted_and_fresh sampleEnv sampleCtx "bob,alice" (fun _ => false)
      ⟨["alice", "bob"], []⟩
      (parseImplicitTeamUserSet sampleEnv sampleCtx "bob,alice" (fun _ => false)).2
      (by rfl)).1,
   by decide⟩

/-- What an accepted display name is made of: the writers come from the
user-set parser started on an empty `seen`, the readers are empty or come
from the user-set parser started on the `seen` the writers left, and the
conflict info is absent or comes from the suffix parser. -/
theorem displayName_ok (env : Collaborators) (ctx : AssertionContext) (s : String)
    (isPublic : Bool) (d : keybase1.ImplicitTeamDisplayName)
    (h : ParseImplicitTeamDisplayName env ctx s isPublic = .ok d) :
    ∃ (writersPart : String) (seen1 : Seen),
      parseImplicitTeamUserSet env ctx writersPart (fun _ => false) = (.ok d.Writers, seen1) ∧
      d.Writers.NumTotalUsers ≠ 0 ∧
      (d.Readers = ⟨[], []⟩ ∨ ∃ (readersPart : String) (seen2 : Seen),
        parseImplicitTeamUserSet env ctx readersPart seen1 = (.ok d.Readers, seen2)) := by
  unfold ParseImplicitTeamDisplayName at h
  simp only at h
  split at h
  · cases h
  · rename_i assertions conflict _
    split at h
    · cases h
    · split at h
      · cases h
      · rename_i writersPart readersParts _
        split at h
        · cases h
        · rename_i writers seen1 hw
          split at h
          · cases h
          · rename_i hnum
            split at h
            · cases h
            · rename_i readers hr
              split at h
              · cases h
              · rename_i conflictInfo _
                simp only [Except.ok.injEq] at h
                subst h
                refine ⟨writersPart, seen1, hw, hnum, ?_⟩
                simp only
                split at hr
                · rename_i readersPart _
                  right
                  refine ⟨readersPart, (parseImplicitTeamUserSet env ctx readersPart seen1).2, ?_⟩
                  rw [← hr]
                · left
                  simp only [Except.ok.injEq] at hr
                  exact hr.symm

/-! ## Implicit team names: independence of the order of the parts -/

/-- The loop of the user-set parser succeeds exactly when every part
parses. -/
theorem userSet_loop_success (env : Collaborators) (ctx : AssertionContext)
    (parts : List String) :
    ∀ (ret : keybase1.ImplicitTeamUserSet) (seen : Seen),
    (∃ r seen2, parseImplicitTeamUserSet.loop env ctx parts ret seen = (.ok r, seen2)) ↔
      ∀ p ∈ parts, ∃ tn, parseImplicitTeamPart env ctx p = .ok tn := by
  induction parts with
  | nil =>
    intro ret seen
    simp [parseImplicitTeamUserSet.loop]
  | cons p ps ih =>
    intro ret seen
    rw [parseImplicitTeamUserSet.loop]
    cases hp : parseImplicitTeamPart env ctx p with
    | error e => simp [hp]
    | ok tn =>
      obtain ⟨typ, name⟩ := tn
      simp only [List.mem_cons, forall_eq_or_imp, hp, Except.ok.injEq, exists_eq', true_and]
      split_ifs
      · exact ih _ _
      · exact ih _ _
      · exact ih _ _

/-- The map `seen` after the loop: what was seen before and the canonical
strings of all the parts. -/
theorem userSet_loop_seen (env : Collaborators) (ctx : AssertionContext)
    (parts : List String) :
    ∀ (ret : keybase1.ImplicitTeamUserSet) (seen : Seen) (r : keybase1.ImplicitTeamUserSet)
      (seen2 : Seen),
    parseImplicitTeamUserSet.loop env ctx parts ret seen = (.ok r, seen2) →
    ∀ k, seen2 k = true ↔ (seen k = true ∨ ∃ p ∈ parts, ∃ typ name,
      parseImplicitTeamPart env ctx p = .ok (typ, name) ∧
        env.SocialAssertion_String name typ = k) := by
  induction parts with
  | nil =>
    intro ret seen r seen2 h k
    simp only [parseImplicitTeamUserSet.loop, Prod.mk.injEq, Except.ok.injEq] at h
    obtain ⟨_, rfl⟩ := h
    simp
  | cons p ps ih =>
    intro ret seen r seen2 h k
    rw [parseImplicitTeamUserSet.loop] at h
    cases hp : parseImplicitTeamPart env ctx p with
    | error e => simp [hp] at h
    | ok tn =>
      obtain ⟨typ, name⟩ := tn
      simp only [hp] at h
      simp only [List.mem_cons, exists_eq_or_imp, hp, Except.ok.injEq, Prod.mk.injEq]
      by_cases hseen : seen (keybase1.SocialAssertion.String env ⟨name, typ⟩) = true
      · rw [if_pos hseen] at h
        rw [ih _ _ _ _ h k]
        constructor
        · rintro (h1 | h1)
          · exact Or.inl h1
          · exact Or.inr (Or.inr h1)
        · rintro (h1 | ⟨t, n, ⟨rfl, rfl⟩, rfl⟩ | h1)
          · exact Or.inl h1
          · exact Or.inl hseen
          · exact Or.inr h1
      · rw [if_neg hseen] at h
        have key : seen2 k = true ↔ ((if k = keybase1.SocialAssertion.String env ⟨name, typ⟩
            then true else seen k) = true ∨ ∃ p ∈ ps, ∃ typ name,
            parseImplicitTeamPart env ctx p = .ok (typ, name) ∧
              env.SocialAssertion_String name typ = k) := by
          split_ifs at h
          · exact ih _ _ _ _ h k
          · exact ih _ _ _ _ h k
        rw [key]
        constructor
        · rintro (h1 | h1)
          · split_ifs at h1 with h2
            · exact Or.inr (Or.inl ⟨typ, name, ⟨rfl, rfl⟩, h2.symm⟩)
            · exact Or.inl h1
          · exact Or.inr (Or.inr h1)
        · rintro (h1 | ⟨t, n, ⟨rfl, rfl⟩, rfl⟩ | h1)
          · left
            split_ifs
            · rfl
            · exact h1
          · left
            simp [keybase1.SocialAssertion.String]
          · exact Or.inr h1

theorem delimiterFree_keybase : delimiterFree "keybase" := ⟨by decide, by decide⟩

/-- The users the loop returns, when the canonical string is injective:
those it started with and every parsed part that was not seen before. -/
theorem userSet_loop_mem (env : Collaborators) (ctx : AssertionContext)
    (hinj : CanonicalStringInjective env) (parts : List String) :
    ∀ (ret : keybase1.ImplicitTeamUserSet) (seen : Seen) (r : keybase1.ImplicitTeamUserSet)
      (seen2 : Seen),
    parseImplicitTeamUserSet.loop env ctx parts ret seen = (.ok r, seen2) →
    (∀ n, n ∈ r.KeybaseUsers ↔ (n ∈ ret.KeybaseUsers ∨
      ((∃ p ∈ parts, parseImplicitTeamPart env ctx p = .ok ("keybase", n)) ∧
        seen (env.SocialAssertion_String n "keybase") = false))) ∧
    (∀ sa : keybase1.SocialAssertion, sa ∈ r.UnresolvedUsers ↔ (sa ∈ ret.UnresolvedUsers ∨
      ((∃ p ∈ parts, parseImplicitTeamPart env ctx p = .ok (sa.Service, sa.User)) ∧
        sa.Service ≠ "keybase" ∧ seen (env.SocialAssertion_String sa.User sa.Service) = false))) := by
  induction parts with
  | nil =>
    intro ret seen r seen2 h
    simp only [parseImplicitTeamUserSet.loop, Prod.mk.injEq, Except.ok.injEq] at h
    obtain ⟨rfl, _⟩ := h
    simp
  | cons p ps ih =>
    intro ret seen r seen2 h
    rw [parseImplicitTeamUserSet.loop] at h
    cases hp : parseImplicitTeamPart env ctx p with
    | error e => simp [hp] at h
    | ok tn =>
      obtain ⟨typ, name⟩ := tn
      have hclean := parseImplicitTeamPart_typ_delimiterFree env ctx p typ name hp
      simp only [hp] at h
      simp only [List.mem_cons, exists_eq_or_imp, hp, Except.ok.injEq, Prod.mk.injEq]
      by_cases hseen : seen (keybase1.SocialAssertion.String env ⟨name, typ⟩) = true
      · rw [if_pos hseen] at h
        have hseen' : seen (env.SocialAssertion_String name typ) = true := hseen
        obtain ⟨i1, i2⟩ := ih _ _ _ _ h
        constructor
        · intro n
          rw [i1 n]
          constructor
          · rintro (h1 | ⟨h1, h2⟩)
            · exact Or.inl h1
            · exact Or.inr ⟨Or.inr h1, h2⟩
          · rintro (h1 | ⟨⟨rfl, rfl⟩ | h1, h2⟩)
            · exact Or.inl h1
            · rw [hseen'] at h2
              cases h2
            · exact Or.inr ⟨h1, h2⟩
        · intro sa
          rw [i2 sa]
          constructor
          · rintro (h1 | ⟨h1, h2⟩)
            · exact Or.inl h1
            · exact Or.inr ⟨Or.inr h1, h2⟩
          · rintro (h1 | ⟨⟨rfl, rfl⟩ | h1, h2, h3⟩)
            · exact Or.inl h1
            · rw [hseen'] at h3
              cases h3
            · exact Or.inr ⟨h1, h2, h3⟩
      · rw [if_neg hseen] at h
        have hseen' : seen (env.SocialAssertion_String name typ) = false := by
          simpa [keybase1.SocialAssertion.String] using hseen
        have hnew : ∀ (u t : String), delimiterFree t →
            ((if env.SocialAssertion_String u t = keybase1.SocialAssertion.String env ⟨name, typ⟩
              then true else seen (env.SocialAssertion_String u t)) = false ↔
            (seen (env.SocialAssertion_String u t) = false ∧ ¬ (u = name ∧ t = typ))) := by
          intro u t ht
          constructor
          · intro h1
            split_ifs at h1 with h2
            refine ⟨h1, ?_⟩
            rintro ⟨rfl, rfl⟩
            exact h2 rfl
          · rintro ⟨h1, h2⟩
            rw [if_neg]
            · exact h1
            · intro h3
              exact h2 (hinj u t name typ ht hclean h3)
        by_cases htyp : typ = "keybase"
        · rw [if_pos htyp] at h
          subst htyp
          obtain ⟨i1, i2⟩ := ih _ _ _ _ h
          constructor
          · intro n
            rw [i1 n, hnew n "keybase" delimiterFree_keybase]
            simp only [List.mem_append, List.mem_singleton]
            constructor
            · rintro ((h1 | rfl) | ⟨h1, h2, _⟩)
              · exact Or.inl h1
              · exact Or.inr ⟨Or.inl ⟨trivial, rfl⟩, hseen'⟩
              · exact Or.inr ⟨Or.inr h1, h2⟩
            · rintro (h1 | ⟨⟨_, rfl⟩ | h1, h2⟩)
              · exact Or.inl (Or.inl h1)
              · exact Or.inl (Or.inr rfl)
              · by_cases hn : n = name
                · exact Or.inl (Or.inr hn)
                · exact Or.inr ⟨h1, h2, fun h0 => hn h0.1⟩
          · intro sa
            rw [i2 sa]
            constructor
            · rintro (h1 | ⟨h1, h2, h3⟩)
              · exact Or.inl h1
              · have hc : delimiterFree sa.Service := by
                  obtain ⟨q, _, hq⟩ := h1
                  exact parseImplicitTeamPart_typ_delimiterFree env ctx q _ _ hq
                exact Or.inr ⟨Or.inr h1, h2, ((hnew sa.User sa.Service hc).mp h3).1⟩
            · rintro (h1 | ⟨⟨h0, _⟩ | h1, h2, h3⟩)
              · exact Or.inl h1
              · exact absurd h0.symm h2
              · have hc : delimiterFree sa.Service := by
                  obtain ⟨q, _, hq⟩ := h1
                  exact parseImplicitTeamPart_typ_delimiterFree env ctx q _ _ hq
                exact Or.inr ⟨h1, h2, (hnew sa.User sa.Service hc).mpr
                  ⟨h3, fun h0 => h2 h0.2⟩⟩
        · rw [if_neg htyp] at h
          obtain ⟨i1, i2⟩ := ih _ _ _ _ h
          constructor
          · intro n
            rw [i1 n, hnew n "keybase" delimiterFree_keybase]
            constructor
            · rintro (h1 | ⟨h1, h2, _⟩)
              · exact Or.inl h1
              · exact Or.inr ⟨Or.inr h1, h2⟩
            · rintro (h1 | ⟨⟨h0, _⟩ | h1, h2⟩)
              · exact Or.inl h1
              · exact absurd h0 htyp
              · exact Or.inr ⟨h1, h2, fun h0 => htyp h0.2.symm⟩
          · intro sa
            rw [i2 sa]
            simp only [List.mem_append, List.mem_singleton]
            constructor
            · rintro ((h1 | rfl) | ⟨h1, h2, h3⟩)
              · exact Or.inl h1
              · exact Or.inr ⟨Or.inl ⟨rfl, rfl⟩, htyp, hseen'⟩
              · have hc : delimiterFree sa.Service := by
                  obtain ⟨q, _, hq⟩ := h1
                  exact parseImplicitTeamPart_typ_delimiterFree env ctx q _ _ hq
                exact Or.inr ⟨Or.inr h1, h2, ((hnew sa.User sa.Service hc).mp h3).1⟩
            · rintro (h1 | ⟨⟨h0, h0'⟩ | h1, h2, h3⟩)
              · exact Or.inl (Or.inl h1)
              · left; right
                cases sa
                simp only at h0 h0'
                subst h0 h0'
                rfl
              · have hc : delimiterFree sa.Service := by
                  obtain ⟨q, _, hq⟩ := h1
                  exact parseImplicitTeamPart_typ_delimiterFree env ctx q _ _ hq
                by_cases hn : sa.User = name ∧ sa.Service = typ
                · left; right
                  cases sa
                  simp only at hn
                  obtain ⟨rfl, rfl⟩ := hn
                  rfl
                · exact Or.inr ⟨h1, h2, (hnew sa.User sa.Service hc).mpr ⟨h3, hn⟩⟩

theorem list_eq_of_map_eq {α β : Type} (f : α → β) :
    ∀ (l1 l2 : List α), l1.map f = l2.map f →
      (∀ a ∈ l1, ∀ b ∈ l2, f a = f b → a = b) → l1 = l2
  | [], [], _, _ => rfl
  | [], _ :: _, h, _ => by simp at h
  | _ :: _, [], h, _ => by simp at h
  | a :: l1, b :: l2, h, hinj => by
    simp only [List.map_cons, List.cons.injEq] at h
    have hab : a = b := hinj a (List.mem_cons_self _ _) b (List.mem_cons_self _ _) h.1
    have := list_eq_of_map_eq f l1 l2 h.2
      (fun x hx y hy => hinj x (List.mem_cons_of_mem _ hx) y (List.mem_cons_of_mem _ hy))
    rw [hab, this]

theorem sort_Strings_eq_of_perm (l1 l2 : List String) (h : l1.Perm l2) :
    sort.Strings l1 = sort.Strings l2 := by
  have i1 : IsAntisymm String (fun a b => (id a).data ≤ (id b).data) :=
    ⟨fun a b h1 h2 => String.ext (le_antisymm h1 h2)⟩
  rw [sort_Strings_eq, sort_Strings_eq]
  exact List.eq_of_perm_of_sorted
    (((sort_Slice_perm id l1).trans h).trans (sort_Slice_perm id l2).symm)
    (sort_Slice_sorted id l1) (sort_Slice_sorted id l2)

theorem sort_Slice_eq_of_perm {α : Type} (key : α → String) (l1 l2 : List α) (h : l1.Perm l2)
    (hinj : ∀ a ∈ l1, ∀ b ∈ l1, key a = key b → a = b) :
    sort.Slice key l1 = sort.Slice key l2 := by
  have i1 : IsAntisymm String (fun a b => a.data ≤ b.data) :=
    ⟨fun a b h1 h2 => String.ext (le_antisymm h1 h2)⟩
  have hp : (sort.Slice key l1).Perm (sort.Slice key l2) :=
    ((sort_Slice_perm key l1).trans h).trans (sort_Slice_perm key l2).symm
  have hm : (sort.Slice key l1).map key = (sort.Slice key l2).map key := by
    refine @List.eq_of_perm_of_sorted String (fun a b => a.data ≤ b.data) i1 _ _
      (hp.map key) ?_ ?_
    · exact (List.pairwise_map).mpr (sort_Slice_sorted key l1)
    · exact (List.pairwise_map).mpr (sort_Slice_sorted key l2)
  refine list_eq_of_map_eq key _ _ hm ?_
  intro a ha b hb hab
  have ha' : a ∈ l1 := (sort_Slice_perm key l1).mem_iff.mp ha
  have hb' : b ∈ l1 := h.mem_iff.mpr ((sort_Slice_perm key l2).mem_iff.mp hb)
  exact hinj a ha' b hb' hab

/-- Permuting the comma-separated parts does not change what the user-set
parser returns, nor the map `seen` it leaves. -/
theorem userSet_perm_aux (env : Collaborators) (ctx : AssertionContext)
    (hinj : CanonicalStringInjective env) (s s2 : String) (seen : Seen)
    (hperm : (strings.Split s ',').Perm (strings.Split s2 ','))
    (ret : keybase1.ImplicitTeamUserSet) (seen2 : Seen)
    (h : parseImplicitTeamUserSet env ctx s seen = (.ok ret, seen2)) :
    parseImplicitTeamUserSet env ctx s2 seen = (.ok ret, seen2) := by
  obtain ⟨r, hl, rfl⟩ := userSet_ok env ctx s seen ret seen2 h
  have hall := (userSet_loop_success env ctx _ ⟨[], []⟩ seen).mp ⟨r, seen2, hl⟩
  have hall2 : ∀ p ∈ strings.Split s2 ',', ∃ tn, parseImplicitTeamPart env ctx p = .ok tn :=
    fun p hp => hall p (hperm.mem_iff.mpr hp)
  obtain ⟨r2, seen3, hl2⟩ := (userSet_loop_success env ctx _ ⟨[], []⟩ seen).mpr hall2
  have hseen : seen3 = seen2 := by
    funext k
    have e1 := userSet_loop_seen env ctx _ _ _ _ _ hl k
    have e2 := userSet_loop_seen env ctx _ _ _ _ _ hl2 k
    have : seen3 k = true ↔ seen2 k = true := by
      rw [e1, e2]
      simp only [hperm.mem_iff]
    cases h3 : seen3 k <;> cases h2 : seen2 k <;> simp_all
  obtain ⟨m1, m2⟩ := userSet_loop_mem env ctx hinj _ _ _ _ _ hl
  obtain ⟨n1, n2⟩ := userSet_loop_mem env ctx hinj _ _ _ _ _ hl2
  obtain ⟨⟨_, k1, u1⟩, _⟩ := userSet_loop_inv env ctx _ _ _ _ _ hl (Marked_empty env seen)
  obtain ⟨⟨_, k2, u2⟩, _⟩ := userSet_loop_inv env ctx _ _ _ _ _ hl2 (Marked_empty env seen)
  have pk : r.KeybaseUsers.Perm r2.KeybaseUsers := by
    rw [List.perm_ext_iff_of_nodup k1 k2]
    intro n
    rw [m1 n, n1 n]
    simp only [hperm.mem_iff]
  have pu : r.UnresolvedUsers.Perm r2.UnresolvedUsers := by
    rw [List.perm_ext_iff_of_nodup (List.Nodup.of_map _ u1) (List.Nodup.of_map _ u2)]
    intro sa
    rw [m2 sa, n2 sa]
    simp only [hperm.mem_iff]
  have hclean : ∀ sa ∈ r.UnresolvedUsers, delimiterFree sa.Service := by
    intro sa hs
    rcases (m2 sa).mp hs with h0 | ⟨⟨q, _, hq⟩, _⟩
    · simp at h0
    · exact parseImplicitTeamPart_typ_delimiterFree env ctx q _ _ hq
  have e1 := sort_Strings_eq_of_perm _ _ pk
  have e2 := sort_Slice_eq_of_perm (fun sa : keybase1.SocialAssertion => sa.String env) _ _ pu
    (by
      intro a ha b hb hab
      obtain ⟨h1, h2⟩ := hinj a.User a.Service b.User b.Service (hclean a ha) (hclean b hb) hab
      cases a; cases b
      simp only at h1 h2
      rw [h1, h2])
  unfold parseImplicitTeamUserSet
  rw [hl2, e1, e2, hseen]

theorem append_cons_inj_left {α : Type} (x : α) :
    ∀ (l1 l2 r1 r2 : List α), x ∉ l1 → x ∉ l2 → l1 ++ x :: r1 = l2 ++ x :: r2 →
      l1 = l2 ∧ r1 = r2
  | [], [], _, _, _, _, h => by simpa using h
  | [], b :: l2, _, _, _, h2, h => by
    simp only [List.nil_append, List.cons_append, List.cons.injEq] at h
    exact absurd (h.1 ▸ List.mem_cons_self _ _) h2
  | a :: l1, [], _, _, h1, _, h => by
    simp only [List.nil_append, List.cons_append, List.cons.injEq] at h
    exact absurd (h.1 ▸ List.mem_cons_self _ _) h1
  | a :: l1, b :: l2, r1, r2, h1, h2, h => by
    simp only [List.cons_append, List.cons.injEq] at h
    obtain ⟨e1, e2⟩ := append_cons_inj_left x l1 l2 r1 r2
      (fun h0 => h1 (List.mem_cons_of_mem _ h0)) (fun h0 => h2 (List.mem_cons_of_mem _ h0)) h.2
    exact ⟨by rw [h.1, e1], e2⟩

/-- The canonical string `service:user` of the sample environment tells
apart users with delimiter-free services. -/
theorem sampleEnv_injective : CanonicalStringInjective sampleEnv := by
  intro u s u2 s2 hs hs2 h
  have hd : s.data ++ ':' :: u.data = s2.data ++ ':' :: u2.data := by
    have := congrArg String.data h
    simpa [sampleEnv, String.data_append] using this
  obtain ⟨e1, e2⟩ := append_cons_inj_left ':' _ _ _ _ hs.1 hs2.1 hd
  exact ⟨String.ext e2, String.ext e1⟩

theorem userSet_perm_iff (env : Collaborators) (ctx : AssertionContext)
    (hinj : CanonicalStringInjective env) (s s2 : String) (seen : Seen)
    (hperm : (strings.Split s ',').Perm (strings.Split s2 ',')) :
    (parseImplicitTeamUserSet env ctx s seen = parseImplicitTeamUserSet env ctx s2 seen) ∨
    ((∃ e, (parseImplicitTeamUserSet env ctx s seen).1 = .error e) ∧
      (∃ e, (parseImplicitTeamUserSet env ctx s2 seen).1 = .error e)) := by
  cases h1 : parseImplicitTeamUserSet env ctx s seen with
  | mk res seen1 =>
    cases res with
    | ok ret =>
      left
      exact (userSet_perm_aux env ctx hinj s s2 seen hperm ret seen1 h1).symm
    | error e =>
      right
      refine ⟨⟨e, rfl⟩, ?_⟩
      cases h2 : parseImplicitTeamUserSet env ctx s2 seen with
      | mk res2 seen2 =>
        cases res2 with
        | ok ret2 =>
          have := userSet_perm_aux env ctx hinj s2 s seen hperm.symm ret2 seen2 h2
          rw [h1] at this
          simp at this
        | error e2 => exact ⟨e2, rfl⟩

/-- Reordering the writers of a display name does not change the accepted
result. -/
theorem displayName_perm_writers (env : Collaborators) (ctx : AssertionContext)
    (hinj : CanonicalStringInjective env) (isPublic : Bool) (s s2 a a2 w w2 : String)
    (c rs : List String)
    (h1 : strings.SplitN (strings.ToLower s) ' ' 2 = a :: c)
    (h2 : strings.SplitN (strings.ToLower s2) ' ' 2 = a2 :: c)
    (h3 : strings.Split a '#' = w :: rs) (h4 : strings.Split a2 '#' = w2 :: rs)
    (hperm : (strings.Split w ',').Perm (strings.Split w2 ','))
    (d : keybase1.ImplicitTeamDisplayName) :
    ParseImplicitTeamDisplayName env ctx s isPublic = .ok d ↔
      ParseImplicitTeamDisplayName env ctx s2 isPublic = .ok d := by
  unfold ParseImplicitTeamDisplayName
  simp only [h1, h2, h3, h4]
  rcases userSet_perm_iff env ctx hinj w w2 (fun _ => false) hperm with he | ⟨⟨e1, he1⟩, ⟨e2, he2⟩⟩
  · rw [he]
    simp only [List.length_cons]
  · have q1 : parseImplicitTeamUserSet env ctx w (fun _ => false) =
        (.error e1, (parseImplicitTeamUserSet env ctx w (fun _ => false)).2) := by
      rw [← he1]
    have q2 : parseImplicitTeamUserSet env ctx w2 (fun _ => false) =
        (.error e2, (parseImplicitTeamUserSet env ctx w2 (fun _ => false)).2) := by
      rw [← he2]
    rw [q1, q2]
    split_ifs <;> simp

/-- Reordering the readers of a display name does not change the accepted
result. -/
theorem displayName_perm_readers (env : Collaborators) (ctx : AssertionContext)
    (hinj : CanonicalStringInjective env) (isPublic : Bool) (s s2 a a2 w r r2 : String)
    (c : List String)
    (h1 : strings.SplitN (strings.ToLower s) ' ' 2 = a :: c)
    (h2 : strings.SplitN (strings.ToLower s2) ' ' 2 = a2 :: c)
    (h3 : strings.Split a '#' = [w, r]) (h4 : strings.Split a2 '#' = [w, r2])
    (hperm : (strings.Split r ',').Perm (strings.Split r2 ','))
    (d : keybase1.ImplicitTeamDisplayName) :
    ParseImplicitTeamDisplayName env ctx s isPublic = .ok d ↔
      ParseImplicitTeamDisplayName env ctx s2 isPublic = .ok d := by
  unfold ParseImplicitTeamDisplayName
  simp only [h1, h2, h3, h4]
  cases hw : parseImplicitTeamUserSet env ctx w (fun _ => false) with
  | mk res seen1 =>
    cases res with
    | error e => simp
    | ok writers =>
      simp only
      rcases userSet_perm_iff env ctx hinj r r2 seen1 hperm with he | ⟨⟨e1, he1⟩, ⟨e2, he2⟩⟩
      · rw [he]
        simp only [List.length_cons]
      · rw [he1, he2]
        split_ifs <;> simp

/-- C15: the parsed user set does not depend on the order of the
comma-separated parts.  With a canonical string that tells apart any two
users whose services hold no delimiter: for two inputs whose lists of parts
are permutations of each other and the same map `seen`, the user-set parser
succeeds on one iff it succeeds on the other, the user sets returned are
equal, and so are the maps `seen` left behind; hence two display names that
differ only in the order of the writers, or of the readers, are accepted
with the same result. -/
theorem C15_user_set_independent_of_order (env : Collaborators) (ctx : AssertionContext)
    (hinj : CanonicalStringInjective env) :
    (∀ (s s2 : String) (seen : Seen),
      (strings.Split s ',').Perm (strings.Split s2 ',') →
      ((∃ ret, (parseImplicitTeamUserSet env ctx s seen).1 = .ok ret) ↔
        (∃ ret, (parseImplicitTeamUserSet env ctx s2 seen).1 = .ok ret)) ∧
      (∀ ret ret2, (parseImplicitTeamUserSet env ctx s seen).1 = .ok ret →
        (parseImplicitTeamUserSet env ctx s2 seen).1 = .ok ret2 → ret = ret2) ∧
      (∀ ret seen2, parseImplicitTeamUserSet env ctx s seen = (.ok ret, seen2) ↔
        parseImplicitTeamUserSet env ctx s2 seen = (.ok ret, seen2))) ∧
    (∀ (isPublic : Bool) (s s2 a a2 w w2 : String) (c rs : List String),
      strings.SplitN (strings.ToLower s) ' ' 2 = a :: c →
      strings.SplitN (strings.ToLower s2) ' ' 2 = a2 :: c →
      strings.Split a '#' = w :: rs → strings.Split a2 '#' = w2 :: rs →
      (strings.Split w ',').Perm (strings.Split w2 ',') →
      ∀ d, ParseImplicitTeamDisplayName env ctx s isPublic = .ok d ↔
        ParseImplicitTeamDisplayName env ctx s2 isPublic = .ok d) ∧
    (∀ (isPublic : Bool) (s s2 a a2 w r r2 : String) (c : List String),
      strings.SplitN (strings.ToLower s) ' ' 2 = a :: c →
      strings.SplitN (strings.ToLower s2) ' ' 2 = a2 :: c →
      strings.Split a '#' = [w, r] → strings.Split a2 '#' = [w, r2] →
      (strings.Split r ',').Perm (strings.Split r2 ',') →
      ∀ d, ParseImplicitTeamDisplayName env ctx s isPublic = .ok d ↔
        ParseImplicitTeamDisplayName env ctx s2 isPublic = .ok d) := by
  refine ⟨?_, ?_, ?_⟩
  · intro s s2 seen hperm
    have key : ∀ ret seen2, parseImplicitTeamUserSet env ctx s seen = (.ok ret, seen2) ↔
        parseImplicitTeamUserSet env ctx s2 seen = (.ok ret, seen2) :=
      fun ret seen2 => ⟨userSet_perm_aux env ctx hinj s s2 seen hperm ret seen2,
        userSet_perm_aux env ctx hinj s2 s seen hperm.symm ret seen2⟩
    refine ⟨?_, ?_, key⟩
    · constructor
      · rintro ⟨ret, h⟩
        have := (key ret (parseImplicitTeamUserSet env ctx s seen).2).mp (by rw [← h])
        exact ⟨ret, by rw [this]⟩
      · rintro ⟨ret, h⟩
        have := (key ret (parseImplicitTeamUserSet env ctx s2 seen).2).mpr (by rw [← h])
        exact ⟨ret, by rw [this]⟩
    · intro ret ret2 h1 h2
      have := (key ret (parseImplicitTeamUserSet env ctx s seen).2).mp (by rw [← h1])
      rw [this] at h2
      simp only [Except.ok.injEq] at h2
      exact h2
  · intro isPublic s s2 a a2 w w2 c rs h1 h2 h3 h4 hperm d
    exact displayName_perm_writers env ctx hinj isPublic s s2 a a2 w w2 c rs h1 h2 h3 h4 hperm d
  · intro isPublic s s2 a a2 w r r2 c h1 h2 h3 h4 hperm d
    exact displayName_perm_readers env ctx hinj isPublic s s2 a a2 w r r2 c h1 h2 h3 h4 hperm d

/-- C15 applied to `bob,alice@twitter,alice` and `alice,bob,alice@twitter`
in the sample environment. -/
theorem C15_user_set_independent_of_order_witness :
    CanonicalStringInjective sampleEnv ∧
    (strings.Split "bob,alice@twitter,alice" ',').Perm
      (strings.Split "alice,bob,alice@twitter" ',') ∧
    (parseImplicitTeamUserSet sampleEnv sampleCtx "bob,alice@twitter,alice" (fun _ => false)).1 =
      .ok ⟨["alice", "bob"], [⟨"alice", "twitter"⟩]⟩ ∧
    (parseImplicitTeamUserSet sampleEnv sampleCtx "alice,bob,alice@twitter" (fun _ => false)).1 =
      .ok ⟨["alice", "bob"], [⟨"alice", "twitter"⟩]⟩ ∧
    ((∃ ret, (parseImplicitTeamUserSet sampleEnv sampleCtx "bob,alice@twitter,alice"
        (fun _ => false)).1 = .ok ret) ↔
      (∃ ret, (parseImplicitTeamUserSet sampleEnv sampleCtx "alice,bob,alice@twitter"
        (fun _ => false)).1 = .ok ret)) :=
  ⟨sampleEnv_injective, by decide, by decide, by decide,
   ((C15_user_set_independent_of_order sampleEnv sampleCtx sampleEnv_injective).1
      "bob,alice@twitter,alice" "alice,bob,alice@twitter" (fun _ => false) (by decide)).1⟩

/-! ## Implicit team names: what a part becomes -/

/-- `CheckAndNormalize` returns an atom whenever it returns no error. -/
theorem CheckAndNormalize_ret (env : Collaborators) (ctx : AssertionContext) (u : AssertionURL)
    (h : (u.CheckAndNormalize env ctx).err = none) :
    ∃ a, (u.CheckAndNormalize env ctx).ret = some a := by
  cases u with
  | HTTP b =>
    simp only [AssertionURL.CheckAndNormalize] at h ⊢
    split at h
    · cases h
    · rename_i heq
      simp [heq]
  | HTTPS b =>
    simp only [AssertionURL.CheckAndNormalize] at h ⊢
    split at h
    · cases h
    · rename_i heq
      simp [heq]
  | DNS b =>
    simp only [AssertionURL.CheckAndNormalize] at h ⊢
    split at h
    · cases h
    · rename_i heq
      simp [heq]
  | Web b =>
    simp only [AssertionURL.CheckAndNormalize] at h ⊢
    split at h
    · cases h
    · rename_i heq
      simp [heq]
  | Keybase b =>
    simp only [AssertionURL.CheckAndNormalize] at h ⊢
    split_ifs at h ⊢
    exact ⟨_, rfl⟩
  | Fingerprint b =>
    simp only [AssertionURL.CheckAndNormalize, AssertionFingerprint.CheckAndNormalize] at h ⊢
    split_ifs at h ⊢
    exact ⟨_, rfl⟩
  | UID b i => exact ⟨_, rfl⟩
  | TeamID b i => exact ⟨_, rfl⟩
  | TeamName b i => exact ⟨_, rfl⟩
  | Social b => exact ⟨_, rfl⟩

/-- The atom parser returns an atom whenever it returns no error. -/
theorem ParseAssertionURL_ret (env : Collaborators) (ctx : AssertionContext) (s : String)
    (strict : Bool) (h : (ParseAssertionURL env ctx s strict).err = none) :
    ∃ a, (ParseAssertionURL env ctx s strict).ret = some a := by
  unfold ParseAssertionURL at h ⊢
  split
  · rename_i heq
    simp [heq] at h
  · rename_i key val heq
    simp only [heq] at h
    unfold ParseAssertionURLKeyValue at h ⊢
    by_cases h1 : len key = 0 ∧ strict = true
    · rw [if_pos h1] at h
      cases h
    · rw [if_neg h1] at h ⊢
      exact CheckAndNormalize_ret env ctx _ h

theorem Split_single (s : String) (c : Char) (h : c ∉ s.data) : strings.Split s c = [s] := by
  unfold strings.Split List.splitOn
  rw [List.splitOnP_eq_single]
  · rfl
  · intro x hx hc
    rw [beq_iff_eq] at hc
    exact h (hc ▸ hx)

/-- The user-set parser on a single part that was not seen before. -/
theorem userSet_single (env : Collaborators) (ctx : AssertionContext) (s typ name : String)
    (seen : Seen) (hcomma : ',' ∉ s.data)
    (hp : parseImplicitTeamPart env ctx s = .ok (typ, name))
    (hseen : seen (env.SocialAssertion_String name typ) = false) :
    (parseImplicitTeamUserSet env ctx s seen).1 =
      .ok (if typ = "keybase" then ⟨[name], []⟩ else ⟨[], [⟨name, typ⟩]⟩) := by
  unfold parseImplicitTeamUserSet
  rw [Split_single s ',' hcomma]
  simp only [parseImplicitTeamUserSet.loop, hp, keybase1.SocialAssertion.String, hseen,
    Bool.false_eq_true, if_false]
  split_ifs <;> simp [parseImplicitTeamUserSet.loop, sort.Strings, sort.Slice]

/-! ## Conflict suffixes: parsing and formatting -/

theorem takeWhile_digits (n t : List Char) (x : Char) (hn : ∀ c ∈ n, c.isDigit = true)
    (hx : x.isDigit = false) :
    (n ++ x :: t).takeWhile Char.isDigit = n ∧ (n ++ x :: t).dropWhile Char.isDigit = x :: t := by
  induction n with
  | nil => simp [List.takeWhile, List.dropWhile, hx]
  | cons c cs ih =>
    have hc := hn c (List.mem_cons_self _ _)
    have := ih (fun d hd => hn d (List.mem_cons_of_mem _ hd))
    simp [List.takeWhile, List.dropWhile, hc, this]

/-- What `FindStringSubmatch` returns on a text of the first form. -/
theorem FindStringSubmatch_plain (date : List Char) (hd : isDateText date) :
    implicitTeamDisplayNameConflictRxx.FindStringSubmatch (conflictSuffixText date none) =
      [conflictSuffixText date none, ⟨date⟩, "", ""] := by
  obtain ⟨y1, y2, y3, y4, m1, m2, d1, d2, rfl, h1, h2, h3, h4, h5, h6, h7, h8⟩ := hd
  simp [implicitTeamDisplayNameConflictRxx.FindStringSubmatch, conflictSuffixText,
    h1, h2, h3, h4, h5, h6, h7, h8]

/-- What `FindStringSubmatch` returns on a text of the second form. -/
theorem FindStringSubmatch_generation (date n : List Char) (hd : isDateText date)
    (hne : n ≠ []) (hn : ∀ c ∈ n, c.isDigit = true) :
    implicitTeamDisplayNameConflictRxx.FindStringSubmatch (conflictSuffixText date (some n)) =
      [conflictSuffixText date (some n), ⟨date⟩, ⟨' ' :: '#' :: n⟩, ⟨n⟩] := by
  obtain ⟨y1, y2, y3, y4, m1, m2, d1, d2, rfl, h1, h2, h3, h4, h5, h6, h7, h8⟩ := hd
  obtain ⟨t1, t2⟩ := takeWhile_digits n [] ')' hn (by decide)
  have hne2 : ¬ (' ' :: '#' :: (n ++ [')']) = [')']) := by simp
  simp [implicitTeamDisplayNameConflictRxx.FindStringSubmatch, conflictSuffixText,
    h1, h2, h3, h4, h5, h6, h7, h8, t1, t2, hne]

/-- The texts that `FindStringSubmatch` matches. -/
theorem FindStringSubmatch_cases (s : String) :
    implicitTeamDisplayNameConflictRxx.FindStringSubmatch s = [] ∨
    (∃ date, isDateText date ∧ s = conflictSuffixText date none) ∨
    (∃ date n, isDateText date ∧ n ≠ [] ∧ (∀ c ∈ n, c.isDigit = true) ∧
      s = conflictSuffixText date (some n)) := by
  unfold implicitTeamDisplayNameConflictRxx.FindStringSubmatch
  split_ifs with hp
  · have hs : s.data = "(conflicted ".data ++ s.data.drop 12 := by
      rw [← hp, List.take_append_drop]
    split
    · rename_i y1 y2 y3 y4 s1 m1 m2 s2 d1 d2 rest hdrop
      split_ifs with hdig hrest
      · right; left
        obtain ⟨h1, h2, h3, h4, rfl, h5, h6, rfl, h7, h8⟩ := hdig
        refine ⟨[y1, y2, y3, y4, '-', m1, m2, '-', d1, d2],
          ⟨y1, y2, y3, y4, m1, m2, d1, d2, rfl, h1, h2, h3, h4, h5, h6, h7, h8⟩, ?_⟩
        apply String.ext
        rw [hs, hdrop, hrest]
        rfl
      · split
        · rename_i a b r
          split_ifs with hg
          · right; right
            obtain ⟨h1, h2, h3, h4, rfl, h5, h6, rfl, h7, h8⟩ := hdig
            obtain ⟨rfl, rfl, hne, hdw⟩ := hg
            refine ⟨[y1, y2, y3, y4, '-', m1, m2, '-', d1, d2], r.takeWhile Char.isDigit,
              ⟨y1, y2, y3, y4, m1, m2, d1, d2, rfl, h1, h2, h3, h4, h5, h6, h7, h8⟩, hne,
              fun c hc => (List.mem_takeWhile_imp hc), ?_⟩
            apply String.ext
            rw [hs, hdrop]
            have : r = r.takeWhile Char.isDigit ++ [')'] := by
              conv_lhs => rw [← List.takeWhile_append_dropWhile Char.isDigit r, hdw]
            conv_lhs => rw [this]
            simp [conflictSuffixText]
          · left; rfl
        · left; rfl
      · left; rfl
    · left; rfl
  · left; rfl

theorem byteLen_eq_zero (l : List Char) : byteLen l = 0 ↔ l = [] := by
  cases l with
  | nil => simp [byteLen]
  | cons c cs =>
    rw [byteLen_cons]
    have := Char.utf8Size_pos c
    simp
    omega

theorem len_eq_zero (s : String) : len s = 0 ↔ s.data = [] := by
  rw [len_eq_byteLen]
  rw [← byteLen_eq_zero]
  omega

theorem time_Parse_date (date : List Char) (hd : isDateText date) :
    (realDate (dateOf date) → time.Parse ⟨date⟩ = some (dateOf date)) ∧
    (¬ realDate (dateOf date) → time.Parse ⟨date⟩ = none) := by
  obtain ⟨y1, y2, y3, y4, m1, m2, d1, d2, rfl, h1, h2, h3, h4, h5, h6, h7, h8⟩ := hd
  unfold realDate
  simp only [time.Parse, h1, h2, h3, h4, h5, h6, h7, h8, and_self, if_true, dateOf,
    List.take, List.drop]
  constructor
  · rintro ⟨a1, a2, a3, a4⟩
    rw [if_neg (by omega), if_neg (by omega)]
  · intro hn
    by_cases hm : digitsNat [m1, m2] < 1 ∨ 12 < digitsNat [m1, m2]
    · rw [if_pos hm]
    · rw [if_neg hm, if_pos]
      by_contra hc
      exact hn ⟨by omega, by omega, by omega, by omega⟩

theorem conflictSuffixText_len (date : List Char) (g : Option (List Char)) :
    ¬ len (conflictSuffixText date g) = 0 := by
  rw [len_eq_zero]
  cases g <;> simp [conflictSuffixText]

/-- The suffix parser on a text of the first form. -/
theorem ParseSuffix_plain (date : List Char) (hd : isDateText date) :
    (realDate (dateOf date) →
      ParseImplicitTeamDisplayNameSuffix (conflictSuffixText date none) =
        .ok ⟨1, keybase1.ToTime (dateOf date)⟩) ∧
    (¬ realDate (dateOf date) →
      ∃ e, ParseImplicitTeamDisplayNameSuffix (conflictSuffixText date none) = .error e) := by
  obtain ⟨p1, p2⟩ := time_Parse_date date hd
  unfold ParseImplicitTeamDisplayNameSuffix
  rw [if_neg (conflictSuffixText_len date none), FindStringSubmatch_plain date hd]
  constructor
  · intro hr
    simp only [p1 hr]
    rw [if_pos (by decide)]
  · intro hr
    simp only [p2 hr]
    exact ⟨_, rfl⟩

/-- The suffix parser on a text of the second form. -/
theorem ParseSuffix_generation (date n : List Char) (hd : isDateText date)
    (hne : n ≠ []) (hn : ∀ c ∈ n, c.isDigit = true) :
    (∀ g : Int, realDate (dateOf date) → strconv.Atoi ⟨n⟩ = some g → 0 < g →
      ParseImplicitTeamDisplayNameSuffix (conflictSuffixText date (some n)) =
        .ok ⟨g, keybase1.ToTime (dateOf date)⟩) ∧
    (¬ (realDate (dateOf date) ∧ ∃ g : Int, strconv.Atoi ⟨n⟩ = some g ∧ 0 < g) →
      ∃ e, ParseImplicitTeamDisplayNameSuffix (conflictSuffixText date (some n)) = .error e) := by
  obtain ⟨p1, p2⟩ := time_Parse_date date hd
  have hl : ¬ len (⟨n⟩ : String) = 0 := by
    rw [len_eq_zero]
    exact hne
  unfold ParseImplicitTeamDisplayNameSuffix
  rw [if_neg (conflictSuffixText_len date (some n)), FindStringSubmatch_generation date n hd hne hn]
  constructor
  · intro g hr ha hg
    simp only [p1 hr, ha]
    rw [if_neg hl, if_neg (by omega)]
  · intro hnot
    by_cases hr : realDate (dateOf date)
    · simp only [p1 hr]
      rw [if_neg hl]
      cases ha : strconv.Atoi ⟨n⟩ with
      | none => exact ⟨_, rfl⟩
      | some g =>
        simp only
        by_cases hg : g ≤ 0
        · rw [if_pos hg]
          exact ⟨_, rfl⟩
        · exact absurd ⟨hr, g, ha, by omega⟩ hnot
    · simp only [p2 hr]
      exact ⟨_, rfl⟩

theorem ParseSuffix_no_match (s : String)
    (h : implicitTeamDisplayNameConflictRxx.FindStringSubmatch s = []) :
    ∃ e, ParseImplicitTeamDisplayNameSuffix s = .error e := by
  unfold ParseImplicitTeamDisplayNameSuffix
  rw [h]
  split_ifs <;> exact ⟨_, rfl⟩

/-- The suffixes that the suffix parser accepts, and what it returns. -/
theorem ParseSuffix_ok_iff (s : String) (info : keybase1.ImplicitTeamConflictInfo) :
    ParseImplicitTeamDisplayNameSuffix s = .ok info ↔
      ∃ date, isDateText date ∧ realDate (dateOf date) ∧
        info.Time = keybase1.ToTime (dateOf date) ∧
        ((s = conflictSuffixText date none ∧ info.Generation = 1) ∨
         (∃ n, n ≠ [] ∧ (∀ c ∈ n, c.isDigit = true) ∧ s = conflictSuffixText date (some n) ∧
            strconv.Atoi ⟨n⟩ = some info.Generation ∧ 0 < info.Generation)) := by
  constructor
  · intro h
    rcases FindStringSubmatch_cases s with h0 | ⟨date, hd, rfl⟩ | ⟨date, n, hd, hne, hn, rfl⟩
    · obtain ⟨e, he⟩ := ParseSuffix_no_match s h0
      rw [he] at h
      cases h
    · obtain ⟨p1, p2⟩ := ParseSuffix_plain date hd
      by_cases hr : realDate (dateOf date)
      · rw [p1 hr] at h
        simp only [Except.ok.injEq] at h
        subst h
        exact ⟨date, hd, hr, rfl, Or.inl ⟨rfl, rfl⟩⟩
      · obtain ⟨e, he⟩ := p2 hr
        rw [he] at h
        cases h
    · obtain ⟨p1, p2⟩ := ParseSuffix_generation date n hd hne hn
      by_cases hr : realDate (dateOf date) ∧ ∃ g : Int, strconv.Atoi ⟨n⟩ = some g ∧ 0 < g
      · obtain ⟨hr1, g, ha, hg⟩ := hr
        rw [p1 g hr1 ha hg] at h
        simp only [Except.ok.injEq] at h
        subst h
        exact ⟨date, hd, hr1, rfl, Or.inr ⟨n, hne, hn, rfl, ha, hg⟩⟩
      · obtain ⟨e, he⟩ := p2 hr
        rw [he] at h
        cases h
  · rintro ⟨date, hd, hr, ht, ⟨rfl, hg⟩ | ⟨n, hne, hn, rfl, ha, hg⟩⟩
    · rw [(ParseSuffix_plain date hd).1 hr]
      cases info
      simp only at ht hg
      rw [ht, hg]
    · rw [(ParseSuffix_generation date n hd hne hn).1 _ hr ha hg]
      cases info
      simp only at ht
      rw [ht]

/-! ### Decimal digits -/

theorem digit_of_lt (k : Nat) (h : k < 10) :
    (Char.ofNat (48 + k)).isDigit = true ∧ (Char.ofNat (48 + k)).toNat - 48 = k := by
  have key : ∀ n : Fin 10,
      (Char.ofNat (48 + n.val)).isDigit = true ∧ (Char.ofNat (48 + n.val)).toNat - 48 = n.val := by
    decide
  exact key ⟨k, h⟩

theorem isDigit_ascii (c : Char) (h : c.isDigit = true) : c.val ≤ 0x7f := by
  simp only [Char.isDigit, Bool.and_eq_true, decide_eq_true_eq] at h
  have : c.val.toNat ≤ 57 := h.2
  show c.val.toNat ≤ 127
  omega

theorem digit_of_isDigit (c : Char) (h : c.isDigit = true) :
    c.toNat - 48 < 10 ∧ Char.ofNat (48 + (c.toNat - 48)) = c := by
  obtain ⟨n, rfl⟩ := char_eq_ofNat_of_ascii c (isDigit_ascii c h)
  revert h n
  decide

theorem decimalDigits_succ (fuel n : Nat) :
    decimalDigits (fuel + 1) n =
      if n < 10 then [Char.ofNat (48 + n)]
      else decimalDigits fuel (n / 10) ++ [Char.ofNat (48 + n % 10)] := rfl

/-- More fuel than the number does not change the digits. -/
theorem decimalDigits_fuel (n : Nat) :
    ∀ fuel, n < fuel → decimalDigits fuel n = decimalDigits (n + 1) n := by
  induction n using Nat.strong_induction_on with
  | _ n ih =>
    intro fuel hf
    obtain ⟨f, rfl⟩ : ∃ f, fuel = f + 1 := ⟨fuel - 1, by omega⟩
    rw [decimalDigits_succ, decimalDigits_succ]
    by_cases h : n < 10
    · rw [if_pos h, if_pos h]
    · rw [if_neg h, if_neg h]
      have h1 : n / 10 < n := Nat.div_lt_self (by omega) (by omega)
      rw [ih (n / 10) h1 f (by omega), ih (n / 10) h1 n h1]

/-- The recursion of the decimal digits of a number. -/
theorem decimalDigits_eq (n : Nat) :
    decimalDigits (n + 1) n =
      if n < 10 then [Char.ofNat (48 + n)]
      else decimalDigits (n / 10 + 1) (n / 10) ++ [Char.ofNat (48 + n % 10)] := by
  rw [decimalDigits_succ]
  by_cases h : n < 10
  · rw [if_pos h, if_pos h]
  · rw [if_neg h, if_neg h]
    have h1 : n / 10 < n := Nat.div_lt_self (by omega) (by omega)
    rw [decimalDigits_fuel (n / 10) n h1]

theorem decimalDigits_isDigit (n : Nat) :
    decimalDigits (n + 1) n ≠ [] ∧ ∀ c ∈ decimalDigits (n + 1) n, c.isDigit = true := by
  induction n using Nat.strong_induction_on with
  | _ n ih =>
    rw [decimalDigits_eq]
    by_cases h : n < 10
    · rw [if_pos h]
      simp [(digit_of_lt n h).1]
    · rw [if_neg h]
      have h1 : n / 10 < n := Nat.div_lt_self (by omega) (by omega)
      obtain ⟨_, i2⟩ := ih (n / 10) h1
      refine ⟨by simp, ?_⟩
      intro c hc
      simp only [List.mem_append, List.mem_singleton] at hc
      rcases hc with hc | rfl
      · exact i2 c hc
      · exact (digit_of_lt (n % 10) (Nat.mod_lt _ (by omega))).1

theorem digitsValue_append (l : List Char) (c : Char) :
    ∀ acc, digitsValue (l ++ [c]) acc =
      (digitsValue l acc).bind (fun v => if c.isDigit then some (v * 10 + (c.toNat - 48)) else none) := by
  induction l with
  | nil => intro acc; simp [digitsValue]
  | cons x xs ih =>
    intro acc
    rw [List.cons_append, digitsValue, digitsValue]
    by_cases hx : x.isDigit = true
    · rw [if_pos hx, if_pos hx]
      exact ih _
    · rw [if_neg hx, if_neg hx]
      rfl

/-- Reading the decimal digits of a number gives the number back. -/
theorem digitsValue_decimalDigits (n : Nat) :
    digitsValue (decimalDigits (n + 1) n) 0 = some n := by
  induction n using Nat.strong_induction_on with
  | _ n ih =>
    rw [decimalDigits_eq]
    by_cases h : n < 10
    · rw [if_pos h]
      obtain ⟨d1, d2⟩ := digit_of_lt n h
      simp [digitsValue, d1, d2]
    · rw [if_neg h]
      have h1 : n / 10 < n := Nat.div_lt_self (by omega) (by omega)
      obtain ⟨d1, d2⟩ := digit_of_lt (n % 10) (Nat.mod_lt _ (by omega))
      rw [digitsValue_append, ih (n / 10) h1]
      simp only [Option.some_bind, d1, if_true, d2, Option.some.injEq]
      omega

theorem digitsNat_append (l : List Char) (c : Char) :
    digitsNat (l ++ [c]) = digitsNat l * 10 + (c.toNat - 48) := by
  simp [digitsNat, List.foldl_append]

/-- Padding the number that digits write to their count gives the digits
back. -/
theorem zeroPad_digitsNat (l : List Char) (hl : ∀ c ∈ l, c.isDigit = true) (hne : l ≠ []) :
    zeroPad l.length (digitsNat l) = l ∧
      (decimalDigits (digitsNat l + 1) (digitsNat l)).length ≤ l.length := by
  induction l using List.reverseRecOn with
  | nil => exact absurd rfl hne
  | append_singleton l c ih =>
    have hc := hl c (by simp)
    obtain ⟨c1, c2⟩ := digit_of_isDigit c hc
    rw [digitsNat_append]
    by_cases hnil : l = []
    · subst hnil
      have : digitsNat [] = 0 := rfl
      simp only [this, Nat.zero_mul, Nat.zero_add, List.nil_append, List.length_singleton]
      unfold zeroPad
      rw [decimalDigits_eq, if_pos c1, c2]
      simp
    · obtain ⟨i1, i2⟩ := ih (fun d hd => hl d (by simp [hd])) hnil
      unfold zeroPad at i1 ⊢
      by_cases hv : digitsNat l = 0
      · rw [hv] at i1 i2 ⊢
        have hd0 : decimalDigits (0 + 1) 0 = ['0'] := by decide
        rw [hd0] at i1
        simp only [Nat.zero_mul, Nat.zero_add, List.length_append, List.length_singleton]
        rw [decimalDigits_eq, if_pos c1, c2]
        have hlen : 1 ≤ l.length := by
          cases l with
          | nil => exact absurd rfl hnil
          | cons _ _ => simp
        have hrep : List.replicate l.length '0' = l := by
          conv_rhs => rw [← i1]
          simp only [List.length_singleton]
          obtain ⟨k, hk⟩ : ∃ k, l.length = k + 1 := ⟨l.length - 1, by omega⟩
          rw [hk, List.replicate_succ']
          simp
        simp only [List.length_singleton, Nat.add_sub_cancel, hrep]
        exact ⟨trivial, by omega⟩
      · have hge : ¬ digitsNat l * 10 + (c.toNat - 48) < 10 := by omega
        have hdiv : (digitsNat l * 10 + (c.toNat - 48)) / 10 = digitsNat l := by omega
        have hmod : (digitsNat l * 10 + (c.toNat - 48)) % 10 = c.toNat - 48 := by omega
        rw [decimalDigits_eq, if_neg hge, hdiv, hmod, c2]
        simp only [List.length_append, List.length_singleton, Nat.add_sub_add_right]
        rw [← List.append_assoc, i1]
        exact ⟨rfl, by omega⟩

theorem digit_not_sign (c : Char) (h : c.isDigit = true) : ¬ (c = '+' ∨ c = '-') := by
  rintro (rfl | rfl) <;> exact absurd h (by decide)

/-- `Atoi` on digits that write a number within the range of `int`. -/
theorem Atoi_digits (c : Char) (cs : List Char) (v : Nat) (hc : c.isDigit = true)
    (hv : digitsValue (c :: cs) 0 = some v) (hmax : (v : Int) ≤ 9223372036854775807) :
    strconv.Atoi ⟨c :: cs⟩ = some (v : Int) := by
  have hsign := digit_not_sign c hc
  have hminus : ¬ c = '-' := fun h => hsign (Or.inr h)
  have hnonneg : (0 : Int) ≤ (v : Int) := Int.ofNat_nonneg v
  unfold strconv.Atoi
  simp only []
  rw [if_neg hsign, if_neg (List.cons_ne_nil _ _), hv]
  simp only [decide_eq_true_eq, if_neg hminus]
  rw [if_pos ⟨by omega, hmax⟩]

/-- `Atoi` on the decimal rendering of a positive `int` gives it back. -/
theorem Atoi_fmt_int (g : Int) (h0 : 0 < g) (h1 : g ≤ 9223372036854775807) :
    strconv.Atoi (fmt.int g) = some g ∧ (fmt.int g).data ≠ [] ∧
      ∀ c ∈ (fmt.int g).data, c.isDigit = true := by
  obtain ⟨k, rfl⟩ : ∃ k : Nat, g = Int.ofNat k := ⟨g.toNat, by simp; omega⟩
  obtain ⟨hne, hdig⟩ := decimalDigits_isDigit k
  have hv := digitsValue_decimalDigits k
  refine ⟨?_, hne, hdig⟩
  show strconv.Atoi ⟨decimalDigits (k + 1) k⟩ = some (Int.ofNat k)
  obtain ⟨c, cs, hcs⟩ := List.exists_cons_of_ne_nil hne
  have hc : c.isDigit = true := hdig c (by rw [hcs]; exact List.mem_cons_self _ _)
  rw [hcs] at hv ⊢
  exact Atoi_digits c cs k hc hv h1

theorem Atoi_le (s : String) (g : Int) (h : strconv.Atoi s = some g) :
    g ≤ 9223372036854775807 := by
  unfold strconv.Atoi at h
  cases hd : s.data with
  | nil => rw [hd] at h; cases h
  | cons c cs =>
    rw [hd] at h
    simp only [] at h
    by_cases hr : (if c = '+' ∨ c = '-' then cs else c :: cs) = []
    · rw [if_pos hr] at h; cases h
    · rw [if_neg hr] at h
      cases hv : digitsValue (if c = '+' ∨ c = '-' then cs else c :: cs) 0 with
      | none => rw [hv] at h; cases h
      | some v =>
        rw [hv] at h
        simp only [] at h
        by_cases hb : (-9223372036854775808 ≤ (if decide (c = '-') = true then -(v : Int) else (v : Int))) ∧
            (if decide (c = '-') = true then -(v : Int) else (v : Int)) ≤ 9223372036854775807
        · rw [if_pos hb] at h
          simp only [Option.some.injEq] at h
          rw [← h]
          exact hb.2
        · rw [if_neg hb] at h; cases h

/-- Formatting the date that a date text writes gives the text back. -/
theorem Format_dateOf (date : List Char) (hd : isDateText date) :
    (dateOf date).Format = ⟨date⟩ := by
  obtain ⟨y1, y2, y3, y4, m1, m2, d1, d2, rfl, h1, h2, h3, h4, h5, h6, h7, h8⟩ := hd
  have hy := (zeroPad_digitsNat [y1, y2, y3, y4] (by simp [h1, h2, h3, h4]) (by simp)).1
  have hm := (zeroPad_digitsNat [m1, m2] (by simp [h5, h6]) (by simp)).1
  have hday := (zeroPad_digitsNat [d1, d2] (by simp [h7, h8]) (by simp)).1
  simp only [List.length_cons, List.length_nil] at hy hm hday
  simp only [time.Time.Format, dateOf, List.take, List.drop]
  rw [hy, hm, hday]
  rfl

theorem Format_suffix_eq (info : keybase1.ImplicitTeamConflictInfo) :
    FormatImplicitTeamDisplayNameSuffix info =
      conflictSuffixText info.Time.Time.Format.data (some (fmt.int info.Generation).data) := by
  apply String.ext
  simp [FormatImplicitTeamDisplayNameSuffix, conflictSuffixText, String.data_append]

/-! ## Conflict suffixes: the accepted texts, and formatting after parsing -/

theorem ParseSuffix_error_kind (s : String) (e : Error)
    (h : ParseImplicitTeamDisplayNameSuffix s = .error e) :
    ∃ format args, e = .ImplicitTeamDisplayNameError format args := by
  unfold ParseImplicitTeamDisplayNameSuffix at h
  split_ifs at h
  · cases h; exact ⟨_, _, rfl⟩
  · split at h
    · cases h; exact ⟨_, _, rfl⟩
    · split at h
      · cases h; exact ⟨_, _, rfl⟩
      · split_ifs at h
        split at h
        · cases h; exact ⟨_, _, rfl⟩
        · split_ifs at h
          cases h; exact ⟨_, _, rfl⟩
    · cases h; exact ⟨_, _, rfl⟩

/-- The display-name parser on a name with a second part after the first
space, the writers and the readers being accepted. -/
theorem displayName_suffix (env : Collaborators) (ctx : AssertionContext) (s : String)
    (isPublic : Bool) (a suf wp : String) (rps : List String)
    (writers : keybase1.ImplicitTeamUserSet) (seen : Seen)
    (readers : keybase1.ImplicitTeamUserSet)
    (h1 : strings.SplitN (strings.ToLower s) ' ' 2 = [a, suf])
    (h2 : strings.Split a '#' = wp :: rps)
    (hw : parseImplicitTeamUserSet env ctx wp (fun _ => false) = (.ok writers, seen))
    (hn : writers.NumTotalUsers ≠ 0)
    (hr : (rps = [] ∧ readers = ⟨[], []⟩) ∨
      ∃ rp, rps = [rp] ∧ (parseImplicitTeamUserSet env ctx rp seen).1 = .ok readers) :
    ParseImplicitTeamDisplayName env ctx s isPublic =
      if len suf = 0 then .error (.ImplicitTeamDisplayNameError "empty suffix" [])
      else
        match ParseImplicitTeamDisplayNameSuffix suf with
        | .error err => .error err
        | .ok info => .ok ⟨isPublic, some info, writers, readers⟩ := by
  unfold ParseImplicitTeamDisplayName
  simp only []
  rw [h1]
  simp only []
  rw [h2]
  have h4 : ¬ (wp :: rps).length > 2 := by
    rcases hr with ⟨rfl, _⟩ | ⟨rp, rfl, _⟩ <;> simp
  rw [if_neg h4]
  simp only []
  rw [hw]
  simp only []
  rw [if_neg hn]
  rcases hr with ⟨rfl, rfl⟩ | ⟨rp, rfl, hr⟩
  · simp only []
    split_ifs
    · rfl
    · cases ParseImplicitTeamDisplayNameSuffix suf <;> rfl
  · simp only []
    rw [hr]
    simp only []
    split_ifs
    · rfl
    · cases ParseImplicitTeamDisplayNameSuffix suf <;> rfl

/-- C18: the suffix parser accepts exactly the texts `(conflicted DATE)` and
`(conflicted DATE #N)` with `DATE` ten characters `YYYY-MM-DD` that write a
real calendar date and `N` digits that `Atoi` reads as a positive `int`; the
generation is that number, or 1 without `#N`, and the time is the date;
`#0` is rejected; every error of the suffix parser is a display-name error.
A display name whose writers and readers are accepted and that has a second
part after the first space fails with `empty suffix` when that part is empty
and otherwise with the error of the suffix parser when it rejects the part;
so `alice,bob ()` fails with the malformed-suffix error and `alice,bob `
with the empty-suffix error. -/
theorem C18_conflict_suffix_accepted_exactly :
    (∀ (s : String) (info : keybase1.ImplicitTeamConflictInfo),
      ParseImplicitTeamDisplayNameSuffix s = .ok info ↔
        ∃ date, isDateText date ∧ realDate (dateOf date) ∧
          info.Time = keybase1.ToTime (dateOf date) ∧
          ((s = conflictSuffixText date none ∧ info.Generation = 1) ∨
           (∃ n, n ≠ [] ∧ (∀ c ∈ n, c.isDigit = true) ∧
              s = conflictSuffixText date (some n) ∧
              strconv.Atoi ⟨n⟩ = some info.Generation ∧ 0 < info.Generation))) ∧
    (∀ date, isDateText date →
      ∃ e, ParseImplicitTeamDisplayNameSuffix (conflictSuffixText date (some ['0'])) =
        .error e) ∧
    (∀ (s : String) (e : Error), ParseImplicitTeamDisplayNameSuffix s = .error e →
      ∃ format args, e = .ImplicitTeamDisplayNameError format args) ∧
    (∀ (env : Collaborators) (ctx : AssertionContext) (s : String) (isPublic : Bool)
      (a suf wp : String) (rps : List String) (writers : keybase1.ImplicitTeamUserSet)
      (seen : Seen) (readers : keybase1.ImplicitTeamUserSet),
      strings.SplitN (strings.ToLower s) ' ' 2 = [a, suf] →
      strings.Split a '#' = wp :: rps →
      parseImplicitTeamUserSet env ctx wp (fun _ => false) = (.ok writers, seen) →
      writers.NumTotalUsers ≠ 0 →
      ((rps = [] ∧ readers = ⟨[], []⟩) ∨
        ∃ rp, rps = [rp] ∧ (parseImplicitTeamUserSet env ctx rp seen).1 = .ok readers) →
      (len suf = 0 →
        ParseImplicitTeamDisplayName env ctx s isPublic =
          .error (.ImplicitTeamDisplayNameError "empty suffix" [])) ∧
      (len suf ≠ 0 → ∀ e, ParseImplicitTeamDisplayNameSuffix suf = .error e →
        ParseImplicitTeamDisplayName env ctx s isPublic = .error e)) ∧
    ParseImplicitTeamDisplayName sampleEnv sampleCtx "alice,bob ()" false =
      .error (.ImplicitTeamDisplayNameError "malformed suffix: '%s'" ["()"]) ∧
    ParseImplicitTeamDisplayName sampleEnv sampleCtx "alice,bob " false =
      .error (.ImplicitTeamDisplayNameError "empty suffix" []) := by
  refine ⟨ParseSuffix_ok_iff, ?_, ParseSuffix_error_kind, ?_, by decide, by decide⟩
  · intro date hd
    refine (ParseSuffix_generation date ['0'] hd (by simp) (by simp)).2 ?_
    rintro ⟨_, g, hg, hpos⟩
    have h0 : strconv.Atoi ⟨['0']⟩ = some 0 := by decide
    rw [h0] at hg
    simp only [Option.some.injEq] at hg
    omega
  · intro env ctx s isPublic a suf wp rps writers seen readers h1 h2 hw hn hr
    have h := displayName_suffix env ctx s isPublic a suf wp rps writers seen readers
      h1 h2 hw hn hr
    constructor
    · intro h0
      rw [h, if_pos h0]
    · intro h0 e he
      rw [h, if_neg h0, he]

/-- C18 applied to `(conflicted 2020-02-29 #2)` and to
`(conflicted 2020-02-29 #0)`; the display-name parser hands the suffix over
lowercased, so it accepts `alice (confl\u0130cted 2017-03-04)`, whose
dotted capital I has the lower-case form `i`. -/
theorem C18_conflict_suffix_accepted_exactly_witness :
    ParseImplicitTeamDisplayNameSuffix "(conflicted 2020-02-29 #2)" =
      .ok ⟨2, keybase1.ToTime ⟨2020, 2, 29⟩⟩ ∧
    (∃ e, ParseImplicitTeamDisplayNameSuffix "(conflicted 2020-02-29 #0)" = .error e) ∧
    ParseImplicitTeamDisplayName sampleEnv sampleCtx "alice (confl\u0130cted 2017-03-04)" false =
      .ok ⟨false, some ⟨1, keybase1.ToTime ⟨2017, 3, 4⟩⟩, ⟨["alice"], []⟩, ⟨[], []⟩⟩ :=
  ⟨(C18_conflict_suffix_accepted_exactly.1 "(conflicted 2020-02-29 #2)"
      ⟨2, keybase1.ToTime ⟨2020, 2, 29⟩⟩).2
      ⟨"2020-02-29".data,
        ⟨'2', '0', '2', '0', '0', '2', '2', '9', rfl, by decide, by decide, by decide,
          by decide, by decide, by decide, by decide, by decide⟩,
        by decide, by decide,
        Or.inr ⟨['2'], by decide, by decide, by decide, by decide, by decide⟩⟩,
   C18_conflict_suffix_accepted_exactly.2.1 "2020-02-29".data
      ⟨'2', '0', '2', '0', '0', '2', '2', '9', rfl, by decide, by decide, by decide,
        by decide, by decide, by decide, by decide, by decide⟩,
   by decide⟩

theorem ToTime_Time (t : time.Time) : (keybase1.ToTime t).Time = t := rfl

/-- C19: for every suffix `s` the parser accepts, with result `info`, the
formatter writes `(conflicted D #G)` where `D` is the date text of `s` and
`G` the decimal rendering of the generation, which `Atoi` reads back as the
generation; and the parser on that output returns `info` again. -/
theorem C19_format_after_parse (s : String) (info : keybase1.ImplicitTeamConflictInfo)
    (h : ParseImplicitTeamDisplayNameSuffix s = .ok info) :
    (∃ date, isDateText date ∧
      (s = conflictSuffixText date none ∨
        ∃ n, n ≠ [] ∧ (∀ c ∈ n, c.isDigit = true) ∧ s = conflictSuffixText date (some n)) ∧
      FormatImplicitTeamDisplayNameSuffix info =
        conflictSuffixText date (some (fmt.int info.Generation).data)) ∧
    strconv.Atoi (fmt.int info.Generation) = some info.Generation ∧
    ParseImplicitTeamDisplayNameSuffix (FormatImplicitTeamDisplayNameSuffix info) = .ok info := by
  obtain ⟨date, hd, hr, ht, hcase⟩ := (ParseSuffix_ok_iff s info).1 h
  have hpos : 0 < info.Generation ∧ info.Generation ≤ 9223372036854775807 := by
    rcases hcase with ⟨_, hg⟩ | ⟨n, _, _, _, ha, hg⟩
    · rw [hg]
      decide
    · exact ⟨hg, Atoi_le _ _ ha⟩
  obtain ⟨hatoi, hne, hdig⟩ := Atoi_fmt_int info.Generation hpos.1 hpos.2
  have hfmt : FormatImplicitTeamDisplayNameSuffix info =
      conflictSuffixText date (some (fmt.int info.Generation).data) := by
    rw [Format_suffix_eq, ht, ToTime_Time, Format_dateOf date hd]
  refine ⟨⟨date, hd, ?_, hfmt⟩, hatoi, ?_⟩
  · rcases hcase with ⟨hs, _⟩ | ⟨n, hn1, hn2, hs, _, _⟩
    · exact Or.inl hs
    · exact Or.inr ⟨n, hn1, hn2, hs⟩
  · rw [hfmt, (ParseSuffix_generation date (fmt.int info.Generation).data hd hne hdig).1
      info.Generation hr hatoi hpos.1, ← ht]

/-- C19 applied to `(conflicted 2020-01-01)`: generation 1, written back as
`(conflicted 2020-01-01 #1)`, which parses to the same value. -/
theorem C19_format_after_parse_witness :
    ParseImplicitTeamDisplayNameSuffix "(conflicted 2020-01-01)" =
      .ok ⟨1, keybase1.ToTime ⟨2020, 1, 1⟩⟩ ∧
    FormatImplicitTeamDisplayNameSuffix ⟨1, keybase1.ToTime ⟨2020, 1, 1⟩⟩ =
      "(conflicted 2020-01-01 #1)" ∧
    ParseImplicitTeamDisplayNameSuffix
      (FormatImplicitTeamDisplayNameSuffix ⟨1, keybase1.ToTime ⟨2020, 1, 1⟩⟩) =
      .ok ⟨1, keybase1.ToTime ⟨2020, 1, 1⟩⟩ :=
  ⟨by decide, by decide,
   (C19_format_after_parse "(conflicted 2020-01-01)" ⟨1, keybase1.ToTime ⟨2020, 1, 1⟩⟩
      (by decide)).2.2⟩

/-! ## TLF names -/

theorem splitOn_length (a : Char) (l : List Char) : (l.splitOn a).length = l.count a + 1 := by
  unfold List.splitOn
  induction l with
  | nil => simp [List.splitOnP_nil]
  | cons x xs ih =>
    rw [List.splitOnP_cons]
    by_cases hx : x = a
    · subst hx
      simp [ih]
    · have hne : (x == a) = false := by simpa using hx
      rw [hne]
      simp only [Bool.false_eq_true, if_false]
      rw [List.count_cons_of_ne (fun h => hx h.symm), ← ih]
      cases h : List.splitOnP (fun x => x == a) xs with
      | nil => rfl
      | cons y ys => rfl

theorem count_slash_ToLower (l : List Char) :
    (l.map unicode.ToLower).count '/' = l.count '/' := by
  induction l with
  | nil => rfl
  | cons x xs ih =>
    rw [List.map_cons]
    by_cases hx : x = '/'
    · subst hx
      have h0 : unicode.ToLower '/' = '/' := by decide
      rw [h0, List.count_cons_self, List.count_cons_self, ih]
    · have h1 : unicode.ToLower x ≠ '/' :=
        fun h => hx (ToLower_eq_delimiter x '/' (Or.inr (Or.inr rfl)) h)
      rw [List.count_cons_of_ne (fun h => h1 h.symm), List.count_cons_of_ne (fun h => hx h.symm), ih]

/-- The number of pieces of the lowercased text between slashes. -/
theorem Split_slash_length (s : String) :
    ((strings.Split (strings.ToLower s) '/').length : Int) = strings.Count s '/' + 1 := by
  unfold strings.Split strings.ToLower strings.Count
  rw [List.length_map, splitOn_length, count_slash_ToLower]
  push_cast
  rfl

theorem TLFName_of_length_ne (env : Collaborators) (ctx : AssertionContext) (s : String)
    (h : (strings.Split (strings.ToLower s) '/').length ≠ 4) :
    ParseImplicitTeamTLFName env ctx s =
      .error (.Errorf "Invalid team TLF name, must have four parts" []) := by
  unfold ParseImplicitTeamTLFName
  simp only []
  split
  · rename_i p0 p1 p2 p3 heq
    rw [heq] at h
    exact absurd rfl h
  · rfl

/-- C20: the TLF-name parser lowercases `s` and splits it at `/`, the
number of pieces being the number of slashes of `s` plus one; unless there
are exactly four pieces it fails (`must have four parts`); with four pieces
it fails (`Invalid team TLF name`) unless the first is empty, the second
`keybase` and the third `private` or `public`, and otherwise it returns what
the display-name parser returns on the fourth piece, value or error, with
`isPublic` true exactly when the third piece is `public`.  So a name with a
slash after `/keybase/private/` or `/keybase/public/` is rejected. -/
theorem C20_TLF_name_parsing (env : Collaborators) (ctx : AssertionContext) (s : String) :
    ((strings.Split (strings.ToLower s) '/').length : Int) = strings.Count s '/' + 1 ∧
    ((strings.Split (strings.ToLower s) '/').length ≠ 4 →
      ParseImplicitTeamTLFName env ctx s =
        .error (.Errorf "Invalid team TLF name, must have four parts" [])) ∧
    (∀ p0 p1 p2 p3 : String, strings.Split (strings.ToLower s) '/' = [p0, p1, p2, p3] →
      (¬ (p0 = "" ∧ p1 = "keybase" ∧ (p2 = "private" ∨ p2 = "public")) →
        ParseImplicitTeamTLFName env ctx s = .error (.Errorf "Invalid team TLF name" [])) ∧
      (p0 = "" ∧ p1 = "keybase" ∧ (p2 = "private" ∨ p2 = "public") →
        ParseImplicitTeamTLFName env ctx s =
          ParseImplicitTeamDisplayName env ctx p3 (decide (p2 = "public")))) ∧
    (∀ name : String, s = "/keybase/private/" ++ name ∨ s = "/keybase/public/" ++ name →
      '/' ∈ name.data →
      ParseImplicitTeamTLFName env ctx s =
        .error (.Errorf "Invalid team TLF name, must have four parts" [])) := by
  refine ⟨Split_slash_length s, TLFName_of_length_ne env ctx s, ?_, ?_⟩
  · intro p0 p1 p2 p3 hsplit
    constructor
    · intro hc
      unfold ParseImplicitTeamTLFName
      simp only []
      rw [hsplit]
      simp only []
      rw [if_pos]
      by_contra hn
      apply hc
      simp only [not_or, not_and, ne_eq, not_not] at hn
      obtain ⟨h0, h1, h2⟩ := hn
      refine ⟨h0, h1, ?_⟩
      by_cases hp : p2 = "private"
      · exact Or.inl hp
      · exact Or.inr (h2 hp)
    · rintro ⟨h0, h1, h2⟩
      unfold ParseImplicitTeamTLFName
      simp only []
      rw [hsplit]
      simp only []
      rw [if_neg]
      simp only [not_or, not_and, ne_eq, not_not]
      refine ⟨h0, h1, ?_⟩
      intro hp
      rcases h2 with h2 | h2
      · exact absurd h2 hp
      · exact h2
  · intro name hs hmem
    apply TLFName_of_length_ne
    have hlen := Split_slash_length s
    have hpos : 0 < name.data.count '/' := List.count_pos_iff.2 hmem
    intro h4
    rw [h4] at hlen
    unfold strings.Count at hlen
    rcases hs with rfl | rfl
    · rw [String.data_append, List.count_append] at hlen
      have h3 : "/keybase/private/".data.count '/' = 3 := by decide
      rw [h3] at hlen
      push_cast at hlen
      omega
    · rw [String.data_append, List.count_append] at hlen
      have h3 : "/keybase/public/".data.count '/' = 3 := by decide
      rw [h3] at hlen
      push_cast at hlen
      omega

/-- C20 applied to `/Keybase/Public/alice,bob#carol`, to
`/keybase/private/alice/bob`, and to `/\u212aeybase/private/alice,bob`,
whose Kelvin sign has the lower-case form `k`. -/
theorem C20_TLF_name_parsing_witness :
    ParseImplicitTeamTLFName sampleEnv sampleCtx "/Keybase/Public/alice,bob#carol" =
      ParseImplicitTeamDisplayName sampleEnv sampleCtx "alice,bob#carol" true ∧
    ParseImplicitTeamDisplayName sampleEnv sampleCtx "alice,bob#carol" true =
      .ok ⟨true, none, ⟨["alice", "bob"], []⟩, ⟨["carol"], []⟩⟩ ∧
    ParseImplicitTeamTLFName sampleEnv sampleCtx "/keybase/private/alice/bob" =
      .error (.Errorf "Invalid team TLF name, must have four parts" []) ∧
    ParseImplicitTeamTLFName sampleEnv sampleCtx "/\u212aeybase/private/alice,bob" =
      ParseImplicitTeamDisplayName sampleEnv sampleCtx "alice,bob" false ∧
    ParseImplicitTeamTLFName sampleEnv sampleCtx "/\u212aeybase/private/alice,bob" =
      .ok ⟨false, none, ⟨["alice", "bob"], []⟩, ⟨[], []⟩⟩ :=
  ⟨((C20_TLF_name_parsing sampleEnv sampleCtx "/Keybase/Public/alice,bob#carol").2.2.1
      "" "keybase" "public" "alice,bob#carol" (by decide)).2 (by decide),
   by decide,
   (C20_TLF_name_parsing sampleEnv sampleCtx "/keybase/private/alice/bob").2.2.2
      "alice/bob" (Or.inl (by decide)) (by decide),
   ((C20_TLF_name_parsing sampleEnv sampleCtx "/\u212aeybase/private/alice,bob").2.2.1
      "" "keybase" "private" "alice,bob" (by decide)).2 (by decide),
   by decide⟩

/-! ## Cached identifiers: what the conversions return -/

/-- C21, what the code does: on a team-name atom whose cached name is nil,
`ToTeamName` returns the nil name when the codec decodes the value, and
what the codec returned beside its error when it fails; the sibling methods
`ToUID` and `ToTeamID` return the decoded identifier when their codec
succeeds. -/
theorem C21_ToTeamName_on_nil_cache (env : Collaborators) (a : AssertionURLBase)
    (name : keybase1.TeamName) (hnil : keybase1.TeamName.IsNil name = true) :
    ((env.TeamNameFromString a.Value).2 = none →
      keybase1.TeamName.IsNil ((AssertionURL.TeamName a name).ToTeamName env) = true) ∧
    ((env.TeamNameFromString a.Value).2 ≠ none →
      (AssertionURL.TeamName a name).ToTeamName env = (env.TeamNameFromString a.Value).1) ∧
    ((env.UIDFromHex a.Value).2 = none →
      (AssertionURL.UID a "").ToUID env = (env.UIDFromHex a.Value).1) ∧
    ((env.TeamIDFromString a.Value).2 = none →
      (AssertionURL.TeamID a "").ToTeamID env = (env.TeamIDFromString a.Value).1) := by
  refine ⟨?_, ?_, ?_, ?_⟩
  · intro h
    simp only [AssertionURL.ToTeamName, AssertionTeamName.ToTeamName, hnil, if_true]
    rcases hr : env.TeamNameFromString a.Value with ⟨tmp, err⟩
    rw [hr] at h
    simp only at h
    subst h
    exact hnil
  · intro h
    simp only [AssertionURL.ToTeamName, AssertionTeamName.ToTeamName, hnil, if_true]
    rcases hr : env.TeamNameFromString a.Value with ⟨tmp, err⟩
    rw [hr] at h
    cases err with
    | none => exact absurd rfl h
    | some e => rfl
  · intro h
    have h0 : keybase1.UID.IsNil "" = true := by decide
    simp only [AssertionURL.ToUID, AssertionUID.ToUID, h0, if_true]
    rcases hr : env.UIDFromHex a.Value with ⟨tmp, err⟩
    rw [hr] at h
    simp only at h
    subst h
    rfl
  · intro h
    have h0 : keybase1.TeamID.IsNil "" = true := by decide
    simp only [AssertionURL.ToTeamID, AssertionTeamID.ToTeamID, h0, if_true]
    rcases hr : env.TeamIDFromString a.Value with ⟨tmp, err⟩
    rw [hr] at h
    simp only at h
    subst h
    rfl

/-- C21 at the atom `team:acme` with no cached name, in the sample
environment, whose codecs decode every value: `ToTeamName` returns the nil
name, not the decoded `acme`; `ToUID` on `uid:acme` returns the decoded
identifier. -/
theorem C21_ToTeamName_on_nil_cache_witness :
    sampleEnv.TeamNameFromString "acme" = ("acme", none) ∧
    keybase1.TeamName.IsNil ((AssertionURL.TeamName ⟨"team", "acme"⟩ "").ToTeamName sampleEnv) =
      true ∧
    (AssertionURL.TeamName ⟨"team", "acme"⟩ "").ToTeamName sampleEnv ≠ "acme" ∧
    (AssertionURL.UID ⟨"uid", "acme"⟩ "").ToUID sampleEnv = "acme" :=
  ⟨rfl,
   (C21_ToTeamName_on_nil_cache sampleEnv ⟨"team", "acme"⟩ "" (by decide)).1 rfl,
   by decide, by decide⟩

/-! ## Implicit team names: at least one writer -/

theorem Split_ne_nil (s : String) (c : Char) : strings.Split s c ≠ [] := by
  unfold strings.Split List.splitOn
  intro h
  have h2 : List.splitOnP (fun x => x == c) s.data = [] := by simpa using h
  exact List.splitOnP_ne_nil _ _ h2

/-- The loop never drops a user. -/
theorem userSet_loop_size (env : Collaborators) (ctx : AssertionContext) (parts : List String) :
    ∀ (ret : keybase1.ImplicitTeamUserSet) (seen : Seen) (r : keybase1.ImplicitTeamUserSet)
      (seen2 : Seen),
    parseImplicitTeamUserSet.loop env ctx parts ret seen = (.ok r, seen2) →
    ret.KeybaseUsers.length + ret.UnresolvedUsers.length ≤
      r.KeybaseUsers.length + r.UnresolvedUsers.length := by
  induction parts with
  | nil =>
    intro ret seen r seen2 h
    simp only [parseImplicitTeamUserSet.loop, Prod.mk.injEq, Except.ok.injEq] at h
    rw [h.1]
  | cons p ps ih =>
    intro ret seen r seen2 h
    rw [parseImplicitTeamUserSet.loop] at h
    cases hp : parseImplicitTeamPart env ctx p with
    | error e =>
      rw [hp] at h
      simp only [Prod.mk.injEq] at h
      exact absurd h.1 (by simp)
    | ok tn =>
      obtain ⟨typ, name⟩ := tn
      rw [hp] at h
      simp only at h
      split_ifs at h
      · exact ih _ _ _ _ h
      · have := ih _ _ _ _ h
        simp only [List.length_append, List.length_singleton] at this
        omega
      · have := ih _ _ _ _ h
        simp only [List.length_append, List.length_singleton] at this
        omega

/-- With nothing seen yet, the first part adds a user. -/
theorem userSet_loop_first (env : Collaborators) (ctx : AssertionContext) (p : String)
    (ps : List String) (r : keybase1.ImplicitTeamUserSet) (seen2 : Seen)
    (h : parseImplicitTeamUserSet.loop env ctx (p :: ps) ⟨[], []⟩ (fun _ => false) =
      (.ok r, seen2)) :
    1 ≤ r.KeybaseUsers.length + r.UnresolvedUsers.length := by
  rw [parseImplicitTeamUserSet.loop] at h
  cases hp : parseImplicitTeamPart env ctx p with
  | error e =>
    rw [hp] at h
    simp only [Prod.mk.injEq] at h
    exact absurd h.1 (by simp)
  | ok tn =>
    obtain ⟨typ, name⟩ := tn
    rw [hp] at h
    simp only [Bool.false_eq_true, if_false] at h
    split_ifs at h
    · have := userSet_loop_size env ctx ps _ _ _ _ h
      simp only [List.nil_append, List.length_singleton, List.length_nil] at this
      omega
    · have := userSet_loop_size env ctx ps _ _ _ _ h
      simp only [List.nil_append, List.length_singleton, List.length_nil] at this
      omega

/-- A user set parsed with nothing seen yet holds at least one user. -/
theorem userSet_nonempty (env : Collaborators) (ctx : AssertionContext) (s : String)
    (u : keybase1.ImplicitTeamUserSet) (seen2 : Seen)
    (h : parseImplicitTeamUserSet env ctx s (fun _ => false) = (.ok u, seen2)) :
    0 < u.NumTotalUsers := by
  obtain ⟨r, hl, hu⟩ := userSet_ok env ctx s _ u seen2 h
  cases hs : strings.Split s ',' with
  | nil => exact absurd hs (Split_ne_nil s ',')
  | cons p ps =>
    rw [hs] at hl
    have h1 := userSet_loop_first env ctx p ps r seen2 hl
    have hk : (sort.Strings r.KeybaseUsers).length = r.KeybaseUsers.length :=
      (sort_Slice_perm id r.KeybaseUsers).length_eq
    have hun : (sort.Slice (fun sa => sa.String env) r.UnresolvedUsers).length =
        r.UnresolvedUsers.length :=
      (sort_Slice_perm _ r.UnresolvedUsers).length_eq
    rw [hu]
    unfold keybase1.ImplicitTeamUserSet.NumTotalUsers
    simp only [hk, hun]
    omega

theorem parseImplicitTeamPart_error_kind (env : Collaborators) (ctx : AssertionContext)
    (s : String) (e : Error) (h : parseImplicitTeamPart env ctx s = .error e) :
    ∀ format args, e ≠ .ImplicitTeamDisplayNameError format args := by
  intro format args he
  subst he
  unfold parseImplicitTeamPart at h
  simp only [] at h
  split_ifs at h
  · cases h
  · cases h
  · split at h <;> cases h

theorem userSet_loop_error (env : Collaborators) (ctx : AssertionContext) (parts : List String) :
    ∀ (ret : keybase1.ImplicitTeamUserSet) (seen : Seen) (e : Error),
    (parseImplicitTeamUserSet.loop env ctx parts ret seen).1 = .error e →
    ∃ p ∈ parts, parseImplicitTeamPart env ctx p = .error e := by
  induction parts with
  | nil =>
    intro ret seen e h
    simp [parseImplicitTeamUserSet.loop] at h
  | cons p ps ih =>
    intro ret seen e h
    rw [parseImplicitTeamUserSet.loop] at h
    cases hp : parseImplicitTeamPart env ctx p with
    | error e2 =>
      rw [hp] at h
      simp only [Except.error.injEq] at h
      exact ⟨p, List.mem_cons_self _ _, by rw [← h, hp]⟩
    | ok tn =>
      obtain ⟨typ, name⟩ := tn
      rw [hp] at h
      simp only at h
      split_ifs at h
      all_goals
        obtain ⟨q, hq, he⟩ := ih _ _ _ h
        exact ⟨q, List.mem_cons_of_mem _ hq, he⟩

/-- The errors of the user-set parser are those of the part parser, none of
them a display-name error. -/
theorem userSet_error_kind (env : Collaborators) (ctx : AssertionContext) (s : String)
    (seen : Seen) (e : Error) (h : (parseImplicitTeamUserSet env ctx s seen).1 = .error e) :
    ∀ format args, e ≠ .ImplicitTeamDisplayNameError format args := by
  unfold parseImplicitTeamUserSet at h
  rcases hl : parseImplicitTeamUserSet.loop env ctx (strings.Split s ',') ⟨[], []⟩ seen with
    ⟨res, s3⟩
  rw [hl] at h
  cases res with
  | ok r => simp at h
  | error e2 =>
    simp only [Except.error.injEq] at h
    subst h
    obtain ⟨p, _, hp⟩ := userSet_loop_error env ctx _ _ _ e2 (by rw [hl])
    exact parseImplicitTeamPart_error_kind env ctx p e2 hp

theorem ParseSuffix_error_ne (s : String) :
    ParseImplicitTeamDisplayNameSuffix s ≠
      .error (.ImplicitTeamDisplayNameError "need at least one writer" []) := by
  intro h
  unfold ParseImplicitTeamDisplayNameSuffix at h
  split_ifs at h
  · exact absurd h (by decide)
  · split at h
    · simp at h
    · split at h
      · simp at h
      · split_ifs at h
        split at h
        · simp at h
        · split_ifs at h
          simp at h
    · simp at h

/-- The display-name parser never reports a lack of writers. -/
theorem displayName_error_ne (env : Collaborators) (ctx : AssertionContext) (s : String)
    (isPublic : Bool) :
    ParseImplicitTeamDisplayName env ctx s isPublic ≠
      .error (.ImplicitTeamDisplayNameError "need at least one writer" []) := by
  intro h
  unfold ParseImplicitTeamDisplayName at h
  simp only at h
  split at h
  · simp at h
  · rename_i assertions conflict _
    split at h
    · simp at h
    · split at h
      · simp at h
      · rename_i writersPart readersParts _
        split at h
        · rename_i err seen1 hw
          simp only [Except.error.injEq] at h
          exact userSet_error_kind env ctx writersPart _ err (by rw [hw]) _ _ h
        · rename_i writers seen1 hw
          split at h
          · rename_i hnum
            have := userSet_nonempty env ctx writersPart writers seen1 hw
            omega
          · split at h
            · rename_i err hr
              simp only [Except.error.injEq] at h
              split at hr
              · exact userSet_error_kind env ctx _ _ err hr _ _ h
              · simp at hr
            · split at h
              · rename_i err hc
                simp only [Except.error.injEq] at h
                subst h
                split at hc
                · simp at hc
                · rename_i suffix _
                  split_ifs at hc
                  · simp at hc
                  · split at hc
                    · rename_i err2 hs
                      simp only [Except.error.injEq] at hc
                      subst hc
                      exact ParseSuffix_error_ne _ hs
                    · simp at hc
              · simp at h

/-- The display name `#bob`: the writers part is empty and the part parser
is asked about the empty username. -/
theorem displayName_empty_writers (env : Collaborators) (ctx : AssertionContext)
    (isPublic : Bool) (h : env.CheckUsername_F "" = false) :
    ParseImplicitTeamDisplayName env ctx "#bob" isPublic =
      .error (.Errorf "Parsed part as keybase username, but invalid username (%q)" [""]) := by
  have h1 : strings.SplitN (strings.ToLower "#bob") ' ' 2 = ["#bob"] := by decide
  have h2 : strings.Split "#bob" '#' = ["", "bob"] := by decide
  have h3 : strings.Split "" ',' = [""] := by decide
  have h4 : parseImplicitTeamPart env ctx "" =
      .error (.Errorf "Parsed part as keybase username, but invalid username (%q)" [""]) := by
    unfold parseImplicitTeamPart
    have hc : strings.Count "" ':' + strings.Count "" '@' = 0 := by decide
    simp only []
    rw [if_neg (by omega), if_pos hc, h]
    rfl
  have h5 : parseImplicitTeamUserSet env ctx "" (fun _ => false) =
      (.error (.Errorf "Parsed part as keybase username, but invalid username (%q)" [""]),
        fun _ => false) := by
    unfold parseImplicitTeamUserSet
    rw [h3]
    simp only [parseImplicitTeamUserSet.loop, h4]
  unfold ParseImplicitTeamDisplayName
  simp only []
  rw [h1]
  simp only []
  rw [h2]
  rw [if_neg (by decide)]
  simp only []
  rw [h5]

/-- C22: whatever the collaborators return, a user set parsed with an empty
map `seen` holds at least one user; the display-name parser never returns
the error `need at least one writer`, and every accepted display name has at
least one writer.  When the username check rejects the empty username, the
name `#bob` fails inside the part parser. -/
theorem C22_no_accepted_name_without_writer (env : Collaborators) (ctx : AssertionContext) :
    (∀ (s : String) (u : keybase1.ImplicitTeamUserSet) (seen2 : Seen),
      parseImplicitTeamUserSet env ctx s (fun _ => false) = (.ok u, seen2) →
      0 < u.NumTotalUsers) ∧
    (∀ (s : String) (isPublic : Bool),
      ParseImplicitTeamDisplayName env ctx s isPublic ≠
        .error (.ImplicitTeamDisplayNameError "need at least one writer" [])) ∧
    (∀ (s : String) (isPublic : Bool) (d : keybase1.ImplicitTeamDisplayName),
      ParseImplicitTeamDisplayName env ctx s isPublic = .ok d →
      0 < d.Writers.NumTotalUsers) ∧
    (∀ isPublic : Bool, env.CheckUsername_F "" = false →
      ParseImplicitTeamDisplayName env ctx "#bob" isPublic =
        .error (.Errorf "Parsed part as keybase username, but invalid username (%q)" [""])) := by
  refine ⟨userSet_nonempty env ctx, displayName_error_ne env ctx, ?_,
    fun isPublic h => displayName_empty_writers env ctx isPublic h⟩
  intro s isPublic d h
  obtain ⟨writersPart, seen1, hw, _, _⟩ := displayName_ok env ctx s isPublic d h
  exact userSet_nonempty env ctx writersPart d.Writers seen1 hw

/-- C22 in the sample environment: `alice,bob#carol` has two writers, and
`#bob` fails inside the part parser. -/
theorem C22_no_accepted_name_without_writer_witness :
    ParseImplicitTeamDisplayName sampleEnv sampleCtx "alice,bob#carol" false =
      .ok ⟨false, none, ⟨["alice", "bob"], []⟩, ⟨["carol"], []⟩⟩ ∧
    0 < (⟨["alice", "bob"], []⟩ : keybase1.ImplicitTeamUserSet).NumTotalUsers ∧
    ParseImplicitTeamDisplayName sampleEnv sampleCtx "#bob" false =
      .error (.Errorf "Parsed part as keybase username, but invalid username (%q)" [""]) :=
  ⟨by decide,
   (C22_no_accepted_name_without_writer sampleEnv sampleCtx).2.2.1 "alice,bob#carol" false
      ⟨false, none, ⟨["alice", "bob"], []⟩, ⟨["carol"], []⟩⟩ (by decide),
   (C22_no_accepted_name_without_writer sampleEnv sampleCtx).2.2.2 false (by decide)⟩

/-! ## Matching: adding proofs -/

/-- Looking keys up in the proof set built from a list of proofs. -/
theorem NewProofSet_Get_eq (ps : List Proof) (ks : List String) :
    (NewProofSet ps).Get ks = ks.flatMap (fun k => ps.filter (fun p => p.Key = k)) := by
  rw [ProofSet.Get, Get_loop_eq, List.nil_append]
  congr 1
  funext k
  rw [NewProofSet, NewProofSet_loop_getD]
  simp

/-- A proof found under some keys is still found after more proofs were
added. -/
theorem NewProofSet_Get_mono (ps extra : List Proof) (ks : List String) (p : Proof)
    (h : p ∈ (NewProofSet ps).Get ks) : p ∈ (NewProofSet (ps ++ extra)).Get ks := by
  rw [NewProofSet_Get_eq] at h ⊢
  simp only [List.mem_flatMap, List.mem_filter, List.mem_append] at h ⊢
  obtain ⟨k, hk, hp, hkey⟩ := h
  exact ⟨k, hk, Or.inl hp, hkey⟩

theorem matchSet_mono (u : AssertionURL) (ps extra : List Proof)
    (h : AssertionURLBase.matchSet u (NewProofSet ps) = true) :
    AssertionURLBase.matchSet u (NewProofSet (ps ++ extra)) = true := by
  rw [AssertionURLBase.matchSet, matchSet_loop_eq_any, List.any_eq_true] at h ⊢
  obtain ⟨p, hp, hm⟩ := h
  exact ⟨p, NewProofSet_Get_mono ps extra _ p hp, hm⟩

mutual
theorem MatchSet_mono (ps extra : List Proof) : ∀ e : AssertionExpression,
    e.MatchSet (NewProofSet ps) = true → e.MatchSet (NewProofSet (ps ++ extra)) = true
  | .Or _ terms => by
    rw [AssertionExpression.MatchSet, AssertionExpression.MatchSet]
    exact Or_MatchSet_loop_mono ps extra terms
  | .And factors => by
    rw [AssertionExpression.MatchSet, AssertionExpression.MatchSet]
    exact And_MatchSet_loop_mono ps extra factors
  | .URL u => by
    rw [AssertionExpression.MatchSet, AssertionExpression.MatchSet]
    exact matchSet_mono u ps extra
theorem Or_MatchSet_loop_mono (ps extra : List Proof) : ∀ ts : List AssertionExpression,
    AssertionOr.MatchSet.loop ts (NewProofSet ps) = true →
    AssertionOr.MatchSet.loop ts (NewProofSet (ps ++ extra)) = true
  | [] => by
    intro h
    simp [AssertionOr.MatchSet.loop] at h
  | t :: ts => by
    intro h
    rw [AssertionOr.MatchSet.loop] at h ⊢
    by_cases ht : t.MatchSet (NewProofSet ps) = true
    · rw [if_pos (MatchSet_mono ps extra t ht)]
    · rw [if_neg ht] at h
      have h2 := Or_MatchSet_loop_mono ps extra ts h
      by_cases ht2 : t.MatchSet (NewProofSet (ps ++ extra)) = true
      · rw [if_pos ht2]
      · rw [if_neg ht2]
        exact h2
theorem And_MatchSet_loop_mono (ps extra : List Proof) : ∀ fs : List AssertionExpression,
    AssertionAnd.MatchSet.loop fs (NewProofSet ps) = true →
    AssertionAnd.MatchSet.loop fs (NewProofSet (ps ++ extra)) = true
  | [] => by
    intro _
    simp [AssertionAnd.MatchSet.loop]
  | f :: fs => by
    intro h
    rw [AssertionAnd.MatchSet.loop] at h ⊢
    by_cases hf : f.MatchSet (NewProofSet ps) = true
    · have hf2 := MatchSet_mono ps extra f hf
      rw [hf] at h
      rw [hf2]
      simp only [Bool.not_true, Bool.false_eq_true, if_false] at h ⊢
      exact And_MatchSet_loop_mono ps extra fs h
    · simp [hf] at h
end

/-- C23: matching is monotone in the proofs: an expression matched by the
proof set of `ps` is matched by the proof set of `ps ++ extra`; an And
without factors matches every proof set and an Or without terms none. -/
theorem C23_MatchSet_monotone_in_proofs :
    (∀ (e : AssertionExpression) (ps extra : List Proof),
      e.MatchSet (NewProofSet ps) = true → e.MatchSet (NewProofSet (ps ++ extra)) = true) ∧
    (∀ ps : ProofSet, (AssertionExpression.And []).MatchSet ps = true) ∧
    (∀ (symbol : String) (ps : ProofSet),
      (AssertionExpression.Or symbol []).MatchSet ps = false) := by
  refine ⟨fun e ps extra => MatchSet_mono ps extra e, ?_, ?_⟩
  · intro ps
    simp [AssertionExpression.MatchSet, AssertionAnd.MatchSet.loop]
  · intro symbol ps
    simp [AssertionExpression.MatchSet, AssertionOr.MatchSet.loop]

/-- C23 applied to `twitter:bob+keybase:alice` with the two matching proofs
and a further proof for `dns`. -/
theorem C23_MatchSet_monotone_in_proofs_witness :
    (AssertionExpression.And [.URL twBob, .URL kbAlice]).MatchSet
      (NewProofSet [⟨"twitter", "bob"⟩, ⟨"keybase", "alice"⟩]) = true ∧
    (AssertionExpression.And [.URL twBob, .URL kbAlice]).MatchSet
      (NewProofSet ([⟨"twitter", "bob"⟩, ⟨"keybase", "alice"⟩] ++ [⟨"dns", "example.com"⟩])) =
      true :=
  ⟨by decide,
   C23_MatchSet_monotone_in_proofs.1 (.And [.URL twBob, .URL kbAlice])
      [⟨"twitter", "bob"⟩, ⟨"keybase", "alice"⟩] [⟨"dns", "example.com"⟩] (by decide)⟩

/-! ## Implicit team names: repeats between writers and readers -/

/-- The loop of the user-set parser keeps every user it started with, and
every part it parsed is either seen before or among the users returned. -/
theorem userSet_loop_covers (env : Collaborators) (ctx : AssertionContext)
    (parts : List String) :
    ∀ (ret : keybase1.ImplicitTeamUserSet) (seen : Seen) (r : keybase1.ImplicitTeamUserSet)
      (seen2 : Seen),
    parseImplicitTeamUserSet.loop env ctx parts ret seen = (.ok r, seen2) →
    (∀ k ∈ canonicalStrings env ret, k ∈ canonicalStrings env r) ∧
    (∀ p ∈ parts, ∀ typ name, parseImplicitTeamPart env ctx p = .ok (typ, name) →
      seen (env.SocialAssertion_String name typ) = true ∨
        env.SocialAssertion_String name typ ∈ canonicalStrings env r) := by
  induction parts with
  | nil =>
    intro ret seen r seen2 h
    simp only [parseImplicitTeamUserSet.loop, Prod.mk.injEq, Except.ok.injEq] at h
    obtain ⟨rfl, _⟩ := h
    exact ⟨fun k hk => hk, fun p hp => absurd hp (List.not_mem_nil _)⟩
  | cons q qs ih =>
    intro ret seen r seen2 h
    rw [parseImplicitTeamUserSet.loop] at h
    cases hq : parseImplicitTeamPart env ctx q with
    | error e =>
      rw [hq] at h
      simp only [Prod.mk.injEq] at h
      exact absurd h.1 (by simp)
    | ok tn =>
      obtain ⟨t, n⟩ := tn
      rw [hq] at h
      simp only [keybase1.SocialAssertion.String] at h
      by_cases hs : seen (env.SocialAssertion_String n t) = true
      · rw [if_pos hs] at h
        obtain ⟨i1, i2⟩ := ih _ _ _ _ h
        refine ⟨i1, ?_⟩
        intro p hp typ name hpn
        rcases List.mem_cons.1 hp with rfl | hp
        · rw [hq] at hpn
          simp only [Except.ok.injEq, Prod.mk.injEq] at hpn
          obtain ⟨rfl, rfl⟩ := hpn
          exact Or.inl hs
        · exact i2 p hp typ name hpn
      · rw [if_neg hs] at h
        have hadd : ∀ (ret2 : keybase1.ImplicitTeamUserSet),
            (∀ k ∈ canonicalStrings env ret, k ∈ canonicalStrings env ret2) →
            env.SocialAssertion_String n t ∈ canonicalStrings env ret2 →
            parseImplicitTeamUserSet.loop env ctx qs ret2
              (fun k => if k = env.SocialAssertion_String n t then true else seen k) =
              (.ok r, seen2) →
            (∀ k ∈ canonicalStrings env ret, k ∈ canonicalStrings env r) ∧
            (∀ p ∈ q :: qs, ∀ typ name, parseImplicitTeamPart env ctx p = .ok (typ, name) →
              seen (env.SocialAssertion_String name typ) = true ∨
                env.SocialAssertion_String name typ ∈ canonicalStrings env r) := by
          intro ret2 hsub hnew h2
          obtain ⟨i1, i2⟩ := ih _ _ _ _ h2
          refine ⟨fun k hk => i1 k (hsub k hk), ?_⟩
          intro p hp typ name hpn
          rcases List.mem_cons.1 hp with rfl | hp
          · rw [hq] at hpn
            simp only [Except.ok.injEq, Prod.mk.injEq] at hpn
            obtain ⟨rfl, rfl⟩ := hpn
            exact Or.inr (i1 _ hnew)
          · rcases i2 p hp typ name hpn with h3 | h3
            · by_cases he : env.SocialAssertion_String name typ = env.SocialAssertion_String n t
              · rw [he]
                exact Or.inr (i1 _ hnew)
              · rw [if_neg he] at h3
                exact Or.inl h3
            · exact Or.inr h3
        by_cases ht : t = "keybase"
        · rw [if_pos ht] at h
          refine hadd _ ?_ ?_ h
          · intro k hk
            rw [mem_canonicalStrings] at hk ⊢
            rcases hk with ⟨m, hm, rfl⟩ | ⟨sa, hsa, rfl⟩
            · exact Or.inl ⟨m, List.mem_append_left _ hm, rfl⟩
            · exact Or.inr ⟨sa, hsa, rfl⟩
          · rw [mem_canonicalStrings]
            exact Or.inl ⟨n, by simp, by rw [ht]⟩
        · rw [if_neg ht] at h
          refine hadd _ ?_ ?_ h
          · intro k hk
            rw [mem_canonicalStrings] at hk ⊢
            rcases hk with ⟨m, hm, rfl⟩ | ⟨sa, hsa, rfl⟩
            · exact Or.inl ⟨m, hm, rfl⟩
            · exact Or.inr ⟨sa, List.mem_append_left _ hsa, rfl⟩
          · rw [mem_canonicalStrings]
            exact Or.inr ⟨⟨n, t⟩, by simp, rfl⟩

/-- Every part of a parsed user set is either seen before or among the
users returned. -/
theorem userSet_covers (env : Collaborators) (ctx : AssertionContext) (s : String)
    (seen : Seen) (u : keybase1.ImplicitTeamUserSet) (seen2 : Seen)
    (h : parseImplicitTeamUserSet env ctx s seen = (.ok u, seen2)) :
    ∀ p ∈ strings.Split s ',', ∀ typ name, parseImplicitTeamPart env ctx p = .ok (typ, name) →
      seen (env.SocialAssertion_String name typ) = true ∨
        env.SocialAssertion_String name typ ∈ canonicalStrings env u := by
  obtain ⟨r, hl, rfl⟩ := userSet_ok env ctx s seen u seen2 h
  intro p hp typ name hpn
  rcases (userSet_loop_covers env ctx _ _ _ _ _ hl).2 p hp typ name hpn with h1 | h1
  · exact Or.inl h1
  · exact Or.inr ((canonicalStrings_perm env _ r (sort_Slice_perm id _)
      (sort_Slice_perm _ _) _).mpr h1)

/-- The user-set parser succeeds exactly when every part parses, whatever
was seen before. -/
theorem userSet_success_iff (env : Collaborators) (ctx : AssertionContext) (s : String)
    (seen : Seen) :
    (∃ u seen2, parseImplicitTeamUserSet env ctx s seen = (.ok u, seen2)) ↔
      ∀ p ∈ strings.Split s ',', ∃ tn, parseImplicitTeamPart env ctx p = .ok tn := by
  rw [← userSet_loop_success env ctx (strings.Split s ',') ⟨[], []⟩ seen]
  constructor
  · rintro ⟨u, seen2, h⟩
    obtain ⟨r, hl, _⟩ := userSet_ok env ctx s seen u seen2 h
    exact ⟨r, seen2, hl⟩
  · rintro ⟨r, seen2, hl⟩
    refine ⟨{ KeybaseUsers := sort.Strings r.KeybaseUsers,
              UnresolvedUsers := sort.Slice (fun sa => sa.String env) r.UnresolvedUsers },
      seen2, ?_⟩
    unfold parseImplicitTeamUserSet
    rw [hl]

/-- The pieces of an accepted display name: the text before the first
space, its writers part and, after a `#`, its readers part; the writers are
parsed with nothing seen, the readers with what the writers left. -/
theorem displayName_parts (env : Collaborators) (ctx : AssertionContext) (s : String)
    (isPublic : Bool) (d : keybase1.ImplicitTeamDisplayName)
    (h : ParseImplicitTeamDisplayName env ctx s isPublic = .ok d) :
    ∃ (a : String) (conflict : List String) (wp : String) (rps : List String) (seen1 : Seen),
      strings.SplitN (strings.ToLower s) ' ' 2 = a :: conflict ∧
      strings.Split a '#' = wp :: rps ∧
      parseImplicitTeamUserSet env ctx wp (fun _ => false) = (.ok d.Writers, seen1) ∧
      ((rps = [] ∧ d.Readers = ⟨[], []⟩) ∨
        ∃ (rp : String) (seen2 : Seen), rps = [rp] ∧
          parseImplicitTeamUserSet env ctx rp seen1 = (.ok d.Readers, seen2)) := by
  unfold ParseImplicitTeamDisplayName at h
  simp only at h
  split at h
  · cases h
  · rename_i assertions conflict hsplit1
    split at h
    · cases h
    · rename_i hlen
      split at h
      · cases h
      · rename_i writersPart readersParts hsplit2
        split at h
        · cases h
        · rename_i writers seen1 hw
          split at h
          · cases h
          · rename_i hnum
            split at h
            · cases h
            · rename_i readers hr
              split at h
              · cases h
              · rename_i conflictInfo _
                simp only [Except.ok.injEq] at h
                subst h
                refine ⟨assertions, conflict, writersPart, readersParts, seen1, hsplit1,
                  hsplit2, hw, ?_⟩
                simp only
                split at hr
                · rename_i readersPart
                  right
                  exact ⟨readersPart, (parseImplicitTeamUserSet env ctx readersPart seen1).2,
                    rfl, by rw [← hr]⟩
                · rename_i hne
                  left
                  simp only [Except.ok.injEq] at hr
                  refine ⟨?_, hr.symm⟩
                  rw [hsplit2] at hlen
                  simp only [List.length_cons, gt_iff_lt, not_lt] at hlen
                  match readersParts, hne, hlen with
                  | [], _, _ => rfl
                  | [rp], hne, _ => exact absurd rfl (hne rp)
                  | _ :: _ :: _, _, hlen => simp at hlen

/-- A display name without suffix whose writers part and readers part
consist of parts that parse is accepted, whatever repeats they hold. -/
theorem displayName_accepts (env : Collaborators) (ctx : AssertionContext) (s : String)
    (isPublic : Bool) (a wp rp : String)
    (h1 : strings.SplitN (strings.ToLower s) ' ' 2 = [a])
    (h2 : strings.Split a '#' = [wp, rp])
    (hw : ∀ p ∈ strings.Split wp ',', ∃ tn, parseImplicitTeamPart env ctx p = .ok tn)
    (hr : ∀ p ∈ strings.Split rp ',', ∃ tn, parseImplicitTeamPart env ctx p = .ok tn) :
    ∃ d, ParseImplicitTeamDisplayName env ctx s isPublic = .ok d := by
  obtain ⟨writers, seen1, hw2⟩ := (userSet_success_iff env ctx wp (fun _ => false)).2 hw
  obtain ⟨readers, seen2, hr2⟩ := (userSet_success_iff env ctx rp seen1).2 hr
  have hpos := userSet_nonempty env ctx wp writers seen1 hw2
  refine ⟨⟨isPublic, none, writers, readers⟩, ?_⟩
  unfold ParseImplicitTeamDisplayName
  simp only []
  rw [h1]
  simp only []
  rw [h2]
  rw [if_neg (by simp)]
  simp only []
  rw [hw2]
  simp only []
  rw [if_neg (by omega), hr2]

/-- C16: in an accepted display name no canonical string belongs to a
writer and to a reader.  Every identity of the writers part is among the
writers and not among the readers, also when it occurs again in the readers
part; every identity of the readers part is kept, among the writers when it
occurred in the writers part and among the readers otherwise.  A repeat is
no error: a name without suffix is accepted as soon as every part of its
writers part and of its readers part parses.  So `alice#alice` parses to
the writer `alice` and no reader, and in
`alice,bob@twitter#bob@twitter,carol` the unresolved `bob@twitter` stays a
writer only. -/
theorem C16_writers_and_readers_disjoint :
    (∀ (env : Collaborators) (ctx : AssertionContext) (s : String) (isPublic : Bool)
      (d : keybase1.ImplicitTeamDisplayName),
      ParseImplicitTeamDisplayName env ctx s isPublic = .ok d →
      ∀ k ∈ canonicalStrings env d.Writers, k ∉ canonicalStrings env d.Readers) ∧
    (∀ (env : Collaborators) (ctx : AssertionContext) (s : String) (isPublic : Bool)
      (d : keybase1.ImplicitTeamDisplayName),
      ParseImplicitTeamDisplayName env ctx s isPublic = .ok d →
      ∃ (a : String) (conflict : List String) (wp : String) (rps : List String),
        strings.SplitN (strings.ToLower s) ' ' 2 = a :: conflict ∧
        strings.Split a '#' = wp :: rps ∧
        (∀ p ∈ strings.Split wp ',', ∀ typ name,
          parseImplicitTeamPart env ctx p = .ok (typ, name) →
          env.SocialAssertion_String name typ ∈ canonicalStrings env d.Writers ∧
          env.SocialAssertion_String name typ ∉ canonicalStrings env d.Readers) ∧
        (∀ rp ∈ rps, ∀ p ∈ strings.Split rp ',', ∀ typ name,
          parseImplicitTeamPart env ctx p = .ok (typ, name) →
          env.SocialAssertion_String name typ ∈ canonicalStrings env d.Writers ∨
          env.SocialAssertion_String name typ ∈ canonicalStrings env d.Readers)) ∧
    (∀ (env : Collaborators) (ctx : AssertionContext) (s : String) (isPublic : Bool)
      (a wp rp : String),
      strings.SplitN (strings.ToLower s) ' ' 2 = [a] →
      strings.Split a '#' = [wp, rp] →
      (∀ p ∈ strings.Split wp ',', ∃ tn, parseImplicitTeamPart env ctx p = .ok tn) →
      (∀ p ∈ strings.Split rp ',', ∃ tn, parseImplicitTeamPart env ctx p = .ok tn) →
      ∃ d, ParseImplicitTeamDisplayName env ctx s isPublic = .ok d) ∧
    ParseImplicitTeamDisplayName sampleEnv sampleCtx "alice#alice" false =
      .ok ⟨false, none, ⟨["alice"], []⟩, ⟨[], []⟩⟩ ∧
    ParseImplicitTeamDisplayName sampleEnv sampleCtx "alice,bob@twitter#bob@twitter,carol"
      false = .ok ⟨false, none, ⟨["alice"], [⟨"bob", "twitter"⟩]⟩, ⟨["carol"], []⟩⟩ := by
  have disjoint : ∀ (env : Collaborators) (ctx : AssertionContext) (s : String)
      (isPublic : Bool) (d : keybase1.ImplicitTeamDisplayName),
      ParseImplicitTeamDisplayName env ctx s isPublic = .ok d →
      ∀ k ∈ canonicalStrings env d.Writers, k ∉ canonicalStrings env d.Readers := by
    intro env ctx s isPublic d h k hk hk2
    obtain ⟨wp, seen1, hw, _, hr⟩ := displayName_ok env ctx s isPublic d h
    have h1 := ((userSet_sorted_fresh env ctx wp _ _ _ hw).2.2 k hk).2
    rcases hr with hr | ⟨rp, seen2, hr⟩
    · rw [hr] at hk2
      simp [canonicalStrings] at hk2
    · have h2 := ((userSet_sorted_fresh env ctx rp _ _ _ hr).2.2 k hk2).1
      rw [h1] at h2
      cases h2
  refine ⟨disjoint, ?_, displayName_accepts, by decide, by decide⟩
  intro env ctx s isPublic d h
  obtain ⟨a, conflict, wp, rps, seen1, h1, h2, hw, hr⟩ :=
    displayName_parts env ctx s isPublic d h
  have hwriter : ∀ p ∈ strings.Split wp ',', ∀ typ name,
      parseImplicitTeamPart env ctx p = .ok (typ, name) →
      env.SocialAssertion_String name typ ∈ canonicalStrings env d.Writers := by
    intro p hp typ name hpn
    rcases userSet_covers env ctx wp _ _ _ hw p hp typ name hpn with h0 | h0
    · cases h0
    · exact h0
  refine ⟨a, conflict, wp, rps, h1, h2, ?_, ?_⟩
  · intro p hp typ name hpn
    have hin := hwriter p hp typ name hpn
    exact ⟨hin, disjoint env ctx s isPublic d h _ hin⟩
  · intro rp hrp p hp typ name hpn
    rcases hr with ⟨rfl, _⟩ | ⟨rp2, seen2, rfl, hr⟩
    · cases hrp
    · rw [List.mem_singleton] at hrp
      subst hrp
      rcases userSet_covers env ctx rp _ _ _ hr p hp typ name hpn with h0 | h0
      · left
        obtain ⟨r, hl, _⟩ := userSet_ok env ctx wp _ _ _ hw
        rcases (userSet_loop_seen env ctx _ _ _ _ _ hl _).1 h0 with h3 | ⟨q, hq, t2, n2, hq2, he⟩
        · cases h3
        · rw [← he]
          exact hwriter q hq t2 n2 hq2
      · exact Or.inr h0

/-- C16 applied to `alice,bob#bob,carol`: `bob` stays a writer only, and
the name is accepted because each of its parts parses. -/
theorem C16_writers_and_readers_disjoint_witness :
    ParseImplicitTeamDisplayName sampleEnv sampleCtx "alice,bob#bob,carol" false =
      .ok ⟨false, none, ⟨["alice", "bob"], []⟩, ⟨["carol"], []⟩⟩ ∧
    (∀ k ∈ canonicalStrings sampleEnv ⟨["alice", "bob"], []⟩,
      k ∉ canonicalStrings sampleEnv ⟨["carol"], []⟩) ∧
    ∃ d, ParseImplicitTeamDisplayName sampleEnv sampleCtx "alice,bob#bob,carol" false = .ok d :=
  ⟨by decide,
   C16_writers_and_readers_disjoint.1 sampleEnv sampleCtx "alice,bob#bob,carol" false
     ⟨false, none, ⟨["alice", "bob"], []⟩, ⟨["carol"], []⟩⟩ (by decide),
   C16_writers_and_readers_disjoint.2.2.1 sampleEnv sampleCtx "alice,bob#bob,carol" false
     "alice,bob#bob,carol" "alice,bob" "bob,carol" (by decide) (by decide)
     (fun p hp => by
       have hs : strings.Split "alice,bob" ',' = ["alice", "bob"] := by decide
       rw [hs] at hp
       simp only [List.mem_cons, List.mem_singleton, List.not_mem_nil, or_false] at hp
       rcases hp with rfl | rfl
       · exact ⟨("keybase", "alice"), by decide⟩
       · exact ⟨("keybase", "bob"), by decide⟩)
     (fun p hp => by
       have hs : strings.Split "bob,carol" ',' = ["bob", "carol"] := by decide
       rw [hs] at hp
       simp only [List.mem_cons, List.mem_singleton, List.not_mem_nil, or_false] at hp
       rcases hp with rfl | rfl
       · exact ⟨("keybase", "bob"), by decide⟩
       · exact ⟨("keybase", "carol"), by decide⟩)⟩

/-! ## Implicit team names: what a part becomes in the user set -/

/-- The users the loop returns are those it started with and users parsed
from the parts, a Keybase user from a part of type `keybase` and an
unresolved user from a part of another type. -/
theorem userSet_loop_sound (env : Collaborators) (ctx : AssertionContext)
    (parts : List String) :
    ∀ (ret : keybase1.ImplicitTeamUserSet) (seen : Seen) (r : keybase1.ImplicitTeamUserSet)
      (seen2 : Seen),
    parseImplicitTeamUserSet.loop env ctx parts ret seen = (.ok r, seen2) →
    (∀ n ∈ r.KeybaseUsers, n ∈ ret.KeybaseUsers ∨
      ∃ p ∈ parts, parseImplicitTeamPart env ctx p = .ok ("keybase", n)) ∧
    (∀ sa ∈ r.UnresolvedUsers, sa ∈ ret.UnresolvedUsers ∨
      (sa.Service ≠ "keybase" ∧
        ∃ p ∈ parts, parseImplicitTeamPart env ctx p = .ok (sa.Service, sa.User))) := by
  induction parts with
  | nil =>
    intro ret seen r seen2 h
    simp only [parseImplicitTeamUserSet.loop, Prod.mk.injEq, Except.ok.injEq] at h
    obtain ⟨rfl, _⟩ := h
    exact ⟨fun n hn => Or.inl hn, fun sa hsa => Or.inl hsa⟩
  | cons q qs ih =>
    intro ret seen r seen2 h
    rw [parseImplicitTeamUserSet.loop] at h
    cases hq : parseImplicitTeamPart env ctx q with
    | error e =>
      rw [hq] at h
      simp only [Prod.mk.injEq] at h
      exact absurd h.1 (by simp)
    | ok tn =>
      obtain ⟨t, n⟩ := tn
      rw [hq] at h
      simp only at h
      have lift : ∀ (ret2 : keybase1.ImplicitTeamUserSet) (seen3 : Seen),
          parseImplicitTeamUserSet.loop env ctx qs ret2 seen3 = (.ok r, seen2) →
          (∀ m ∈ ret2.KeybaseUsers, m ∈ ret.KeybaseUsers ∨ (t = "keybase" ∧ m = n)) →
          (∀ sa ∈ ret2.UnresolvedUsers, sa ∈ ret.UnresolvedUsers ∨
            (t ≠ "keybase" ∧ sa = ⟨n, t⟩)) →
          (∀ m ∈ r.KeybaseUsers, m ∈ ret.KeybaseUsers ∨
            ∃ p ∈ q :: qs, parseImplicitTeamPart env ctx p = .ok ("keybase", m)) ∧
          (∀ sa ∈ r.UnresolvedUsers, sa ∈ ret.UnresolvedUsers ∨
            (sa.Service ≠ "keybase" ∧
              ∃ p ∈ q :: qs, parseImplicitTeamPart env ctx p = .ok (sa.Service, sa.User))) := by
        intro ret2 seen3 h2 hk hu
        obtain ⟨i1, i2⟩ := ih _ _ _ _ h2
        constructor
        · intro m hm
          rcases i1 m hm with h3 | ⟨p, hp, hpm⟩
          · rcases hk m h3 with h4 | ⟨h4, rfl⟩
            · exact Or.inl h4
            · exact Or.inr ⟨q, List.mem_cons_self _ _, by rw [hq, h4]⟩
          · exact Or.inr ⟨p, List.mem_cons_of_mem _ hp, hpm⟩
        · intro sa hsa
          rcases i2 sa hsa with h3 | ⟨hne, p, hp, hpm⟩
          · rcases hu sa h3 with h4 | ⟨h4, rfl⟩
            · exact Or.inl h4
            · exact Or.inr ⟨h4, q, List.mem_cons_self _ _, hq⟩
          · exact Or.inr ⟨hne, p, List.mem_cons_of_mem _ hp, hpm⟩
      split_ifs at h with hs ht
      · exact lift _ _ h (fun m hm => Or.inl hm) (fun sa hsa => Or.inl hsa)
      · refine lift _ _ h ?_ (fun sa hsa => Or.inl hsa)
        intro m hm
        rcases List.mem_append.1 hm with h0 | h0
        · exact Or.inl h0
        · exact Or.inr ⟨ht, by simpa using h0⟩
      · refine lift _ _ h (fun m hm => Or.inl hm) ?_
        intro sa hsa
        rcases List.mem_append.1 hsa with h0 | h0
        · exact Or.inl h0
        · exact Or.inr ⟨ht, by simpa using h0⟩

/-- The users of a parsed user set come from its parts: the Keybase users
from parts of type `keybase`, the unresolved users from parts of another
type. -/
theorem userSet_sound (env : Collaborators) (ctx : AssertionContext) (s : String)
    (seen : Seen) (u : keybase1.ImplicitTeamUserSet) (seen2 : Seen)
    (h : parseImplicitTeamUserSet env ctx s seen = (.ok u, seen2)) :
    (∀ n ∈ u.KeybaseUsers,
      ∃ p ∈ strings.Split s ',', parseImplicitTeamPart env ctx p = .ok ("keybase", n)) ∧
    (∀ sa ∈ u.UnresolvedUsers, sa.Service ≠ "keybase" ∧
      ∃ p ∈ strings.Split s ',', parseImplicitTeamPart env ctx p = .ok (sa.Service, sa.User)) := by
  obtain ⟨r, hl, rfl⟩ := userSet_ok env ctx s seen u seen2 h
  obtain ⟨i1, i2⟩ := userSet_loop_sound env ctx _ _ _ _ _ hl
  constructor
  · intro n hn
    have hn2 : n ∈ r.KeybaseUsers := (sort_Slice_perm id r.KeybaseUsers).mem_iff.1 hn
    rcases i1 n hn2 with h0 | h0
    · cases h0
    · exact h0
  · intro sa hsa
    have hsa2 : sa ∈ r.UnresolvedUsers := (sort_Slice_perm _ r.UnresolvedUsers).mem_iff.1 hsa
    rcases i2 sa hsa2 with h0 | h0
    · cases h0
    · exact h0

/-- Where the canonical string tells users apart, a part that parses and
was not seen before is among the Keybase users when its type is `keybase`
and among the unresolved users otherwise. -/
theorem userSet_classifies (env : Collaborators) (ctx : AssertionContext)
    (hinj : CanonicalStringInjective env) (s : String)
    (seen : Seen) (u : keybase1.ImplicitTeamUserSet) (seen2 : Seen)
    (h : parseImplicitTeamUserSet env ctx s seen = (.ok u, seen2))
    (p : String) (hp : p ∈ strings.Split s ',') (typ name : String)
    (hpn : parseImplicitTeamPart env ctx p = .ok (typ, name))
    (hseen : seen (env.SocialAssertion_String name typ) = false) :
    (typ = "keybase" → name ∈ u.KeybaseUsers) ∧
    (typ ≠ "keybase" → (⟨name, typ⟩ : keybase1.SocialAssertion) ∈ u.UnresolvedUsers) := by
  have hd := parseImplicitTeamPart_typ_delimiterFree env ctx p typ name hpn
  obtain ⟨s1, s2⟩ := userSet_sound env ctx s seen u seen2 h
  have hin : env.SocialAssertion_String name typ ∈ canonicalStrings env u := by
    rcases userSet_covers env ctx s seen u seen2 h p hp typ name hpn with h0 | h0
    · rw [hseen] at h0
      cases h0
    · exact h0
  rw [mem_canonicalStrings] at hin
  rcases hin with ⟨n, hn, he⟩ | ⟨sa, hsa, he⟩
  · obtain ⟨rfl, rfl⟩ := hinj _ _ _ _ delimiterFree_keybase hd he
    exact ⟨fun _ => hn, fun hne => absurd rfl hne⟩
  · obtain ⟨hne, q, _, hq⟩ := s2 sa hsa
    have hd2 := parseImplicitTeamPart_typ_delimiterFree env ctx q _ _ hq
    have he2 : env.SocialAssertion_String sa.User sa.Service =
        env.SocialAssertion_String name typ := he
    obtain ⟨h1, h2⟩ := hinj _ _ _ _ hd2 hd he2
    constructor
    · intro ht
      rw [← h2] at ht
      exact absurd ht hne
    · intro _
      have : sa = ⟨name, typ⟩ := by
        cases sa
        simp only at h1 h2
        rw [h1, h2]
      rw [← this]
      exact hsa

/-- C17, as the code has it: a part without `:` and `@` that passes the
username check is a Keybase user, under its lowercased name; a part with
exactly one delimiter that the strict atom parser accepts yields the key and
value of the atom; a part with more than one delimiter is rejected. The
user-set parser, on an input of any number of parts, makes a part an
unresolved reference unless its key is `keybase`, in which case it is a
Keybase user: every Keybase user it returns comes from a part of type
`keybase`, every unresolved user from a part of another type, every part is
seen before or among the returned users, and, where the canonical string
tells users apart, a part not seen before is a Keybase user when its type is
`keybase` and an unresolved user otherwise. -/
theorem C17_parts_of_the_user_set (env : Collaborators) (ctx : AssertionContext) :
    (∀ s : String, strings.Count s ':' + strings.Count s '@' = 0 →
      env.CheckUsername_F s = true →
      parseImplicitTeamPart env ctx s = .ok ("keybase", strings.ToLower s)) ∧
    (∀ s : String, strings.Count s ':' + strings.Count s '@' = 1 →
      (ParseAssertionURL env ctx s true).err = none →
      ∃ a, (ParseAssertionURL env ctx s true).ret = some a ∧
        parseImplicitTeamPart env ctx s = .ok (a.GetKey, a.GetValue)) ∧
    (∀ s : String, strings.Count s ':' + strings.Count s '@' > 1 →
      parseImplicitTeamPart env ctx s = .error
        (.Errorf "Invalid implicit team part, can have at most one ':' xor '@': %v" [s])) ∧
    (∀ (s typ name : String) (seen : Seen), ',' ∉ s.data →
      parseImplicitTeamPart env ctx s = .ok (typ, name) →
      seen (env.SocialAssertion_String name typ) = false →
      (typ = "keybase" →
        (parseImplicitTeamUserSet env ctx s seen).1 = .ok ⟨[name], []⟩) ∧
      (typ ≠ "keybase" →
        (parseImplicitTeamUserSet env ctx s seen).1 = .ok ⟨[], [⟨name, typ⟩]⟩)) ∧
    (∀ (s : String) (seen : Seen) (u : keybase1.ImplicitTeamUserSet),
      (parseImplicitTeamUserSet env ctx s seen).1 = .ok u →
      (∀ n ∈ u.KeybaseUsers,
        ∃ p ∈ strings.Split s ',', parseImplicitTeamPart env ctx p = .ok ("keybase", n)) ∧
      (∀ sa ∈ u.UnresolvedUsers, sa.Service ≠ "keybase" ∧
        ∃ p ∈ strings.Split s ',',
          parseImplicitTeamPart env ctx p = .ok (sa.Service, sa.User)) ∧
      (∀ p ∈ strings.Split s ',', ∀ typ name : String,
        parseImplicitTeamPart env ctx p = .ok (typ, name) →
        seen (env.SocialAssertion_String name typ) = true ∨
          env.SocialAssertion_String name typ ∈ canonicalStrings env u)) ∧
    (CanonicalStringInjective env →
      ∀ (s : String) (seen : Seen) (u : keybase1.ImplicitTeamUserSet),
      (parseImplicitTeamUserSet env ctx s seen).1 = .ok u →
      ∀ p ∈ strings.Split s ',', ∀ typ name : String,
        parseImplicitTeamPart env ctx p = .ok (typ, name) →
        seen (env.SocialAssertion_String name typ) = false →
        (typ = "keybase" → name ∈ u.KeybaseUsers) ∧
        (typ ≠ "keybase" →
          (⟨name, typ⟩ : keybase1.SocialAssertion) ∈ u.UnresolvedUsers)) := by
  refine ⟨?_, ?_, ?_, ?_, ?_, ?_⟩
  · intro s h0 hu
    unfold parseImplicitTeamPart
    simp only []
    rw [if_neg (by omega), if_pos h0, if_pos hu]
  · intro s h1 herr
    obtain ⟨a, ha⟩ := ParseAssertionURL_ret env ctx s true herr
    refine ⟨a, ha, ?_⟩
    unfold parseImplicitTeamPart
    simp only []
    rw [if_neg (by omega), if_neg (by omega), herr, ha]
  · intro s h
    unfold parseImplicitTeamPart
    simp only []
    rw [if_pos h]
  · intro s typ name seen hcomma hp hseen
    have := userSet_single env ctx s typ name seen hcomma hp hseen
    constructor
    · intro ht
      rw [this, if_pos ht]
    · intro ht
      rw [this, if_neg ht]
  · intro s seen u h
    have h2 : parseImplicitTeamUserSet env ctx s seen =
        (.ok u, (parseImplicitTeamUserSet env ctx s seen).2) := Prod.ext h rfl
    obtain ⟨s1, s2⟩ := userSet_sound env ctx s seen u _ h2
    exact ⟨s1, s2, fun p hp typ name hpn => userSet_covers env ctx s seen u _ h2 p hp typ name hpn⟩
  · intro hinj s seen u h p hp typ name hpn hseen
    have h2 : parseImplicitTeamUserSet env ctx s seen =
        (.ok u, (parseImplicitTeamUserSet env ctx s seen).2) := Prod.ext h rfl
    exact userSet_classifies env ctx hinj s seen u _ h2 p hp typ name hpn hseen

/-- C17 applied in the sample environment: the part `alice@twitter`, and the
three parts of `bob@twitter,alice,carol@keybase`, of which `bob@twitter` is
the one unresolved reference; the part `bob@` followed by `keybase` spelled
with the Kelvin sign has the key `keybase` after lowercasing. -/
theorem C17_parts_of_the_user_set_witness :
    strings.Count "alice@twitter" ':' + strings.Count "alice@twitter" '@' = 1 ∧
    (ParseAssertionURL sampleEnv sampleCtx "alice@twitter" true).err = none ∧
    (∃ a, (ParseAssertionURL sampleEnv sampleCtx "alice@twitter" true).ret = some a ∧
      parseImplicitTeamPart sampleEnv sampleCtx "alice@twitter" = .ok (a.GetKey, a.GetValue)) ∧
    (parseImplicitTeamUserSet sampleEnv sampleCtx "alice@twitter" (fun _ => false)).1 =
      .ok ⟨[], [⟨"alice", "twitter"⟩]⟩ ∧
    (parseImplicitTeamUserSet sampleEnv sampleCtx "bob@twitter,alice,carol@keybase"
      (fun _ => false)).1 = .ok ⟨["alice", "carol"], [⟨"bob", "twitter"⟩]⟩ ∧
    (∀ sa ∈ [(⟨"bob", "twitter"⟩ : keybase1.SocialAssertion)], sa.Service ≠ "keybase" ∧
      ∃ p ∈ strings.Split "bob@twitter,alice,carol@keybase" ',',
        parseImplicitTeamPart sampleEnv sampleCtx p = .ok (sa.Service, sa.User)) ∧
    "carol" ∈ ["alice", "carol"] ∧
    parseImplicitTeamPart sampleEnv sampleCtx "bob@\u212aeybase" = .ok ("keybase", "bob") ∧
    (parseImplicitTeamUserSet sampleEnv sampleCtx "bob@\u212aeybase" (fun _ => false)).1 =
      .ok ⟨["bob"], []⟩ :=
  ⟨by decide, by decide,
   (C17_parts_of_the_user_set sampleEnv sampleCtx).2.1 "alice@twitter" (by decide) (by decide),
   ((C17_parts_of_the_user_set sampleEnv sampleCtx).2.2.2.1 "alice@twitter" "twitter" "alice"
      (fun _ => false) (by decide) (by decide) (by decide)).2 (by decide),
   by decide,
   ((C17_parts_of_the_user_set sampleEnv sampleCtx).2.2.2.2.1 "bob@twitter,alice,carol@keybase"
      (fun _ => false) ⟨["alice", "carol"], [⟨"bob", "twitter"⟩]⟩ (by decide)).2.1,
   ((C17_parts_of_the_user_set sampleEnv sampleCtx).2.2.2.2.2 sampleEnv_injective
      "bob@twitter,alice,carol@keybase" (fun _ => false)
      ⟨["alice", "carol"], [⟨"bob", "twitter"⟩]⟩ (by decide) "carol@keybase" (by decide)
      "keybase" "carol" (by decide) (by decide)).1 rfl,
   by decide, by decide⟩

/-- C17 fails as stated: the part `alice@keybase` holds exactly one
delimiter and the strict atom parser accepts it, yet the user-set parser
makes it a Keybase user, not an unresolved reference. -/
theorem C17_counterexample :
    strings.Count "alice@keybase" ':' + strings.Count "alice@keybase" '@' = 1 ∧
    ParseAssertionURL sampleEnv sampleCtx "alice@keybase" true =
      ⟨some (.Keybase ⟨"keybase", "alice"⟩), none⟩ ∧
    (parseImplicitTeamUserSet sampleEnv sampleCtx "alice@keybase" (fun _ => false)).1 =
      .ok ⟨["alice"], []⟩ := by
  decide

end libkb
